import Mathlib

/-!
Verification of the Sudoku solver/generator (`Fastsolver.cpp`).

The development shallow-embeds the C++ source: the 9×9 board is a function
`Fin 9 → Fin 9 → Nat` (0 = empty, 1..9 = digit), the bitmask constraint state
is a triple of `Nat → Nat` mask arrays, and the recursive backtracking search
is embedded with an explicit recursion-depth bound (`fuel`), which we prove is
never exhausted when it is at least the number of empty cells plus one.
Machine-integer operations (`~used & 0x1FF`, `m & -m`, `mask &= ~bit`) are
embedded on `Nat` with the 32-bit complement made explicit.
-/

set_option maxRecDepth 2000
set_option linter.constructorNameAsVariable false
set_option linter.unusedVariables false

namespace Fastsolver

/-- A 9×9 Sudoku board; entry 0 means empty, 1..9 a placed digit.
Embeds `using Board = array<array<int,9>,9>`. -/
abbrev Board := Fin 9 → Fin 9 → Nat

/-- `blockIndex(r, c) = (r/3)*3 + (c/3)`. -/
def blockIndex (r c : Nat) : Nat := (r / 3) * 3 + c / 3

/-- Write value `v` into cell `(r, c)` (embeds `board[r][c] = v`). -/
def setCell (b : Board) (r c : Fin 9) (v : Nat) : Board :=
  fun r2 c2 => if r2 = r ∧ c2 = c then v else b r2 c2

/-- All 81 cells in row-major order, as produced by
`for (r=0..8) for (c=0..8)` loops in the source. -/
def allCells : List (Fin 9 × Fin 9) :=
  (List.finRange 9).flatMap fun r => (List.finRange 9).map fun c => (r, c)

/-- The number of trailing zero bits (embeds `__builtin_ctz`; total, 0 at 0). -/
def ctz (n : Nat) : Nat :=
  if n = 0 then 0
  else if n % 2 = 1 then 0
  else ctz (n / 2) + 1
decreasing_by exact Nat.div_lt_self (Nat.pos_of_ne_zero (by assumption)) (by omega)

/-- Number of set bits (embeds `__builtin_popcount`). -/
def popcount (n : Nat) : Nat :=
  if n = 0 then 0 else n % 2 + popcount (n / 2)
decreasing_by exact Nat.div_lt_self (Nat.pos_of_ne_zero (by assumption)) (by omega)

/-- The lowest set bit of `m`: embeds `m & -m` (two's complement on a 32-bit
`int`; for `0 < m < 2^32` this equals `m &&& (2^32 - m)`, proved in
`land_two_pow_sub_eq_lowBit`). -/
def lowBit (m : Nat) : Nat := 2 ^ ctz m

/-- Every nonzero number is `2 ^ ctz` times an odd number. -/
theorem ctz_decomp (n : Nat) (hn : n ≠ 0) :
    ∃ q, q % 2 = 1 ∧ n = 2 ^ ctz n * q := by
  induction n using Nat.strong_induction_on with
  | _ n ih =>
    rw [ctz]
    simp only [hn, if_false]
    by_cases h2 : n % 2 = 1
    · exact ⟨n, h2, by simp [h2]⟩
    · have hne : n / 2 ≠ 0 := by omega
      obtain ⟨q, hq1, hq2⟩ := ih (n / 2) (by omega) hne
      simp only [h2, if_false]
      refine ⟨q, hq1, ?_⟩
      rw [pow_succ]
      have h3 : 2 ^ ctz (n / 2) * 2 * q = 2 * (2 ^ ctz (n / 2) * q) := by ring
      omega

theorem popcount_eq_zero (n : Nat) : popcount n = 0 ↔ n = 0 := by
  induction n using Nat.strong_induction_on with
  | _ n ih =>
    rw [popcount]
    by_cases hn : n = 0
    · simp [hn]
    · simp only [hn, if_false, iff_false]
      intro h
      have h3 : popcount (n / 2) = 0 := by omega
      have := (ih (n / 2) (Nat.div_lt_self (by omega) (by omega))).mp h3
      omega

theorem popcount_le_of_lt_two_pow : ∀ k n, n < 2 ^ k → popcount n ≤ k := by
  intro k
  induction k with
  | zero => intro n h; interval_cases n; rw [popcount]; simp
  | succ k ih =>
    intro n h
    by_cases hn : n = 0
    · subst hn; rw [popcount]; simp
    · rw [popcount]
      simp only [hn, if_false]
      have : n / 2 < 2 ^ k := by
        rw [pow_succ] at h; omega
      have := ih (n / 2) this
      omega

theorem lowBit_pos (m : Nat) : 0 < lowBit m := Nat.pos_pow_of_pos _ (by norm_num)

theorem lowBit_le (m : Nat) (hm : m ≠ 0) : lowBit m ≤ m := by
  obtain ⟨q, hq1, hq2⟩ := ctz_decomp m hm
  set t := ctz m with ht
  rw [lowBit, ← ht]
  have h1 : 1 ≤ q := by omega
  have h2 : 2 ^ t * 1 ≤ 2 ^ t * q := Nat.mul_le_mul_left _ h1
  omega

theorem sub_lowBit_lt (m : Nat) (hm : m ≠ 0) : m - lowBit m < m := by
  have := lowBit_pos m
  have := lowBit_le m hm
  omega

/-- `testBit` below the trailing-zero count is false. -/
theorem testBit_ctz_lt (m k : Nat) (hk : k < ctz m) : m.testBit k = false := by
  by_cases hm : m = 0
  · simp [hm]
  obtain ⟨q, hq1, hq2⟩ := ctz_decomp m hm
  set t := ctz m with ht
  rw [hq2, Nat.testBit_mul_pow_two]
  simp [Nat.not_le_of_lt hk]

theorem testBit_ctz_self (m : Nat) (hm : m ≠ 0) : m.testBit (ctz m) = true := by
  obtain ⟨q, hq1, hq2⟩ := ctz_decomp m hm
  set t := ctz m with ht
  rw [hq2, Nat.testBit_mul_pow_two]
  simp [Nat.testBit_zero]
  omega

/-- For odd `q`, the bits of `q - 1` agree with those of `q` except bit 0. -/
theorem testBit_odd_sub_one (q : Nat) (hq : q % 2 = 1) (k : Nat) :
    (q - 1).testBit k = (q.testBit k && !(decide (k = 0))) := by
  cases k with
  | zero => simp [Nat.testBit_zero]; omega
  | succ k =>
    rw [Nat.testBit_add_one, Nat.testBit_add_one]
    have : (q - 1) / 2 = q / 2 := by omega
    simp [this]

/-- Subtracting the lowest set bit clears exactly the `ctz` bit. -/
theorem testBit_sub_lowBit (m : Nat) (hm : m ≠ 0) (k : Nat) :
    (m - lowBit m).testBit k = (m.testBit k && !(decide (k = ctz m))) := by
  obtain ⟨q, hq1, hq2⟩ := ctz_decomp m hm
  set t := ctz m with ht
  have hsub : m - lowBit m = 2 ^ t * (q - 1) := by
    rw [lowBit, ← ht, hq2]
    have h3 : 2 ^ t * (q - 1) = 2 ^ t * q - 2 ^ t * 1 := by
      rw [← Nat.mul_sub]
    omega
  rcases Nat.lt_trichotomy k t with hk | hk | hk
  · rw [testBit_ctz_lt m k (ht ▸ hk), hsub, Nat.testBit_mul_pow_two]
    simp [Nat.not_le_of_lt hk]
  · subst hk
    rw [hsub, Nat.testBit_mul_pow_two]
    simp [testBit_odd_sub_one q hq1]
  · rw [hsub, Nat.testBit_mul_pow_two]
    conv_rhs => rw [hq2]
    rw [Nat.testBit_mul_pow_two, testBit_odd_sub_one q hq1]
    have h1 : t ≤ k := le_of_lt hk
    have h2 : k - t ≠ 0 := by omega
    simp [h1, h2, Nat.ne_of_gt hk]

/-- Faithfulness of `lowBit` to the source's `m & -m`:
on nonzero 32-bit values, `m &&& (2^32 - m)` is the lowest set bit. -/
theorem land_two_pow_sub_eq_lowBit (m : Nat) (h0 : 0 < m) (h32 : m < 2 ^ 32) :
    m &&& (2 ^ 32 - m) = lowBit m := by
  obtain ⟨q, hq1, hq2⟩ := ctz_decomp m (by omega)
  set t := ctz m with ht
  have htle : 2 ^ t ≤ m := ht ▸ lowBit_le m (by omega)
  have htlt : t < 32 := by
    by_contra hcon
    have : (2 : Nat) ^ 32 ≤ 2 ^ t := Nat.pow_le_pow_right (by norm_num) (by omega)
    omega
  have hexp : 2 ^ t * 2 ^ (32 - t) = 2 ^ 32 := by
    rw [← pow_add]; congr 1; omega
  have hqlt : q < 2 ^ (32 - t) := by
    by_contra hcon
    have : 2 ^ t * 2 ^ (32 - t) ≤ 2 ^ t * q := Nat.mul_le_mul_left _ (by omega)
    omega
  have hsub : 2 ^ 32 - m = 2 ^ t * (2 ^ (32 - t) - q) := by
    rw [hq2, Nat.mul_sub, hexp]
  apply Nat.eq_of_testBit_eq
  intro i
  rw [Nat.testBit_and, hsub, lowBit, ← ht, Nat.testBit_mul_pow_two,
    Nat.testBit_two_pow]
  conv_lhs => rw [hq2, Nat.testBit_mul_pow_two]
  by_cases hi : t ≤ i
  · have hq0 : q ≠ 0 := by omega
    have hwrite : 2 ^ (32 - t) - q = 2 ^ (32 - t) - ((q - 1) + 1) := by omega
    rw [hwrite, Nat.testBit_two_pow_sub_succ (by omega)]
    rcases Nat.eq_or_lt_of_le hi with he | hlt
    · have hz : i - t = 0 := by omega
      rw [hz, testBit_odd_sub_one q hq1]
      simp [hi, he]
      omega
    · have hne : i - t ≠ 0 := by omega
      rw [testBit_odd_sub_one q hq1]
      have hfn : ¬(t = i) := by omega
      cases hqb : q.testBit (i - t) <;> simp [hqb, hfn, hne, hi]
  · have hfn : ¬(t = i) := by omega
    simp [hi, hfn]

/-- The digits encoded in a bitmask, lowest first: bit `d-1` set yields digit
`d`.  Embeds the `while (mask) { lb = mask & -mask; push ctz(lb)+1; mask -= lb }`
digit-collection loops of the generator. -/
def digitsOfMask (m : Nat) : List Nat :=
  if h : m = 0 then []
  else (ctz (lowBit m) + 1) :: digitsOfMask (m - lowBit m)
decreasing_by exact sub_lowBit_lt m h

theorem ctz_two_pow (k : Nat) : ctz (2 ^ k) = k := by
  induction k with
  | zero => rw [ctz]; norm_num
  | succ k ih =>
    rw [ctz]
    have h1 : (2 : Nat) ^ (k + 1) ≠ 0 := by positivity
    have h2 : (2 : Nat) ^ (k + 1) % 2 = 0 := by
      rw [pow_succ, Nat.mul_mod_left]
    have h3 : (2 : Nat) ^ (k + 1) / 2 = 2 ^ k := by
      rw [pow_succ, Nat.mul_div_cancel _ (by norm_num)]
    simp [h1, h2, h3, ih]

theorem ctz_lowBit (m : Nat) : ctz (lowBit m) = ctz m := by
  rw [lowBit, ctz_two_pow]

theorem mem_digitsOfMask (m d : Nat) :
    d ∈ digitsOfMask m ↔ 1 ≤ d ∧ m.testBit (d - 1) = true := by
  induction m using Nat.strong_induction_on with
  | _ m ih =>
    rw [digitsOfMask]
    by_cases hm : m = 0
    · simp [hm]
    · simp only [hm, dif_neg, not_false_iff, List.mem_cons]
      rw [ih (m - lowBit m) (sub_lowBit_lt m hm), ctz_lowBit]
      constructor
      · rintro (rfl | ⟨h1, h2⟩)
        · exact ⟨by omega, by simpa using testBit_ctz_self m hm⟩
        · rw [testBit_sub_lowBit m hm] at h2
          exact ⟨h1, by revert h2; cases h : m.testBit (d - 1) <;> simp⟩
      · rintro ⟨h1, h2⟩
        by_cases hd : d - 1 = ctz m
        · left; omega
        · right
          refine ⟨h1, ?_⟩
          rw [testBit_sub_lowBit m hm, h2]
          simp [hd]

/-! ### Boards, validity and solution counting -/

/-- All cell values are in `{0, 1..9}` (the Board datatype contract from the
spec's data model; the I/O boundary guarantees it). -/
def InRange (b : Board) : Prop := ∀ r c : Fin 9, b r c ≤ 9

/-- Two (possibly equal) positions share a row, a column, or a 3×3 block. -/
def SameUnit (p1 p2 : Fin 9 × Fin 9) : Prop :=
  p1.1 = p2.1 ∨ p1.2 = p2.2 ∨ blockIndex p1.1.val p1.2.val = blockIndex p2.1.val p2.2.val

/-- No two distinct cells in a common unit hold the same nonzero value. -/
def ConflictFree (b : Board) : Prop :=
  ∀ p1 p2 : Fin 9 × Fin 9, p1 ≠ p2 → SameUnit p1 p2 →
    b p1.1 p1.2 ≠ 0 → b p1.1 p1.2 ≠ b p2.1 p2.2

/-- Every cell is filled. -/
def IsFilled (b : Board) : Prop := ∀ r c : Fin 9, b r c ≠ 0

/-- A completely filled, in-range, conflict-free board: a solved grid. -/
def IsValidFull (b : Board) : Prop := IsFilled b ∧ InRange b ∧ ConflictFree b

/-- `s` agrees with `b` on all filled cells of `b`. -/
def Extends (b s : Board) : Prop := ∀ r c : Fin 9, b r c ≠ 0 → s r c = b r c

/-- `s` is a solution of the puzzle `b`: a solved grid extending `b`. -/
def IsCompletion (b s : Board) : Prop := IsValidFull s ∧ Extends b s

instance (b : Board) : Decidable (InRange b) := by unfold InRange; infer_instance

instance (p1 p2 : Fin 9 × Fin 9) : Decidable (SameUnit p1 p2) := by
  unfold SameUnit; infer_instance

instance (b : Board) : Decidable (ConflictFree b) := by
  unfold ConflictFree; infer_instance

instance (b : Board) : Decidable (IsFilled b) := by unfold IsFilled; infer_instance

instance (b : Board) : Decidable (IsValidFull b) := by
  unfold IsValidFull; infer_instance

instance (b s : Board) : Decidable (Extends b s) := by unfold Extends; infer_instance

instance (b s : Board) : Decidable (IsCompletion b s) := by
  unfold IsCompletion; infer_instance

/-- The (finite) space of boards with all entries in 1..9. -/
def boardSpace : Finset Board :=
  Finset.image (fun f : Fin 9 → Fin 9 → Fin 9 => fun r c => (f r c : Nat) + 1)
    Finset.univ

/-- The solutions of puzzle `b`, as a finite set. -/
def completions (b : Board) : Finset Board :=
  boardSpace.filter (fun s => IsCompletion b s)

/-- The number of solutions of puzzle `b`. -/
def numSolutions (b : Board) : Nat := (completions b).card

theorem mem_completions (b s : Board) :
    s ∈ completions b ↔ IsCompletion b s := by
  rw [completions, Finset.mem_filter]
  constructor
  · exact fun h => h.2
  · intro h
    refine ⟨?_, h⟩
    rw [boardSpace, Finset.mem_image]
    have hb : ∀ r c : Fin 9, 1 ≤ s r c ∧ s r c ≤ 9 := fun r c =>
      ⟨Nat.one_le_iff_ne_zero.mpr (h.1.1 r c), h.1.2.1 r c⟩
    refine ⟨fun r c => ⟨s r c - 1, ?_⟩, by simp, ?_⟩
    · have := hb r c; omega
    · funext r c
      have := hb r c
      simp only []
      omega

theorem completions_of_full (b : Board) (hb : IsValidFull b) :
    completions b = {b} := by
  ext s
  rw [mem_completions, Finset.mem_singleton]
  constructor
  · rintro ⟨hs, hext⟩
    funext r c
    exact hext r c (hb.1 r c)
  · rintro rfl
    exact ⟨hb, fun r c h => rfl⟩

theorem numSolutions_of_full (b : Board) (hb : IsValidFull b) :
    numSolutions b = 1 := by
  rw [numSolutions, completions_of_full b hb, Finset.card_singleton]

theorem completions_empty_of_conflict (b : Board) (hb : ¬ ConflictFree b) :
    completions b = ∅ := by
  ext s
  simp only [Finset.not_mem_empty, iff_false]
  rw [mem_completions]
  rintro ⟨hs, hext⟩
  apply hb
  intro p1 p2 hne hunit h0
  have h1 : s p1.1 p1.2 = b p1.1 p1.2 := hext _ _ h0
  intro heq
  have h2 : s p2.1 p2.2 = b p2.1 p2.2 := hext _ _ (by omega)
  have := hs.2.2 p1 p2 hne hunit (by omega)
  omega

theorem numSolutions_eq_zero_of_conflict (b : Board) (hb : ¬ ConflictFree b) :
    numSolutions b = 0 := by
  rw [numSolutions, completions_empty_of_conflict b hb, Finset.card_empty]

/-- Splitting the solutions of a puzzle by the value placed at one empty
cell. -/
theorem numSolutions_split (b : Board) (q : Fin 9 × Fin 9)
    (hq : b q.1 q.2 = 0) :
    numSolutions b =
      ∑ k ∈ Finset.range 9, numSolutions (setCell b q.1 q.2 (k + 1)) := by
  rw [numSolutions]
  have hcup : completions b =
      (Finset.range 9).biUnion
        (fun k => completions (setCell b q.1 q.2 (k + 1))) := by
    ext s
    rw [mem_completions, Finset.mem_biUnion]
    constructor
    · rintro ⟨hs, hext⟩
      have h1 : 1 ≤ s q.1 q.2 := Nat.one_le_iff_ne_zero.mpr (hs.1 q.1 q.2)
      have h9 : s q.1 q.2 ≤ 9 := hs.2.1 q.1 q.2
      refine ⟨s q.1 q.2 - 1, Finset.mem_range.mpr (by omega), ?_⟩
      rw [mem_completions]
      refine ⟨hs, fun r c h => ?_⟩
      rw [setCell] at h ⊢
      by_cases hrc : r = q.1 ∧ c = q.2
      · simp only [hrc, if_pos, and_self] at h ⊢
        obtain ⟨rfl, rfl⟩ := hrc
        omega
      · simp only [hrc, if_neg, not_false_iff] at h ⊢
        exact hext r c h
    · rintro ⟨k, hk, hs⟩
      rw [mem_completions] at hs
      refine ⟨hs.1, fun r c h => ?_⟩
      have := hs.2 r c
      rw [setCell] at this
      by_cases hrc : r = q.1 ∧ c = q.2
      · obtain ⟨rfl, rfl⟩ := hrc
        omega
      · simp only [hrc, if_neg, not_false_iff] at this
        exact this h
  rw [hcup]
  rw [Finset.card_biUnion]
  · rfl
  · intro k1 h1 k2 h2 hne
    rw [Finset.disjoint_left]
    intro s hs1 hs2
    rw [mem_completions] at hs1 hs2
    have e1 : s q.1 q.2 = k1 + 1 := by
      have := hs1.2 q.1 q.2
      rw [setCell] at this
      simpa using this
    have e2 : s q.1 q.2 = k2 + 1 := by
      have := hs2.2 q.1 q.2
      rw [setCell] at this
      simpa using this
    exact hne (by omega)

/-! ### Cells, masks recomputed from a board, and the candidate bitmask -/

theorem mem_allCells (p : Fin 9 × Fin 9) : p ∈ allCells := by
  obtain ⟨r, c⟩ := p
  simp only [allCells, List.mem_flatMap, List.mem_map, List.mem_finRange]
  exact ⟨r, ⟨trivial, c, trivial, rfl⟩⟩

theorem allCells_nodup : allCells.Nodup := by decide

theorem allCells_length : allCells.length = 81 := by decide

def rowCells (r : Fin 9) : List (Fin 9 × Fin 9) :=
  (List.finRange 9).map fun c => (r, c)

def colCells (c : Fin 9) : List (Fin 9 × Fin 9) :=
  (List.finRange 9).map fun r => (r, c)

def blockCells (bi : Nat) : List (Fin 9 × Fin 9) :=
  allCells.filter fun p => blockIndex p.1.val p.2.val = bi

theorem mem_rowCells (r : Fin 9) (p : Fin 9 × Fin 9) :
    p ∈ rowCells r ↔ p.1 = r := by
  obtain ⟨r2, c2⟩ := p
  rw [rowCells, List.mem_map]
  constructor
  · rintro ⟨c, hc, h⟩
    exact (congrArg Prod.fst h.symm)
  · rintro h
    have h2 : r2 = r := h
    subst h2
    exact ⟨c2, List.mem_finRange c2, rfl⟩

theorem mem_colCells (c : Fin 9) (p : Fin 9 × Fin 9) :
    p ∈ colCells c ↔ p.2 = c := by
  obtain ⟨r2, c2⟩ := p
  rw [colCells, List.mem_map]
  constructor
  · rintro ⟨r, hr, h⟩
    exact (congrArg Prod.snd h.symm)
  · rintro h
    have h2 : c2 = c := h
    subst h2
    exact ⟨r2, List.mem_finRange r2, rfl⟩

theorem mem_blockCells (bi : Nat) (p : Fin 9 × Fin 9) :
    p ∈ blockCells bi ↔ blockIndex p.1.val p.2.val = bi := by
  rw [blockCells, List.mem_filter]
  simp [mem_allCells]

/-- The occupancy bitmask of a list of cells: bit `v-1` set iff value `v`
appears there. -/
def unitMaskOf (b : Board) (cells : List (Fin 9 × Fin 9)) : Nat :=
  cells.foldr
    (fun p m => if b p.1 p.2 = 0 then m else m ||| 1 <<< (b p.1 p.2 - 1)) 0

def rowMaskOf (b : Board) (r : Fin 9) : Nat := unitMaskOf b (rowCells r)

def colMaskOf (b : Board) (c : Fin 9) : Nat := unitMaskOf b (colCells c)

def blockMaskOf (b : Board) (bi : Nat) : Nat := unitMaskOf b (blockCells bi)

theorem testBit_unitMaskOf (b : Board) (cells : List (Fin 9 × Fin 9)) (k : Nat) :
    (unitMaskOf b cells).testBit k = true ↔
      ∃ p ∈ cells, b p.1 p.2 ≠ 0 ∧ b p.1 p.2 - 1 = k := by
  induction cells with
  | nil => simp [unitMaskOf]
  | cons p rest ih =>
    rw [unitMaskOf, List.foldr_cons]
    by_cases hp : b p.1 p.2 = 0
    · simp only [hp, if_pos]
      rw [show (List.foldr _ 0 rest) = unitMaskOf b rest from rfl] at *
      rw [ih]
      constructor
      · rintro ⟨p2, h1, h2⟩
        exact ⟨p2, List.mem_cons_of_mem _ h1, h2⟩
      · rintro ⟨p2, h1, h2⟩
        rcases List.mem_cons.mp h1 with rfl | h1
        · omega
        · exact ⟨p2, h1, h2⟩
    · simp only [hp, if_neg, not_false_iff]
      rw [show (List.foldr _ 0 rest) = unitMaskOf b rest from rfl]
      rw [Nat.testBit_or, Nat.shiftLeft_eq, one_mul, Nat.testBit_two_pow]
      constructor
      · intro h
        rcases Bool.or_eq_true_iff.mp h with h | h
        · obtain ⟨p2, h1, h2⟩ := ih.mp h
          exact ⟨p2, List.mem_cons_of_mem _ h1, h2⟩
        · exact ⟨p, List.mem_cons_self _ _, hp, by simpa using h⟩
      · rintro ⟨p2, h1, h2⟩
        rcases List.mem_cons.mp h1 with rfl | h1
        · apply Bool.or_eq_true_iff.mpr
          right
          simp [h2.2]
        · exact Bool.or_eq_true_iff.mpr (Or.inl (ih.mpr ⟨p2, h1, h2⟩))

theorem unitMaskOf_lt (b : Board) (cells : List (Fin 9 × Fin 9))
    (h : ∀ p ∈ cells, b p.1 p.2 ≤ 9) : unitMaskOf b cells < 2 ^ 9 := by
  induction cells with
  | nil => rw [unitMaskOf]; norm_num
  | cons p rest ih =>
    rw [unitMaskOf, List.foldr_cons]
    rw [show (List.foldr _ 0 rest) = unitMaskOf b rest from rfl]
    have hrest : unitMaskOf b rest < 2 ^ 9 :=
      ih fun p2 h2 => h p2 (List.mem_cons_of_mem _ h2)
    by_cases hp : b p.1 p.2 = 0
    · simpa [hp] using hrest
    · simp only [hp, if_neg, not_false_iff]
      apply Nat.or_lt_two_pow hrest
      rw [Nat.shiftLeft_eq, one_mul]
      have h9 : b p.1 p.2 ≤ 9 := h p (List.mem_cons_self _ _)
      exact Nat.pow_lt_pow_right (by norm_num) (by omega)

/-- The union of the three unit masks at a cell (the solver's
`rowMask[r] | colMask[c] | blockMask[blockIndex(r,c)]`, recomputed from the
board). -/
def usedMask (b : Board) (r c : Fin 9) : Nat :=
  rowMaskOf b r ||| colMaskOf b c ||| blockMaskOf b (blockIndex r.val c.val)

theorem testBit_usedMask (b : Board) (r c : Fin 9) (k : Nat) :
    (usedMask b r c).testBit k = true ↔
      ∃ p : Fin 9 × Fin 9, SameUnit p (r, c) ∧ b p.1 p.2 ≠ 0 ∧ b p.1 p.2 - 1 = k := by
  rw [usedMask, Nat.testBit_or, Nat.testBit_or]
  constructor
  · intro h
    rcases Bool.or_eq_true_iff.mp h with h | h
    · rcases Bool.or_eq_true_iff.mp h with h | h
      · obtain ⟨p, h1, h2⟩ := (testBit_unitMaskOf b _ k).mp h
        exact ⟨p, Or.inl ((mem_rowCells r p).mp h1), h2⟩
      · obtain ⟨p, h1, h2⟩ := (testBit_unitMaskOf b _ k).mp h
        exact ⟨p, Or.inr (Or.inl ((mem_colCells c p).mp h1)), h2⟩
    · obtain ⟨p, h1, h2⟩ := (testBit_unitMaskOf b _ k).mp h
      exact ⟨p, Or.inr (Or.inr ((mem_blockCells _ p).mp h1)), h2⟩
  · rintro ⟨p, hu, h2⟩
    rcases hu with hu | hu | hu
    · apply Bool.or_eq_true_iff.mpr; left
      apply Bool.or_eq_true_iff.mpr; left
      exact (testBit_unitMaskOf b _ k).mpr ⟨p, (mem_rowCells r p).mpr hu, h2⟩
    · apply Bool.or_eq_true_iff.mpr; left
      apply Bool.or_eq_true_iff.mpr; right
      exact (testBit_unitMaskOf b _ k).mpr ⟨p, (mem_colCells c p).mpr hu, h2⟩
    · apply Bool.or_eq_true_iff.mpr; right
      exact (testBit_unitMaskOf b _ k).mpr ⟨p, (mem_blockCells _ p).mpr hu, h2⟩

theorem usedMask_lt (b : Board) (hb : InRange b) (r c : Fin 9) :
    usedMask b r c < 2 ^ 9 := by
  rw [usedMask]
  apply Nat.or_lt_two_pow
  · apply Nat.or_lt_two_pow
    · exact unitMaskOf_lt b _ fun p _ => hb p.1 p.2
    · exact unitMaskOf_lt b _ fun p _ => hb p.1 p.2
  · exact unitMaskOf_lt b _ fun p _ => hb p.1 p.2

/-- Modelled from the spec: `candidates(r, c)` is
`~(rowMask[r] | colMask[c] | blockMask[blockIndex(r,c)]) & 0x1FF`, computed
directly from the Board (`~` is 32-bit complement). -/
def specCandidates (b : Board) (r c : Fin 9) : Nat :=
  (usedMask b r c ^^^ (2 ^ 32 - 1)) &&& 511

theorem specCandidates_lt (b : Board) (r c : Fin 9) :
    specCandidates b r c < 2 ^ 9 := by
  rw [specCandidates]
  exact Nat.and_lt_two_pow _ (by norm_num)

theorem testBit_specCandidates (b : Board) (r c : Fin 9) (k : Nat) (hk : k < 9) :
    (specCandidates b r c).testBit k = !(usedMask b r c).testBit k := by
  rw [specCandidates, Nat.testBit_and, Nat.testBit_xor]
  have h511 : (511 : Nat) = 2 ^ 9 - 1 := by norm_num
  rw [h511, Nat.testBit_two_pow_sub_one, Nat.testBit_two_pow_sub_one]
  have hk32 : k < 32 := by omega
  simp [hk, hk32]

theorem testBit_specCandidates_hi (b : Board) (r c : Fin 9) (k : Nat)
    (hk : 9 ≤ k) : (specCandidates b r c).testBit k = false := by
  rw [specCandidates, Nat.testBit_and]
  have h511 : (511 : Nat) = 2 ^ 9 - 1 := by norm_num
  rw [h511, Nat.testBit_two_pow_sub_one]
  simp [Nat.not_lt_of_le hk]

/-- Necessity: any solution's value at an empty cell of `b` is a candidate. -/
theorem completion_testBit_specCandidates (b s : Board) (hcs : IsCompletion b s)
    (q : Fin 9 × Fin 9) (hq : b q.1 q.2 = 0) :
    (specCandidates b q.1 q.2).testBit (s q.1 q.2 - 1) = true := by
  have h1 : 1 ≤ s q.1 q.2 := Nat.one_le_iff_ne_zero.mpr (hcs.1.1 q.1 q.2)
  have h9 : s q.1 q.2 ≤ 9 := hcs.1.2.1 q.1 q.2
  rw [testBit_specCandidates b q.1 q.2 _ (by omega)]
  have : (usedMask b q.1 q.2).testBit (s q.1 q.2 - 1) = false := by
    by_contra hcon
    have hbit : (usedMask b q.1 q.2).testBit (s q.1 q.2 - 1) = true := by
      revert hcon; cases h : (usedMask b q.1 q.2).testBit (s q.1 q.2 - 1) <;> simp
    obtain ⟨p, hu, hp0, hpk⟩ := (testBit_usedMask b q.1 q.2 _).mp hbit
    have hpv : b p.1 p.2 = s q.1 q.2 := by omega
    have hsp : s p.1 p.2 = b p.1 p.2 := hcs.2 p.1 p.2 hp0
    have hpq : p ≠ q := by
      intro h
      rw [h] at hp0
      exact hp0 hq
    have := hcs.1.2.2 p q hpq (by simpa using hu) (by omega)
    omega
  rw [this]
  rfl

/-- An empty cell with an empty candidate mask admits no solution. -/
theorem numSolutions_eq_zero_of_dead (b : Board) (q : Fin 9 × Fin 9)
    (hq : b q.1 q.2 = 0) (hc : specCandidates b q.1 q.2 = 0) :
    numSolutions b = 0 := by
  rw [numSolutions, Finset.card_eq_zero]
  ext s
  simp only [Finset.not_mem_empty, iff_false]
  rw [mem_completions]
  intro hs
  have := completion_testBit_specCandidates b s hs q hq
  rw [hc] at this
  simp at this

/-- Placing a non-candidate digit at an empty cell yields no solutions. -/
theorem numSolutions_setCell_eq_zero (b : Board) (q : Fin 9 × Fin 9) (k : Nat)
    (hq : b q.1 q.2 = 0) (hk : k < 9)
    (hbit : (specCandidates b q.1 q.2).testBit k = false) :
    numSolutions (setCell b q.1 q.2 (k + 1)) = 0 := by
  apply numSolutions_eq_zero_of_conflict
  rw [testBit_specCandidates b q.1 q.2 k hk] at hbit
  have hused : (usedMask b q.1 q.2).testBit k = true := by
    revert hbit; cases h : (usedMask b q.1 q.2).testBit k <;> simp
  obtain ⟨p, hu, hp0, hpk⟩ := (testBit_usedMask b q.1 q.2 k).mp hused
  intro hcf
  have hpq : p ≠ q := by
    intro h; rw [h] at hp0; exact hp0 hq
  have hvp : setCell b q.1 q.2 (k + 1) p.1 p.2 = b p.1 p.2 := by
    rw [setCell, if_neg]
    intro hcon
    exact hpq (Prod.ext hcon.1 hcon.2)
  have hvq : setCell b q.1 q.2 (k + 1) q.1 q.2 = k + 1 := by
    rw [setCell, if_pos ⟨rfl, rfl⟩]
  have := hcf p q hpq (by simpa using hu) (by omega)
  omega

/-- The solution count splits over the candidate digits of any empty cell. -/
theorem numSolutions_eq_sum_filter (b : Board) (q : Fin 9 × Fin 9)
    (hq : b q.1 q.2 = 0) :
    numSolutions b =
      ∑ k ∈ (Finset.range 9).filter
          (fun k => (specCandidates b q.1 q.2).testBit k = true),
        numSolutions (setCell b q.1 q.2 (k + 1)) := by
  rw [numSolutions_split b q hq]
  rw [Finset.sum_filter_of_ne]
  intro k hk hne
  by_contra hbit
  have hb2 : (specCandidates b q.1 q.2).testBit k = false := by
    revert hbit; cases h : (specCandidates b q.1 q.2).testBit k <;> simp
  exact hne (numSolutions_setCell_eq_zero b q k hq (Finset.mem_range.mp hk) hb2)

/-- Peeling the lowest set bit off a 9-bit mask splits a sum over its bits. -/
theorem sum_testBit_peel (m : Nat) (hm : m ≠ 0) (h9 : m < 2 ^ 9)
    (g : Nat → Nat) :
    ∑ k ∈ (Finset.range 9).filter (fun k => m.testBit k = true), g k
      = g (ctz m)
        + ∑ k ∈ (Finset.range 9).filter
            (fun k => (m - lowBit m).testBit k = true), g k := by
  have hctz9 : ctz m < 9 := by
    have h1 := testBit_ctz_self m hm
    have h2 := Nat.testBit_implies_ge h1
    by_contra hcon
    have : (2 : Nat) ^ 9 ≤ 2 ^ ctz m := Nat.pow_le_pow_right (by norm_num) (by omega)
    omega
  have hfil : (Finset.range 9).filter (fun k => m.testBit k = true) =
      insert (ctz m)
        ((Finset.range 9).filter (fun k => (m - lowBit m).testBit k = true)) := by
    ext k
    simp only [Finset.mem_filter, Finset.mem_insert, Finset.mem_range]
    rw [testBit_sub_lowBit m hm k]
    constructor
    · rintro ⟨hk9, hbit⟩
      by_cases hkc : k = ctz m
      · exact Or.inl hkc
      · refine Or.inr ⟨hk9, ?_⟩
        simp [hbit, hkc]
    · rintro (rfl | ⟨hk9, hbit⟩)
      · exact ⟨hctz9, testBit_ctz_self m hm⟩
      · revert hbit
        cases h : m.testBit k <;> simp
        intro _
        exact hk9
  rw [hfil, Finset.sum_insert]
  simp only [Finset.mem_filter, Finset.mem_range, not_and]
  intro hk
  rw [testBit_sub_lowBit m hm]
  simp

/-! ### Small board/list helper lemmas -/

theorem setCell_same (b : Board) (r c : Fin 9) (v : Nat) :
    setCell b r c v r c = v := by
  rw [setCell, if_pos ⟨rfl, rfl⟩]

theorem setCell_other (b : Board) (r c : Fin 9) (v : Nat) (r2 c2 : Fin 9)
    (h : ¬(r2 = r ∧ c2 = c)) : setCell b r c v r2 c2 = b r2 c2 := by
  rw [setCell, if_neg h]

theorem setCell_cancel (b : Board) (r c : Fin 9) (v : Nat)
    (hb : b r c = 0) : setCell (setCell b r c v) r c 0 = b := by
  funext r2 c2
  by_cases h : r2 = r ∧ c2 = c
  · obtain ⟨rfl, rfl⟩ := h
    rw [setCell_same, hb]
  · rw [setCell_other _ _ _ _ _ _ h, setCell_other _ _ _ _ _ _ h]

/-- The number of empty cells of a board. -/
def zeroCount (b : Board) : Nat :=
  (allCells.filter fun p => b p.1 p.2 = 0).length

theorem zeroCount_le (b : Board) : zeroCount b ≤ 81 := by
  rw [zeroCount, ← allCells_length]
  exact List.length_filter_le _ _

theorem countP_remove_one {α : Type} (l : List α) (hl : l.Nodup) (q : α)
    (hq : q ∈ l) (p1 p2 : α → Bool) (hagree : ∀ x, x ≠ q → p1 x = p2 x)
    (h1 : p1 q = true) (h2 : p2 q = false) :
    l.countP p2 + 1 = l.countP p1 := by
  induction l with
  | nil => cases hq
  | cons x t ih =>
    rcases List.mem_cons.mp hq with he | hqt
    · subst he
      rw [List.countP_cons_of_neg _ _ (by rw [h2]; exact Bool.false_ne_true),
        List.countP_cons_of_pos _ _ h1]
      have hnx : q ∉ t := (List.nodup_cons.mp hl).1
      have heq : t.countP p1 = t.countP p2 := by
        apply List.countP_congr
        intro y hy
        have hyq : y ≠ q := fun h => hnx (h ▸ hy)
        rw [hagree y hyq]
      omega
    · have hx : x ≠ q := by
        intro h
        exact (List.nodup_cons.mp hl).1 (h ▸ hqt)
      have heq := hagree x hx
      have ihv := ih (List.nodup_cons.mp hl).2 hqt
      by_cases hpx : p1 x = true
      · rw [List.countP_cons_of_pos _ _ (heq ▸ hpx),
          List.countP_cons_of_pos _ _ hpx]
        omega
      · rw [List.countP_cons_of_neg _ _ (heq ▸ hpx),
          List.countP_cons_of_neg _ _ hpx]
        omega

theorem zeroCount_setCell (b : Board) (q : Fin 9 × Fin 9) (d : Nat)
    (hq : b q.1 q.2 = 0) (hd : d ≠ 0) :
    zeroCount (setCell b q.1 q.2 d) + 1 = zeroCount b := by
  rw [zeroCount, zeroCount, ← List.countP_eq_length_filter,
    ← List.countP_eq_length_filter]
  apply countP_remove_one allCells allCells_nodup q (mem_allCells q)
  · intro x hx
    simp only [decide_eq_decide]
    rw [setCell_other]
    intro hcon
    exact hx (Prod.ext hcon.1 hcon.2)
  · simp [hq]
  · simp only [decide_eq_false_iff_not]
    rw [setCell_same]
    exact hd

theorem filter_zero_setCell (l : List (Fin 9 × Fin 9)) (b : Board)
    (q : Fin 9 × Fin 9) (d : Nat) (hd : d ≠ 0) :
    l.filter (fun p => setCell b q.1 q.2 d p.1 p.2 = 0)
      = (l.filter (fun p => b p.1 p.2 = 0)).filter (fun p => p ≠ q) := by
  rw [List.filter_filter]
  apply List.filter_congr
  intro p hp
  by_cases hpq : p = q
  · subst hpq
    rw [setCell_same]
    simp [hd]
  · rw [setCell_other]
    · simp [hpq]
    · intro hcon
      exact hpq (Prod.ext hcon.1 hcon.2)

theorem isFilled_of_filter_nil (b : Board)
    (h : allCells.filter (fun p => b p.1 p.2 = 0) = []) : IsFilled b := by
  intro r c
  intro hz
  have hm : (r, c) ∈ allCells.filter (fun p => b p.1 p.2 = 0) := by
    rw [List.mem_filter]
    exact ⟨mem_allCells _, by simpa using hz⟩
  rw [h] at hm
  cases hm

/-! ### The Solver: constraint state, loading, and the backtracking search -/

/-- The `Solver` struct: board, the three mask arrays and the empty-cell
list built by `loadBoard`. -/
structure Solver where
  board : Board
  rowMask : Nat → Nat
  colMask : Nat → Nat
  blockMask : Nat → Nat
  empties : List (Fin 9 × Fin 9)

/-- `candidatesMask(r,c) = ~(rowMask[r] | colMask[c] | blockMask[bi]) & 0x1FF`
over given mask arrays (`~` is the 32-bit complement). -/
def candidatesMask (rm cm bm : Nat → Nat) (r c : Fin 9) : Nat :=
  ((rm r.val ||| cm c.val ||| bm (blockIndex r.val c.val)) ^^^ (2 ^ 32 - 1)) &&& 511

/-- The mask-initialization loop of `loadBoard`: row-major over the cells,
returning `none` on the first conflict. -/
def loadLoop (b : Board) :
    List (Fin 9 × Fin 9) → (Nat → Nat) → (Nat → Nat) → (Nat → Nat) →
      Option ((Nat → Nat) × (Nat → Nat) × (Nat → Nat))
  | [], rm, cm, bm => some (rm, cm, bm)
  | p :: rest, rm, cm, bm =>
    if b p.1 p.2 = 0 then loadLoop b rest rm cm bm
    else
      let bit := 1 <<< (b p.1 p.2 - 1)
      if rm p.1.val &&& bit ≠ 0 then none
      else if cm p.2.val &&& bit ≠ 0 then none
      else if bm (blockIndex p.1.val p.2.val) &&& bit ≠ 0 then none
      else loadLoop b rest
        (fun i => if i = p.1.val then rm i ||| bit else rm i)
        (fun i => if i = p.2.val then cm i ||| bit else cm i)
        (fun i => if i = blockIndex p.1.val p.2.val then bm i ||| bit else bm i)

/-- `loadBoard`: reset, fill masks with conflict detection, then collect the
empty cells in row-major order. -/
def loadBoard (b : Board) : Option Solver :=
  (loadLoop b allCells (fun _ => 0) (fun _ => 0) (fun _ => 0)).map
    fun ms =>
      ⟨b, ms.1, ms.2.1, ms.2.2, allCells.filter fun p => b p.1 p.2 = 0⟩

/-- One MRV scan over the empty-cell list, generic in the candidate function:
`none` = dead end (a scanned empty cell has zero candidates), `some none` = no
empty cell remains, `some (some (r, c, mask))` = chosen minimum-candidate
cell.  Carries the best cell so far and its candidate count (initially `10`),
and stops early on a single-candidate cell. -/
def scanCells (cand : Fin 9 × Fin 9 → Nat) (bd : Board) :
    List (Fin 9 × Fin 9) → Option (Fin 9 × Fin 9 × Nat) → Nat →
      Option (Option (Fin 9 × Fin 9 × Nat))
  | [], best, _ => some best
  | p :: rest, best, bestCount =>
    if bd p.1 p.2 ≠ 0 then scanCells cand bd rest best bestCount
    else if cand p = 0 then none
    else if popcount (cand p) < bestCount then
      if popcount (cand p) = 1 then some (some (p.1, p.2, cand p))
      else scanCells cand bd rest (some (p.1, p.2, cand p)) (popcount (cand p))
    else scanCells cand bd rest best bestCount

/-- The mutable state of the `solve` lambda: the solver's board and masks
plus the captured `outCount` and first-solution snapshot (`saved` +
`savedBoard`, fused into an `Option`). -/
structure DfsSt where
  board : Board
  rowMask : Nat → Nat
  colMask : Nat → Nat
  blockMask : Nat → Nat
  outCount : Nat
  saved : Option Board

/-- Place digit `d` at `(r, c)`: set the cell and the three mask bits. -/
def place (st : DfsSt) (r c : Fin 9) (d : Nat) : DfsSt :=
  let bit := 1 <<< (d - 1)
  { st with
    board := setCell st.board r c d
    rowMask := fun i => if i = r.val then st.rowMask i ||| bit else st.rowMask i
    colMask := fun i => if i = c.val then st.colMask i ||| bit else st.colMask i
    blockMask := fun i =>
      if i = blockIndex r.val c.val then st.blockMask i ||| bit
      else st.blockMask i }

/-- Undo a placement: clear the cell and the three mask bits
(`mask &= ~bit`, with the 32-bit complement). -/
def undo (st : DfsSt) (r c : Fin 9) (d : Nat) : DfsSt :=
  let bit := 1 <<< (d - 1)
  { st with
    board := setCell st.board r c 0
    rowMask := fun i =>
      if i = r.val then st.rowMask i &&& (bit ^^^ (2 ^ 32 - 1))
      else st.rowMask i
    colMask := fun i =>
      if i = c.val then st.colMask i &&& (bit ^^^ (2 ^ 32 - 1))
      else st.colMask i
    blockMask := fun i =>
      if i = blockIndex r.val c.val then st.blockMask i &&& (bit ^^^ (2 ^ 32 - 1))
      else st.blockMask i }

mutual

/-- The recursive `dfs` lambda of `Solver::solve`.  Returns the "stop" flag
and the updated state.  `fuel` bounds the recursion depth; it is proved
sufficient whenever it exceeds the number of empty cells (`dfs_spec`). -/
def dfsF : Nat → Nat → List (Fin 9 × Fin 9) → DfsSt → Bool × DfsSt
  | 0, _, _, st => (true, st)
  | fuel + 1, limit, empties, st =>
    if limit ≤ st.outCount then (true, st)
    else
      match scanCells
          (fun p => candidatesMask st.rowMask st.colMask st.blockMask p.1 p.2)
          st.board empties none 10 with
      | none => (false, st)
      | some none =>
        let st2 : DfsSt :=
          { st with
            outCount := st.outCount + 1
            saved := match st.saved with
              | none => some st.board
              | some sb => some sb }
        (decide (limit ≤ st2.outCount), st2)
      | some (some (r, c, mask)) => digitLoopF fuel limit empties r c mask st
termination_by fuel _ _ _ => (fuel, 0)
decreasing_by
  simp_wf
  exact Prod.Lex.left _ _ (Nat.lt_succ_self fuel)

/-- The `while (m && outCount < countLimit)` digit loop of the `dfs` lambda:
extract the lowest candidate bit, place, recurse, undo, and propagate the
stop signal. -/
def digitLoopF : Nat → Nat → List (Fin 9 × Fin 9) → Fin 9 → Fin 9 → Nat →
    DfsSt → Bool × DfsSt
  | fuel, limit, empties, r, c, m, st =>
    if h : m ≠ 0 ∧ st.outCount < limit then
      let lowbit := lowBit m
      let d := ctz lowbit + 1
      let res := dfsF fuel limit empties (place st r c d)
      let st2 := undo res.2 r c d
      if res.1 then (true, st2)
      else digitLoopF fuel limit empties r c (m - lowbit) st2
    else (false, st)
termination_by fuel _ _ _ _ m _ => (fuel, m + 1)
decreasing_by
  · exact Prod.Lex.right _ (Nat.succ_pos m)
  · have hlt := sub_lowBit_lt m h.1
    exact Prod.Lex.right _ (by omega)

end

/-- `Solver::solve(countLimit, outCount)`: run the search (`fuel = 82`
strictly exceeds the at most 81 empty cells), write the first found solution
back into the board, and return the updated solver, the success flag
(`outCount >= 1`) and `outCount`. -/
def Solver.solve (s : Solver) (countLimit : Nat) : Solver × Bool × Nat :=
  let st0 : DfsSt := ⟨s.board, s.rowMask, s.colMask, s.blockMask, 0, none⟩
  let st := (dfsF 82 countLimit s.empties st0).2
  let finalBoard := match st.saved with
    | some sb => sb
    | none => st.board
  (⟨finalBoard, st.rowMask, st.colMask, st.blockMask, s.empties⟩,
    decide (1 ≤ st.outCount), st.outCount)

/-- `Solver::solveOne`: solve with limit 1, returning the success flag. -/
def Solver.solveOne (s : Solver) : Solver × Bool :=
  ((s.solve 1).1, (s.solve 1).2.1)

/-- `Solver::countSolutions(limit)`: the number of solutions found, at most
`limit`. -/
def Solver.countSolutions (s : Solver) (limit : Nat) : Nat :=
  (s.solve limit).2.2

mutual

/-- Modelled from the spec: the first solution reached by repeatedly choosing
the minimum-candidate empty cell (scanning cells in row-major order, with the
candidate bitmask recomputed from the board) and trying its candidate digits
in increasing bit order (digit = lowest set bit position + 1).  The solver's
first-found solution is proved to coincide with this reference search. -/
def specSolve : Nat → Board → Option Board
  | 0, _ => none
  | fuel + 1, b =>
    match scanCells (fun p => specCandidates b p.1 p.2) b allCells none 10 with
    | none => none
    | some none => some b
    | some (some (r, c, mask)) => specTry fuel b r c mask
termination_by fuel _ => (fuel, 0)
decreasing_by
  exact Prod.Lex.left _ _ (Nat.lt_succ_self fuel)

/-- Digit iteration of `specSolve`: lowest candidate bit first. -/
def specTry : Nat → Board → Fin 9 → Fin 9 → Nat → Option Board
  | fuel, b, r, c, m =>
    if h : m = 0 then none
    else
      let d := ctz (lowBit m) + 1
      match specSolve fuel (setCell b r c d) with
      | some s => some s
      | none => specTry fuel b r c (m - lowBit m)
termination_by fuel _ _ _ m => (fuel, m + 1)
decreasing_by
  · exact Prod.Lex.right _ (Nat.succ_pos m)
  · have hlt := sub_lowBit_lt m h
    exact Prod.Lex.right _ (by omega)

end

/-! ### Support lemmas: units, placement and undo -/

theorem orElse_none_right {α : Type} (a : Option α) :
    (a.orElse fun _ => none) = a := by cases a <;> rfl

theorem orElse_some_absorb {α : Type} (a : Option α) (x : α) (f : Unit → Option α) :
    ((a.orElse fun _ => some x).orElse f) = a.orElse fun _ => some x := by
  cases a <;> rfl

theorem orElse_assoc_some {α : Type} (a : Option α) (x : α) :
    (a.orElse fun _ => some x) = a.orElse fun _ => some x := rfl

theorem blockIndex_lt (r c : Nat) (hr : r < 9) (hc : c < 9) :
    blockIndex r c < 9 := by
  rw [blockIndex]; omega

theorem sameUnit_symm (p1 p2 : Fin 9 × Fin 9) (h : SameUnit p1 p2) :
    SameUnit p2 p1 := by
  rcases h with h | h | h
  · exact Or.inl h.symm
  · exact Or.inr (Or.inl h.symm)
  · exact Or.inr (Or.inr h.symm)

theorem unitMaskOf_congr (b1 b2 : Board) (cells : List (Fin 9 × Fin 9))
    (h : ∀ p ∈ cells, b1 p.1 p.2 = b2 p.1 p.2) :
    unitMaskOf b1 cells = unitMaskOf b2 cells := by
  induction cells with
  | nil => rfl
  | cons p rest ih =>
    rw [unitMaskOf, unitMaskOf, List.foldr_cons, List.foldr_cons]
    rw [show (List.foldr _ 0 rest : Nat) = unitMaskOf b1 rest from rfl,
      show (List.foldr _ 0 rest : Nat) = unitMaskOf b2 rest from rfl,
      ih fun p2 hp2 => h p2 (List.mem_cons_of_mem _ hp2), h p (List.mem_cons_self _ _)]

/-- The bit-clearing identity behind `undo`: adding a fresh bit and then
clearing it (32-bit complement) restores the mask. -/
theorem lor_land_not (x k : Nat) (hk : k < 32) (hx : x < 2 ^ 32)
    (hbit : x.testBit k = false) :
    (x ||| 1 <<< k) &&& ((1 <<< k) ^^^ (2 ^ 32 - 1)) = x := by
  apply Nat.eq_of_testBit_eq
  intro j
  rw [Nat.testBit_and, Nat.testBit_or, Nat.testBit_xor, Nat.shiftLeft_eq, one_mul,
    Nat.testBit_two_pow, Nat.testBit_two_pow_sub_one]
  by_cases hj32 : j < 32
  · by_cases hjk : j = k
    · subst hjk
      simp [hbit, hj32]
    · have : (decide (k = j)) = false := by simp [Ne.symm hjk]
      simp [this, hj32]
  · have hxj : x.testBit j = false := by
      apply Nat.testBit_lt_two_pow
      calc x < 2 ^ 32 := hx
        _ ≤ 2 ^ j := Nat.pow_le_pow_right (by norm_num) (by omega)
    have : (decide (k = j)) = false := by
      have : k ≠ j := by omega
      simp [this]
    simp [hxj, this, hj32]

/-- Mask arrays agreeing with the board's recomputed unit masks. -/
structure MasksInv (b : Board) (rm cm bm : Nat → Nat) : Prop where
  row : ∀ r : Fin 9, rm r.val = rowMaskOf b r
  col : ∀ c : Fin 9, cm c.val = colMaskOf b c
  block : ∀ bi : Nat, bi < 9 → bm bi = blockMaskOf b bi

theorem candidatesMask_eq_spec (b : Board) (rm cm bm : Nat → Nat)
    (hInv : MasksInv b rm cm bm) (r c : Fin 9) :
    candidatesMask rm cm bm r c = specCandidates b r c := by
  rw [candidatesMask, specCandidates, usedMask, hInv.row r, hInv.col c,
    hInv.block _ (blockIndex_lt r.val c.val r.isLt c.isLt)]

theorem rowMaskOf_lt (b : Board) (hb : InRange b) (r : Fin 9) :
    rowMaskOf b r < 2 ^ 9 :=
  unitMaskOf_lt b _ fun p _ => hb p.1 p.2

theorem colMaskOf_lt (b : Board) (hb : InRange b) (c : Fin 9) :
    colMaskOf b c < 2 ^ 9 :=
  unitMaskOf_lt b _ fun p _ => hb p.1 p.2

theorem blockMaskOf_lt (b : Board) (hb : InRange b) (bi : Nat) :
    blockMaskOf b bi < 2 ^ 9 :=
  unitMaskOf_lt b _ fun p _ => hb p.1 p.2

/-- Placing a digit or-s its bit into the occupancy mask of any unit
containing the cell. -/
theorem unitMaskOf_setCell_mem (b : Board) (cells : List (Fin 9 × Fin 9))
    (r c : Fin 9) (d : Nat) (hz : b r c = 0) (hd : 1 ≤ d)
    (hmem : (r, c) ∈ cells) :
    unitMaskOf (setCell b r c d) cells = unitMaskOf b cells ||| 1 <<< (d - 1) := by
  apply Nat.eq_of_testBit_eq
  intro k
  rw [Bool.eq_iff_iff, Nat.testBit_or, Nat.shiftLeft_eq, one_mul,
    Nat.testBit_two_pow, Bool.or_eq_true_iff]
  rw [testBit_unitMaskOf]
  constructor
  · rintro ⟨p, hp, hnz, hpk⟩
    by_cases hpq : p = (r, c)
    · subst hpq
      rw [setCell_same] at hnz hpk
      right
      simp [← hpk]
    · left
      rw [testBit_unitMaskOf]
      have hne : ¬(p.1 = r ∧ p.2 = c) := by
        intro hcon
        exact hpq (Prod.ext hcon.1 hcon.2)
      rw [setCell_other _ _ _ _ _ _ hne] at hnz hpk
      exact ⟨p, hp, hnz, hpk⟩
  · rintro (h | h)
    · rw [testBit_unitMaskOf] at h
      obtain ⟨p, hp, hnz, hpk⟩ := h
      have hpq : ¬(p.1 = r ∧ p.2 = c) := by
        rintro ⟨h1, h2⟩
        rw [show p = (r, c) from Prod.ext h1 h2] at hnz
        exact hnz hz
      exact ⟨p, hp, by rw [setCell_other _ _ _ _ _ _ hpq]; exact ⟨hnz, hpk⟩⟩
    · refine ⟨(r, c), hmem, ?_⟩
      rw [setCell_same]
      have : d - 1 = k := by simpa using h
      omega

theorem unitMaskOf_setCell_not_mem (b : Board) (cells : List (Fin 9 × Fin 9))
    (r c : Fin 9) (d : Nat) (hmem : (r, c) ∉ cells) :
    unitMaskOf (setCell b r c d) cells = unitMaskOf b cells := by
  apply unitMaskOf_congr
  intro p hp
  apply setCell_other
  rintro ⟨h1, h2⟩
  exact hmem (by rw [← show p = (r, c) from Prod.ext h1 h2]; exact hp)

theorem masksInv_place (b : Board) (rm cm bm : Nat → Nat)
    (hInv : MasksInv b rm cm bm) (r c : Fin 9) (d : Nat)
    (hz : b r c = 0) (hd : 1 ≤ d) :
    MasksInv (setCell b r c d)
      (fun i => if i = r.val then rm i ||| 1 <<< (d - 1) else rm i)
      (fun i => if i = c.val then cm i ||| 1 <<< (d - 1) else cm i)
      (fun i => if i = blockIndex r.val c.val then bm i ||| 1 <<< (d - 1)
        else bm i) := by
  constructor
  · intro r2
    by_cases h : r2.val = r.val
    · have he : r2 = r := Fin.ext h
      subst he
      rw [if_pos rfl, hInv.row r2]
      simp only [rowMaskOf]
      rw [unitMaskOf_setCell_mem b _ r2 c d hz hd ((mem_rowCells r2 (r2, c)).mpr rfl)]
    · rw [if_neg h, hInv.row r2]
      simp only [rowMaskOf]
      rw [unitMaskOf_setCell_not_mem]
      intro hmem
      have he := (mem_rowCells r2 (r, c)).mp hmem
      exact h (congrArg Fin.val he.symm)
  · intro c2
    by_cases h : c2.val = c.val
    · have he : c2 = c := Fin.ext h
      subst he
      rw [if_pos rfl, hInv.col c2]
      simp only [colMaskOf]
      rw [unitMaskOf_setCell_mem b _ r c2 d hz hd ((mem_colCells c2 (r, c2)).mpr rfl)]
    · rw [if_neg h, hInv.col c2]
      simp only [colMaskOf]
      rw [unitMaskOf_setCell_not_mem]
      intro hmem
      have he := (mem_colCells c2 (r, c)).mp hmem
      exact h (congrArg Fin.val he.symm)
  · intro bi hbi
    by_cases h : bi = blockIndex r.val c.val
    · subst h
      rw [if_pos rfl, hInv.block _ hbi]
      simp only [blockMaskOf]
      rw [unitMaskOf_setCell_mem b _ r c d hz hd ((mem_blockCells _ (r, c)).mpr rfl)]
    · rw [if_neg h, hInv.block _ hbi]
      simp only [blockMaskOf]
      rw [unitMaskOf_setCell_not_mem]
      intro hmem
      exact h ((mem_blockCells bi (r, c)).mp hmem).symm

theorem usedMask_parts_false (b : Board) (r c : Fin 9) (k : Nat)
    (h : (usedMask b r c).testBit k = false) :
    (rowMaskOf b r).testBit k = false ∧ (colMaskOf b c).testBit k = false ∧
      (blockMaskOf b (blockIndex r.val c.val)).testBit k = false := by
  rw [usedMask, Nat.testBit_or, Nat.testBit_or] at h
  rcases Bool.or_eq_false_iff.mp h with ⟨h1, h2⟩
  rcases Bool.or_eq_false_iff.mp h1 with ⟨h3, h4⟩
  exact ⟨h3, h4, h2⟩

theorem conflictFree_setCell (b : Board) (hcf : ConflictFree b) (r c : Fin 9)
    (d : Nat) (hz : b r c = 0) (hd : 1 ≤ d)
    (hused : (usedMask b r c).testBit (d - 1) = false) :
    ConflictFree (setCell b r c d) := by
  intro p1 p2 hne hunit hnz heq
  by_cases h1 : p1 = (r, c) <;> by_cases h2 : p2 = (r, c)
  · exact hne (h1.trans h2.symm)
  · subst h1
    have e1 : setCell b r c d r c = d := setCell_same b r c d
    have hne2 : ¬(p2.1 = r ∧ p2.2 = c) := by
      rintro ⟨ha, hb2⟩
      exact h2 (Prod.ext ha hb2)
    have e2 : setCell b r c d p2.1 p2.2 = b p2.1 p2.2 :=
      setCell_other _ _ _ _ _ _ hne2
    simp only at heq
    rw [e1] at heq hnz
    rw [e2] at heq
    have hbit : (usedMask b r c).testBit (d - 1) = true := by
      apply (testBit_usedMask b r c (d - 1)).mpr
      exact ⟨p2, sameUnit_symm _ _ hunit, by omega, by omega⟩
    rw [hused] at hbit
    cases hbit
  · subst h2
    have e2 : setCell b r c d r c = d := setCell_same b r c d
    have hne1 : ¬(p1.1 = r ∧ p1.2 = c) := by
      rintro ⟨ha, hb2⟩
      exact h1 (Prod.ext ha hb2)
    have e1 : setCell b r c d p1.1 p1.2 = b p1.1 p1.2 :=
      setCell_other _ _ _ _ _ _ hne1
    simp only at heq
    rw [e1] at heq hnz
    rw [e2] at heq
    have hbit : (usedMask b r c).testBit (d - 1) = true := by
      apply (testBit_usedMask b r c (d - 1)).mpr
      exact ⟨p1, hunit, hnz, by omega⟩
    rw [hused] at hbit
    cases hbit
  · have hne1 : ¬(p1.1 = r ∧ p1.2 = c) := by
      rintro ⟨ha, hb2⟩
      exact h1 (Prod.ext ha hb2)
    have hne2 : ¬(p2.1 = r ∧ p2.2 = c) := by
      rintro ⟨ha, hb2⟩
      exact h2 (Prod.ext ha hb2)
    rw [setCell_other _ _ _ _ _ _ hne1] at heq hnz
    rw [setCell_other _ _ _ _ _ _ hne2] at heq
    exact hcf p1 p2 hne hunit hnz heq

theorem inRange_setCell (b : Board) (hb : InRange b) (r c : Fin 9) (d : Nat)
    (hd : d ≤ 9) : InRange (setCell b r c d) := by
  intro r2 c2
  by_cases h : r2 = r ∧ c2 = c
  · obtain ⟨rfl, rfl⟩ := h
    rw [setCell_same]
    exact hd
  · rw [setCell_other _ _ _ _ _ _ h]
    exact hb r2 c2

/-! ### Properties of the MRV scan -/

/-- The scan only looks at the currently empty cells of the list. -/
theorem scanCells_filter (cand : Fin 9 × Fin 9 → Nat) (bd : Board) :
    ∀ (l : List (Fin 9 × Fin 9)) (best : Option (Fin 9 × Fin 9 × Nat)) (bc : Nat),
      scanCells cand bd l best bc
        = scanCells cand bd (l.filter fun p => bd p.1 p.2 = 0) best bc := by
  intro l
  induction l with
  | nil => intro best bc; rfl
  | cons p rest ih =>
    intro best bc
    by_cases hp : bd p.1 p.2 = 0
    · have hcond : ¬(bd p.1 p.2 ≠ 0) := by simpa using hp
      rw [List.filter_cons_of_pos (by simpa using hp)]
      rw [scanCells, scanCells, if_neg hcond, if_neg hcond]
      by_cases hm : cand p = 0
      · rw [if_pos hm, if_pos hm]
      · rw [if_neg hm, if_neg hm]
        by_cases hc : popcount (cand p) < bc
        · rw [if_pos hc, if_pos hc]
          by_cases h1 : popcount (cand p) = 1
          · rw [if_pos h1, if_pos h1]
          · rw [if_neg h1, if_neg h1, ih]
        · rw [if_neg hc, if_neg hc, ih]
    · rw [List.filter_cons_of_neg (by simpa using hp)]
      rw [scanCells, if_pos hp, ih]

/-- Once a best cell is carried, the scan cannot report "no empty cell". -/
theorem scanCells_some_ne_none (cand : Fin 9 × Fin 9 → Nat) (bd : Board) :
    ∀ (l : List (Fin 9 × Fin 9)) (t : Fin 9 × Fin 9 × Nat) (bc : Nat),
      scanCells cand bd l (some t) bc ≠ some none := by
  intro l
  induction l with
  | nil => intro t bc h; cases h
  | cons p rest ih =>
    intro t bc
    rw [scanCells]
    by_cases hp : bd p.1 p.2 ≠ 0
    · rw [if_pos hp]; exact ih t bc
    · rw [if_neg hp]
      by_cases hm : cand p = 0
      · rw [if_pos hm]; intro h; cases h
      · rw [if_neg hm]
        by_cases hc : popcount (cand p) < bc
        · rw [if_pos hc]
          by_cases h1 : popcount (cand p) = 1
          · rw [if_pos h1]; intro h; cases h
          · rw [if_neg h1]; exact ih _ _
        · rw [if_neg hc]; exact ih t bc

/-- If the scan reports "no empty cell" from the initial state, every listed
cell is filled. -/
theorem scanCells_full (cand : Fin 9 × Fin 9 → Nat) (bd : Board)
    (hcand : ∀ p, cand p < 2 ^ 9) :
    ∀ (l : List (Fin 9 × Fin 9)),
      scanCells cand bd l none 10 = some none → ∀ p ∈ l, bd p.1 p.2 ≠ 0 := by
  intro l
  induction l with
  | nil => intro _ p hp; cases hp
  | cons p rest ih =>
    intro hscan p2 hp2
    rw [scanCells] at hscan
    by_cases hp : bd p.1 p.2 ≠ 0
    · rw [if_pos hp] at hscan
      rcases List.mem_cons.mp hp2 with rfl | hp2
      · exact hp
      · exact ih hscan p2 hp2
    · rw [if_neg hp] at hscan
      by_cases hm : cand p = 0
      · rw [if_pos hm] at hscan; cases hscan
      · rw [if_neg hm] at hscan
        have hlt : popcount (cand p) < 10 := by
          have := popcount_le_of_lt_two_pow 9 (cand p) (hcand p)
          omega
        rw [if_pos hlt] at hscan
        by_cases h1 : popcount (cand p) = 1
        · rw [if_pos h1] at hscan; cases hscan
        · rw [if_neg h1] at hscan
          exact absurd hscan (scanCells_some_ne_none cand bd rest _ _)

/-- If the scan chooses a cell, it is an empty cell carrying its own nonzero
candidate mask. -/
theorem scanCells_found (cand : Fin 9 × Fin 9 → Nat) (bd : Board) :
    ∀ (l : List (Fin 9 × Fin 9)) (best : Option (Fin 9 × Fin 9 × Nat)) (bc : Nat)
      (r c : Fin 9) (mk : Nat),
      (∀ r2 c2 mk2, best = some (r2, c2, mk2) →
        bd r2 c2 = 0 ∧ mk2 = cand (r2, c2) ∧ mk2 ≠ 0) →
      scanCells cand bd l best bc = some (some (r, c, mk)) →
      bd r c = 0 ∧ mk = cand (r, c) ∧ mk ≠ 0 := by
  intro l
  induction l with
  | nil =>
    intro best bc r c mk hbest hscan
    cases hscan
    exact hbest r c mk rfl
  | cons p rest ih =>
    intro best bc r c mk hbest hscan
    rw [scanCells] at hscan
    by_cases hp : bd p.1 p.2 ≠ 0
    · rw [if_pos hp] at hscan
      exact ih best bc r c mk hbest hscan
    · rw [if_neg hp] at hscan
      by_cases hm : cand p = 0
      · rw [if_pos hm] at hscan; cases hscan
      · rw [if_neg hm] at hscan
        by_cases hc : popcount (cand p) < bc
        · rw [if_pos hc] at hscan
          by_cases h1 : popcount (cand p) = 1
          · rw [if_pos h1] at hscan
            have he : (p.1, p.2, cand p) = ((r, c, mk) : Fin 9 × Fin 9 × Nat) :=
              Option.some.inj (Option.some.inj hscan)
            have he1 : p.1 = r := congrArg (fun t => t.1) he
            have he2 : p.2 = c := congrArg (fun t => t.2.1) he
            have he3 : cand p = mk := congrArg (fun t => t.2.2) he
            refine ⟨?_, ?_, ?_⟩
            · rw [← he1, ← he2]
              simpa using hp
            · rw [← he3, ← he1, ← he2]
            · rw [← he3]
              exact hm
          · rw [if_neg h1] at hscan
            apply ih _ _ r c mk _ hscan
            intro r2 c2 mk2 hbe
            have he := Option.some.inj hbe
            refine ⟨?_, ?_, ?_⟩
            · have : p.1 = r2 := congrArg (fun t => t.1) he
              have h2 : p.2 = c2 := congrArg (fun t => t.2.1) he
              rw [← this, ← h2]
              simpa using hp
            · have : p.1 = r2 := congrArg (fun t => t.1) he
              have h2 : p.2 = c2 := congrArg (fun t => t.2.1) he
              have h3 : cand p = mk2 := congrArg (fun t => t.2.2) he
              rw [← h3, ← this, ← h2]
            · have h3 : cand p = mk2 := congrArg (fun t => t.2.2) he
              rw [← h3]
              exact hm
        · rw [if_neg hc] at hscan
          exact ih best bc r c mk hbest hscan

/-- If the scan reports a dead end, some listed empty cell has no
candidates. -/
theorem scanCells_dead (cand : Fin 9 × Fin 9 → Nat) (bd : Board) :
    ∀ (l : List (Fin 9 × Fin 9)) (best : Option (Fin 9 × Fin 9 × Nat)) (bc : Nat),
      scanCells cand bd l best bc = none →
      ∃ p ∈ l, bd p.1 p.2 = 0 ∧ cand p = 0 := by
  intro l
  induction l with
  | nil => intro best bc h; cases h
  | cons p rest ih =>
    intro best bc hscan
    rw [scanCells] at hscan
    by_cases hp : bd p.1 p.2 ≠ 0
    · rw [if_pos hp] at hscan
      obtain ⟨p2, h1, h2⟩ := ih best bc hscan
      exact ⟨p2, List.mem_cons_of_mem _ h1, h2⟩
    · rw [if_neg hp] at hscan
      by_cases hm : cand p = 0
      · refine ⟨p, List.mem_cons_self _ _, by simpa using hp, hm⟩
      · rw [if_neg hm] at hscan
        by_cases hc : popcount (cand p) < bc
        · rw [if_pos hc] at hscan
          by_cases h1 : popcount (cand p) = 1
          · rw [if_pos h1] at hscan; cases hscan
          · rw [if_neg h1] at hscan
            obtain ⟨p2, ha, hb2⟩ := ih _ _ hscan
            exact ⟨p2, List.mem_cons_of_mem _ ha, hb2⟩
        · rw [if_neg hc] at hscan
          obtain ⟨p2, ha, hb2⟩ := ih best bc hscan
          exact ⟨p2, List.mem_cons_of_mem _ ha, hb2⟩

/-! ### Correctness of the reference search `specSolve` -/

theorem completion_setCell_weaken (b : Board) (r c : Fin 9) (d : Nat)
    (hz : b r c = 0) (s : Board) (hs : IsCompletion (setCell b r c d) s) :
    IsCompletion b s := by
  refine ⟨hs.1, fun r2 c2 h => ?_⟩
  have hne : ¬(r2 = r ∧ c2 = c) := by
    rintro ⟨rfl, rfl⟩
    exact h hz
  have := hs.2 r2 c2
  rw [setCell_other _ _ _ _ _ _ hne] at this
  exact this h

theorem ctz_lt_of_lt_two_pow (m n : Nat) (hm : m ≠ 0) (h : m < 2 ^ n) :
    ctz m < n := by
  have h1 := testBit_ctz_self m hm
  have h2 := Nat.testBit_implies_ge h1
  by_contra hcon
  have : (2 : Nat) ^ n ≤ 2 ^ ctz m := Nat.pow_le_pow_right (by norm_num) (by omega)
  omega

theorem testBit_sub_lowBit_le (m k : Nat) (hm : m ≠ 0)
    (h : (m - lowBit m).testBit k = true) : m.testBit k = true := by
  rw [testBit_sub_lowBit m hm k] at h
  revert h
  cases hb : m.testBit k <;> simp

theorem zeroCount_pos (b : Board) (q : Fin 9 × Fin 9) (hq : b q.1 q.2 = 0) :
    1 ≤ zeroCount b := by
  rw [zeroCount]
  have hm : q ∈ allCells.filter fun p => b p.1 p.2 = 0 := by
    rw [List.mem_filter]
    exact ⟨mem_allCells q, by simpa using hq⟩
  have := List.length_pos.mpr (List.ne_nil_of_mem hm)
  omega

theorem specCandidates_bits_lt (b : Board) (q : Fin 9 × Fin 9) (m : Nat)
    (hsub : ∀ k, m.testBit k = true → (specCandidates b q.1 q.2).testBit k = true) :
    m < 2 ^ 9 := by
  apply Nat.lt_pow_two_of_testBit
  intro i hi
  by_contra hcon
  have h1 : m.testBit i = true := by
    revert hcon; cases h : m.testBit i <;> simp
  have := hsub i h1
  rw [testBit_specCandidates_hi b q.1 q.2 i hi] at this
  cases this

/-- Digit-loop part of the correctness of `specSolve`: given the outer
induction hypothesis at `fuel`, `specTry` finds a completion exactly when one
of the digits of `m` admits one. -/
theorem specTry_spec (fuel : Nat)
    (IH : ∀ b2 : Board, ConflictFree b2 → InRange b2 → zeroCount b2 < fuel →
      (∀ s, specSolve fuel b2 = some s → IsCompletion b2 s) ∧
      (specSolve fuel b2 = none ↔ numSolutions b2 = 0)) :
    ∀ m (b : Board) (q : Fin 9 × Fin 9), ConflictFree b → InRange b →
      b q.1 q.2 = 0 →
      (∀ k, m.testBit k = true → (specCandidates b q.1 q.2).testBit k = true) →
      zeroCount b ≤ fuel →
      (∀ s, specTry fuel b q.1 q.2 m = some s → IsCompletion b s) ∧
      (specTry fuel b q.1 q.2 m = none ↔
        ∑ k ∈ (Finset.range 9).filter (fun k => m.testBit k = true),
          numSolutions (setCell b q.1 q.2 (k + 1)) = 0) := by
  intro m
  induction m using Nat.strong_induction_on with
  | _ m ihm =>
    intro b q hcf hrng hq hsub hfuel
    by_cases hm : m = 0
    · subst hm
      rw [specTry.eq_1, dif_pos rfl]
      constructor
      · intro s hs
        cases hs
      · have hemp : (Finset.range 9).filter (fun k => (0 : Nat).testBit k = true)
            = ∅ := by
          apply Finset.filter_false_of_mem
          intro k hk
          simp
        rw [hemp, Finset.sum_empty]
        simp
    · -- nonzero mask: peel the lowest candidate digit
      have hd : ctz (lowBit m) + 1 = ctz m + 1 := by rw [ctz_lowBit]
      have hm9 : m < 2 ^ 9 := specCandidates_bits_lt b q m hsub
      have hctz9 : ctz m < 9 := ctz_lt_of_lt_two_pow m 9 hm hm9
      have hcbit : (specCandidates b q.1 q.2).testBit (ctz m) = true :=
        hsub (ctz m) (testBit_ctz_self m hm)
      have hused : (usedMask b q.1 q.2).testBit (ctz m) = false := by
        rw [testBit_specCandidates b q.1 q.2 (ctz m) hctz9] at hcbit
        revert hcbit
        cases h : (usedMask b q.1 q.2).testBit (ctz m) <;> simp
      have hzc1 : 1 ≤ zeroCount b := zeroCount_pos b q hq
      have hcf2 : ConflictFree (setCell b q.1 q.2 (ctz m + 1)) := by
        apply conflictFree_setCell b hcf q.1 q.2 _ hq (by omega)
        simpa using hused
      have hrng2 : InRange (setCell b q.1 q.2 (ctz m + 1)) :=
        inRange_setCell b hrng q.1 q.2 _ (by omega)
      have hzc2 : zeroCount (setCell b q.1 q.2 (ctz m + 1)) < fuel := by
        have := zeroCount_setCell b q (ctz m + 1) hq (by omega)
        omega
      have hIH2 := IH (setCell b q.1 q.2 (ctz m + 1)) hcf2 hrng2 hzc2
      have hunf : specTry fuel b q.1 q.2 m
          = match specSolve fuel (setCell b q.1 q.2 (ctz m + 1)) with
            | some s => some s
            | none => specTry fuel b q.1 q.2 (m - lowBit m) := by
        rw [specTry.eq_1, dif_neg hm, hd]
      have hpeel := sum_testBit_peel m hm hm9
        (fun k => numSolutions (setCell b q.1 q.2 (k + 1)))
      have hsub2 : ∀ k, (m - lowBit m).testBit k = true →
          (specCandidates b q.1 q.2).testBit k = true :=
        fun k hk => hsub k (testBit_sub_lowBit_le m k hm hk)
      have ihm2 := ihm (m - lowBit m) (sub_lowBit_lt m hm) b q hcf hrng hq hsub2 hfuel
      cases hchild : specSolve fuel (setCell b q.1 q.2 (ctz m + 1)) with
      | some s =>
        rw [hchild] at hunf
        simp only [] at hunf
        constructor
        · intro s2 hs2
          rw [hunf] at hs2
          have : s = s2 := Option.some.inj hs2
          subst this
          exact completion_setCell_weaken b q.1 q.2 _ hq s (hIH2.1 s hchild)
        · rw [hunf]
          have hns : numSolutions (setCell b q.1 q.2 (ctz m + 1)) ≠ 0 := by
            intro hcon
            rw [← hIH2.2] at hcon
            rw [hchild] at hcon
            cases hcon
          rw [hpeel]
          constructor
          · intro hcon; cases hcon
          · intro hcon; omega
      | none =>
        rw [hchild] at hunf
        simp only [] at hunf
        have hn0 : numSolutions (setCell b q.1 q.2 (ctz m + 1)) = 0 :=
          hIH2.2.mp hchild
        rw [hunf, hpeel, hn0]
        constructor
        · exact fun s hs => ihm2.1 s hs
        · rw [ihm2.2]
          omega

/-- Correctness of the reference search: it returns a completion whenever one
exists (and only completions). -/
theorem specSolve_spec : ∀ (fuel : Nat) (b : Board), ConflictFree b →
    InRange b → zeroCount b < fuel →
    (∀ s, specSolve fuel b = some s → IsCompletion b s) ∧
    (specSolve fuel b = none ↔ numSolutions b = 0) := by
  intro fuel
  induction fuel with
  | zero => intro b _ _ hf; omega
  | succ fuel ih =>
    intro b hcf hrng hfuel
    have hcand : ∀ p : Fin 9 × Fin 9, specCandidates b p.1 p.2 < 2 ^ 9 :=
      fun p => specCandidates_lt b p.1 p.2
    cases hscan : scanCells (fun p => specCandidates b p.1 p.2) b allCells none 10 with
    | none =>
      have hunf : specSolve (fuel + 1) b = none := by
        rw [specSolve.eq_2, hscan]
      obtain ⟨p, hp, hpz, hpc⟩ := scanCells_dead _ _ _ _ _ hscan
      have hn0 : numSolutions b = 0 := numSolutions_eq_zero_of_dead b p hpz hpc
      rw [hunf]
      refine ⟨fun s hs => ?_, ?_⟩
      · cases hs
      · simp [hn0]
    | some obest =>
      cases obest with
      | none =>
        have hunf : specSolve (fuel + 1) b = some b := by
          rw [specSolve.eq_2, hscan]
        have hfill : IsFilled b := by
          intro r c hz
          exact scanCells_full _ _ hcand allCells hscan (r, c) (mem_allCells _) hz
        have hvalid : IsValidFull b := ⟨hfill, hrng, hcf⟩
        rw [hunf]
        constructor
        · intro s hs
          have : b = s := Option.some.inj hs
          subst this
          exact ⟨hvalid, fun _ _ _ => rfl⟩
        · have : numSolutions b = 1 := numSolutions_of_full b hvalid
          simp [this]
      | some t =>
        obtain ⟨r, c, mask⟩ := t
        have hfound := scanCells_found _ _ allCells none 10 r c mask
          (fun r2 c2 mk2 h => by cases h) hscan
        have hunf : specSolve (fuel + 1) b = specTry fuel b r c mask := by
          rw [specSolve.eq_2, hscan]
        have htry := specTry_spec fuel ih mask b (r, c) hcf hrng hfound.1
          (fun k hk => by rw [← hfound.2.1]; exact hk) (by omega)
        have hsum := numSolutions_eq_sum_filter b (r, c) hfound.1
        rw [hunf]
        constructor
        · exact htry.1
        · rw [htry.2, hsum, hfound.2.1]

/-! ### Correctness of the solver's search -/

/-- The search invariant: masks agree with the board, the empty-cell list
covers exactly the currently empty cells (up to currently filled entries),
and the board is conflict-free and in range. -/
structure DfsInv (empties : List (Fin 9 × Fin 9)) (st : DfsSt) : Prop where
  masks : MasksInv st.board st.rowMask st.colMask st.blockMask
  emp : empties.filter (fun p => st.board p.1 p.2 = 0)
      = allCells.filter (fun p => st.board p.1 p.2 = 0)
  cf : ConflictFree st.board
  rng : InRange st.board

/-- Specification of one `dfs` call: state is fully restored, the count rises
by the number of solutions of the current board (capped at the limit), the
stop flag signals a reached limit, and the first solution saved is the one
`specSolve` finds. -/
structure DfsOut (fuel limit : Nat) (st : DfsSt) (out : Bool × DfsSt) : Prop where
  board : out.2.board = st.board
  row : out.2.rowMask = st.rowMask
  col : out.2.colMask = st.colMask
  block : out.2.blockMask = st.blockMask
  count : out.2.outCount = min (st.outCount + numSolutions st.board) limit
  stop : out.1 = true ↔ limit ≤ out.2.outCount
  saved : out.2.saved = if st.outCount < limit
      then st.saved.orElse fun _ => specSolve fuel st.board
      else st.saved

/-- Specification of the digit loop at cell `q` over the digits of `m`. -/
structure LoopOut (fuel limit : Nat) (q : Fin 9 × Fin 9) (m : Nat)
    (st : DfsSt) (out : Bool × DfsSt) : Prop where
  board : out.2.board = st.board
  row : out.2.rowMask = st.rowMask
  col : out.2.colMask = st.colMask
  block : out.2.blockMask = st.blockMask
  count : out.2.outCount = min
      (st.outCount + ∑ k ∈ (Finset.range 9).filter (fun k => m.testBit k = true),
        numSolutions (setCell st.board q.1 q.2 (k + 1))) limit
  stop : out.1 = true ↔ limit ≤ out.2.outCount
  saved : out.2.saved = st.saved.orElse fun _ => specTry fuel st.board q.1 q.2 m

theorem min_push_le (a b n L : Nat) (hA : a = min (b + n) L) (he : a = L) :
    L ≤ b + n := by omega

theorem min_cap_eq (c n S L : Nat) (h1 : L ≤ c + n) (h2 : n ≤ S) :
    min (c + S) L = L := by omega

theorem min_uncapped (a c n L : Nat) (hA : a = min (c + n) L) (h : ¬ L ≤ a) :
    a = c + n := by omega

theorem not_le_lt (a b : Nat) (h : ¬ a ≤ b) : b < a := by omega

theorem le_self_add_left (n S : Nat) : n ≤ n + S := by omega

theorem lt_absurd (c L : Nat) (h1 : c < L) (h2 : L ≤ c + 0) : False := by omega

theorem digitLoop_spec (fuel limit : Nat) (empties : List (Fin 9 × Fin 9))
    (IH : ∀ st : DfsSt, DfsInv empties st → zeroCount st.board < fuel →
      st.outCount ≤ limit → DfsOut fuel limit st (dfsF fuel limit empties st)) :
    ∀ m (st : DfsSt) (q : Fin 9 × Fin 9), DfsInv empties st →
      st.board q.1 q.2 = 0 →
      (∀ k, m.testBit k = true →
        (specCandidates st.board q.1 q.2).testBit k = true) →
      st.outCount < limit → zeroCount st.board ≤ fuel →
      LoopOut fuel limit q m st (digitLoopF fuel limit empties q.1 q.2 m st) := by
  intro m
  induction m using Nat.strong_induction_on with
  | _ m ihm =>
    intro st q hInv hq hsub hclt hfuel
    by_cases hm : m = 0
    · subst hm
      rw [digitLoopF.eq_1, dif_neg (by simp)]
      have hemp : (Finset.range 9).filter (fun k => (0 : Nat).testBit k = true)
          = ∅ := by
        apply Finset.filter_false_of_mem
        intro k hk
        simp
      refine ⟨rfl, rfl, rfl, rfl, ?_, ?_, ?_⟩
      · rw [hemp, Finset.sum_empty, Nat.add_zero, Nat.min_eq_left (by omega)]
      · simp only []
        constructor
        · intro h; cases h
        · intro h; omega
      · rw [specTry.eq_1, dif_pos rfl, orElse_none_right]
    · -- nonzero mask: place the lowest candidate digit and recurse
      have hm9 : m < 2 ^ 9 := specCandidates_bits_lt st.board q m hsub
      have hctz9 : ctz m < 9 := ctz_lt_of_lt_two_pow m 9 hm hm9
      have hcbit : (specCandidates st.board q.1 q.2).testBit (ctz m) = true :=
        hsub (ctz m) (testBit_ctz_self m hm)
      have hused : (usedMask st.board q.1 q.2).testBit (ctz m) = false := by
        rw [testBit_specCandidates st.board q.1 q.2 (ctz m) hctz9] at hcbit
        revert hcbit
        cases h : (usedMask st.board q.1 q.2).testBit (ctz m) <;> simp
      obtain ⟨husedr, husedc, husedb⟩ := usedMask_parts_false _ _ _ _ hused
      have hzc1 : 1 ≤ zeroCount st.board := zeroCount_pos st.board q hq
      have hdm1 : ctz m + 1 - 1 = ctz m := by omega
      set st1 := place st q.1 q.2 (ctz m + 1) with hst1
      have hb1 : st1.board = setCell st.board q.1 q.2 (ctz m + 1) := rfl
      have hInv1 : DfsInv empties st1 := by
        refine ⟨?_, ?_, ?_, ?_⟩
        · rw [hb1]
          have := masksInv_place st.board st.rowMask st.colMask st.blockMask
            hInv.masks q.1 q.2 (ctz m + 1) hq (by omega)
          exact this
        · rw [hb1, filter_zero_setCell _ _ _ _ (by omega),
            filter_zero_setCell _ _ _ _ (by omega), hInv.emp]
        · rw [hb1]
          exact conflictFree_setCell st.board hInv.cf q.1 q.2 (ctz m + 1) hq
            (by omega) (by rw [hdm1]; exact hused)
        · rw [hb1]
          exact inRange_setCell st.board hInv.rng q.1 q.2 (ctz m + 1) (by omega)
      have hzc2 : zeroCount st1.board < fuel := by
        rw [hb1]
        have := zeroCount_setCell st.board q (ctz m + 1) hq (by omega)
        omega
      have hc1 : st1.outCount ≤ limit := by
        have he : st1.outCount = st.outCount := rfl
        omega
      obtain ⟨res, hres⟩ : ∃ r, dfsF fuel limit empties st1 = r := ⟨_, rfl⟩
      have hdfs : DfsOut fuel limit st1 res := by
        rw [← hres]
        exact IH st1 hInv1 hzc2 hc1
      set st2 := undo res.2 q.1 q.2 (ctz m + 1) with hst2
      have hboard2 : st2.board = st.board := by
        rw [hst2, undo]
        simp only []
        rw [hdfs.board, hb1, setCell_cancel st.board q.1 q.2 (ctz m + 1) hq]
      have hrow2 : st2.rowMask = st.rowMask := by
        funext i
        rw [hst2, undo]
        simp only []
        by_cases hi : i = q.1.val
        · rw [if_pos hi, hdfs.row, hst1, place]
          simp only []
          rw [if_pos hi, hi, hdm1]
          apply lor_land_not
          · omega
          · rw [hInv.masks.row q.1]
            have := rowMaskOf_lt st.board hInv.rng q.1
            have h32 : (2 : Nat) ^ 9 < 2 ^ 32 := by norm_num
            omega
          · rw [hInv.masks.row q.1]
            exact husedr
        · rw [if_neg hi, hdfs.row, hst1, place]
          simp only []
          rw [if_neg hi]
      have hcol2 : st2.colMask = st.colMask := by
        funext i
        rw [hst2, undo]
        simp only []
        by_cases hi : i = q.2.val
        · rw [if_pos hi, hdfs.col, hst1, place]
          simp only []
          rw [if_pos hi, hi, hdm1]
          apply lor_land_not
          · omega
          · rw [hInv.masks.col q.2]
            have := colMaskOf_lt st.board hInv.rng q.2
            have h32 : (2 : Nat) ^ 9 < 2 ^ 32 := by norm_num
            omega
          · rw [hInv.masks.col q.2]
            exact husedc
        · rw [if_neg hi, hdfs.col, hst1, place]
          simp only []
          rw [if_neg hi]
      have hblock2 : st2.blockMask = st.blockMask := by
        funext i
        rw [hst2, undo]
        simp only []
        by_cases hi : i = blockIndex q.1.val q.2.val
        · rw [if_pos hi, hdfs.block, hst1, place]
          simp only []
          rw [if_pos hi, hi, hdm1]
          apply lor_land_not
          · omega
          · rw [hInv.masks.block _ (blockIndex_lt _ _ q.1.isLt q.2.isLt)]
            have := blockMaskOf_lt st.board hInv.rng (blockIndex q.1.val q.2.val)
            have h32 : (2 : Nat) ^ 9 < 2 ^ 32 := by norm_num
            omega
          · rw [hInv.masks.block _ (blockIndex_lt _ _ q.1.isLt q.2.isLt)]
            exact husedb
        · rw [if_neg hi, hdfs.block, hst1, place]
          simp only []
          rw [if_neg hi]
      have hcount2 : st2.outCount = res.2.outCount := rfl
      have hsaved2 : st2.saved = res.2.saved := rfl
      have hcountA : res.2.outCount
          = min (st.outCount + numSolutions (setCell st.board q.1 q.2 (ctz m + 1)))
            limit := by
        have := hdfs.count
        rw [hb1] at this
        exact this
      have hsavedA : res.2.saved
          = st.saved.orElse fun _ =>
              specSolve fuel (setCell st.board q.1 q.2 (ctz m + 1)) := by
        have := hdfs.saved
        rw [hb1] at this
        rw [this, if_pos (show st1.outCount < limit from hclt)]
        rfl
      have hpeel := sum_testBit_peel m hm hm9
        (fun k => numSolutions (setCell st.board q.1 q.2 (k + 1)))
      have htryunf : specTry fuel st.board q.1 q.2 m
          = match specSolve fuel (setCell st.board q.1 q.2 (ctz m + 1)) with
            | some s => some s
            | none => specTry fuel st.board q.1 q.2 (m - lowBit m) := by
        rw [specTry.eq_1, dif_neg hm]
        simp only [ctz_lowBit]
      have hloopunf : digitLoopF fuel limit empties q.1 q.2 m st
          = if res.1 = true then (true, st2)
            else digitLoopF fuel limit empties q.1 q.2 (m - lowBit m) st2 := by
        rw [digitLoopF.eq_1, dif_pos ⟨hm, hclt⟩]
        simp only [ctz_lowBit]
        rw [← hst1, hres, ← hst2]
      cases hstop : res.1 with
      | true =>
        rw [hloopunf, hstop, if_pos rfl]
        have hlim : limit ≤ res.2.outCount := hdfs.stop.mp hstop
        have hceq : res.2.outCount = limit := by
          have hle : res.2.outCount ≤ limit := by
            rw [hcountA]
            exact Nat.min_le_right _ _
          exact Nat.le_antisymm hle hlim
        have hNd : limit ≤ st.outCount
            + numSolutions (setCell st.board q.1 q.2 (ctz m + 1)) :=
          min_push_le _ _ _ _ hcountA hceq
        refine ⟨hboard2, hrow2, hcol2, hblock2, ?_, ?_, ?_⟩
        · simp only []
          rw [hcount2, hceq, hpeel]
          exact (min_cap_eq _ _ _ _ hNd (le_self_add_left _ _)).symm
        · simp only []
          rw [hcount2, hceq]
          simp
        · simp only []
          rw [hsaved2, hsavedA]
          cases hchild : specSolve fuel (setCell st.board q.1 q.2 (ctz m + 1)) with
          | some s =>
            rw [htryunf, hchild]
          | none =>
            exfalso
            have hcf2 : ConflictFree (setCell st.board q.1 q.2 (ctz m + 1)) :=
              hb1 ▸ hInv1.cf
            have hrng2 : InRange (setCell st.board q.1 q.2 (ctz m + 1)) :=
              hb1 ▸ hInv1.rng
            have hzc2b : zeroCount (setCell st.board q.1 q.2 (ctz m + 1)) < fuel :=
              hb1 ▸ hzc2
            have hN0 := (specSolve_spec fuel (setCell st.board q.1 q.2 (ctz m + 1))
              hcf2 hrng2 hzc2b).2.mp hchild
            rw [hN0] at hNd
            exact lt_absurd _ _ hclt hNd
      | false =>
        rw [hloopunf, hstop, if_neg Bool.false_ne_true]
        have hnlim : ¬ limit ≤ res.2.outCount := by
          intro hcon
          have := hdfs.stop.mpr hcon
          rw [hstop] at this
          cases this
        have hceq : res.2.outCount
            = st.outCount + numSolutions (setCell st.board q.1 q.2 (ctz m + 1)) :=
          min_uncapped _ _ _ _ hcountA hnlim
        have hInv2 : DfsInv empties st2 := by
          refine ⟨?_, ?_, ?_, ?_⟩
          · rw [hboard2, hrow2, hcol2, hblock2]
            exact hInv.masks
          · rw [hboard2]
            exact hInv.emp
          · rw [hboard2]
            exact hInv.cf
          · rw [hboard2]
            exact hInv.rng
        have hsub2 : ∀ k, (m - lowBit m).testBit k = true →
            (specCandidates st2.board q.1 q.2).testBit k = true := by
          intro k hk
          rw [hboard2]
          exact hsub k (testBit_sub_lowBit_le m k hm hk)
        have hclt2 : st2.outCount < limit := by
          rw [hcount2]
          exact not_le_lt _ _ hnlim
        have hfuel2 : zeroCount st2.board ≤ fuel := by
          rw [hboard2]
          exact hfuel
        have hrec := ihm (m - lowBit m) (sub_lowBit_lt m hm) st2 q hInv2
          (by rw [hboard2]; exact hq) hsub2 hclt2 hfuel2
        refine ⟨?_, ?_, ?_, ?_, ?_, ?_, ?_⟩
        · rw [hrec.board, hboard2]
        · rw [hrec.row, hrow2]
        · rw [hrec.col, hcol2]
        · rw [hrec.block, hblock2]
        · rw [hrec.count, hboard2, hcount2, hceq, hpeel]
          rw [Nat.add_assoc]
        · exact hrec.stop
        · rw [hrec.saved, hboard2, hsaved2, hsavedA]
          cases hchild : specSolve fuel (setCell st.board q.1 q.2 (ctz m + 1)) with
          | some s =>
            rw [htryunf, hchild]
            simp only []
            rw [orElse_some_absorb]
          | none =>
            rw [htryunf, hchild]
            simp only []
            rw [orElse_none_right]


/-- Full correctness of the `dfs` lambda, by induction on the fuel: the
final state restores board and masks, counts `min(found, limit)` solutions,
signals stop exactly at the limit, and saves `specSolve`'s first solution. -/
theorem dfs_spec : ∀ (fuel limit : Nat) (empties : List (Fin 9 × Fin 9))
    (st : DfsSt), DfsInv empties st → zeroCount st.board < fuel →
    st.outCount ≤ limit → DfsOut fuel limit st (dfsF fuel limit empties st) := by
  intro fuel
  induction fuel with
  | zero =>
    intro limit empties st hInv hfuel hcle
    exact absurd hfuel (Nat.not_lt_zero _)
  | succ fuel ih =>
    intro limit empties st hInv hfuel hcle
    by_cases hstart : limit ≤ st.outCount
    · have hunf : dfsF (fuel + 1) limit empties st = (true, st) := by
        rw [dfsF.eq_2, if_pos hstart]
      rw [hunf]
      have hceq : st.outCount = limit := Nat.le_antisymm hcle hstart
      refine ⟨rfl, rfl, rfl, rfl, ?_, ?_, ?_⟩
      · simp only []
        rw [hceq]
        exact (Nat.min_eq_right (Nat.le_add_right _ _)).symm
      · simp only []
        constructor
        · intro _; exact hstart
        · intro _; trivial
      · simp only []
        rw [if_neg (Nat.not_lt.mpr hstart)]
    · have hclt : st.outCount < limit := not_le_lt _ _ hstart
      have hcandeq : (fun p : Fin 9 × Fin 9 =>
            candidatesMask st.rowMask st.colMask st.blockMask p.1 p.2)
          = fun p => specCandidates st.board p.1 p.2 := by
        funext p
        exact candidatesMask_eq_spec st.board _ _ _ hInv.masks p.1 p.2
      have hscaneq : scanCells
            (fun p => candidatesMask st.rowMask st.colMask st.blockMask p.1 p.2)
            st.board empties none 10
          = scanCells (fun p => specCandidates st.board p.1 p.2) st.board
              allCells none 10 := by
        rw [hcandeq, scanCells_filter _ _ empties, scanCells_filter _ _ allCells,
          hInv.emp]
      have hcand : ∀ p : Fin 9 × Fin 9, specCandidates st.board p.1 p.2 < 2 ^ 9 :=
        fun p => specCandidates_lt _ _ _
      cases hscan : scanCells (fun p => specCandidates st.board p.1 p.2) st.board
          allCells none 10 with
      | none =>
        have hunf : dfsF (fuel + 1) limit empties st = (false, st) := by
          rw [dfsF.eq_2, if_neg hstart, hscaneq, hscan]
        have hspec : specSolve (fuel + 1) st.board = none := by
          rw [specSolve.eq_2, hscan]
        obtain ⟨p, hp, hpz, hpc⟩ := scanCells_dead _ _ _ _ _ hscan
        have hn0 : numSolutions st.board = 0 :=
          numSolutions_eq_zero_of_dead st.board p hpz hpc
        rw [hunf]
        refine ⟨rfl, rfl, rfl, rfl, ?_, ?_, ?_⟩
        · simp only []
          rw [hn0, Nat.add_zero, Nat.min_eq_left hcle]
        · simp only []
          constructor
          · intro h; cases h
          · intro h; exact absurd h hstart
        · simp only []
          rw [if_pos hclt, hspec, orElse_none_right]
      | some obest =>
        cases obest with
        | none =>
          have hunf : dfsF (fuel + 1) limit empties st
              = (decide (limit ≤ st.outCount + 1),
                  ⟨st.board, st.rowMask, st.colMask, st.blockMask,
                    st.outCount + 1,
                    st.saved.orElse fun _ => some st.board⟩) := by
            rw [dfsF.eq_2, if_neg hstart, hscaneq, hscan]
            cases st.saved <;> rfl
          have hspec : specSolve (fuel + 1) st.board = some st.board := by
            rw [specSolve.eq_2, hscan]
          have hfill : IsFilled st.board := by
            intro r c hz
            exact scanCells_full _ _ hcand allCells hscan (r, c) (mem_allCells _) hz
          have hvalid : IsValidFull st.board := ⟨hfill, hInv.rng, hInv.cf⟩
          have hn1 : numSolutions st.board = 1 := numSolutions_of_full _ hvalid
          rw [hunf]
          refine ⟨rfl, rfl, rfl, rfl, ?_, ?_, ?_⟩
          · simp only []
            rw [hn1]
            exact (Nat.min_eq_left (Nat.succ_le_of_lt hclt)).symm
          · simp only []
            exact decide_eq_true_iff
          · simp only []
            rw [if_pos hclt, hspec]
        | some t =>
          obtain ⟨r, c, mask⟩ := t
          have hfound := scanCells_found _ _ allCells none 10 r c mask
            (fun r2 c2 mk2 h => by cases h) hscan
          have hunf : dfsF (fuel + 1) limit empties st
              = digitLoopF fuel limit empties r c mask st := by
            rw [dfsF.eq_2, if_neg hstart, hscaneq, hscan]
          have hspec : specSolve (fuel + 1) st.board
              = specTry fuel st.board r c mask := by
            rw [specSolve.eq_2, hscan]
          have hloop := digitLoop_spec fuel limit empties
            (fun st2 h1 h2 h3 => ih limit empties st2 h1 h2 h3) mask st (r, c)
            hInv hfound.1 (fun k hk => by rw [← hfound.2.1]; exact hk) hclt
            (Nat.lt_succ_iff.mp hfuel)
          have hsum := numSolutions_eq_sum_filter st.board (r, c) hfound.1
          rw [hunf]
          refine ⟨hloop.board, hloop.row, hloop.col, hloop.block, ?_,
            hloop.stop, ?_⟩
          · rw [hloop.count, hsum, hfound.2.1]
          · rw [hloop.saved, if_pos hclt, hspec]

/-! ### Correctness of `loadBoard` -/

theorem land_two_pow_eq_zero_iff (x k : Nat) :
    x &&& 1 <<< k = 0 ↔ x.testBit k = false := by
  rw [Nat.shiftLeft_eq, one_mul]
  constructor
  · intro h
    have := congrArg (fun n => n.testBit k) h
    simp only [Nat.testBit_and, Nat.testBit_two_pow, Nat.zero_testBit] at this
    revert this
    cases hb : x.testBit k <;> simp
  · intro h
    apply Nat.eq_of_testBit_eq
    intro j
    rw [Nat.testBit_and, Nat.testBit_two_pow, Nat.zero_testBit]
    by_cases hj : k = j
    · subst hj
      simp [h]
    · simp [hj]

theorem land_or_self_ne_zero (x k : Nat) : (x ||| 1 <<< k) &&& 1 <<< k ≠ 0 := by
  rw [Ne, land_two_pow_eq_zero_iff]
  rw [Nat.testBit_or, Nat.shiftLeft_eq, one_mul, Nat.testBit_two_pow]
  simp

/-- The conflict relation checked between two load-processed cells. -/
def LoadR (b : Board) (p1 p2 : Fin 9 × Fin 9) : Prop :=
  b p1.1 p1.2 ≠ 0 → b p2.1 p2.2 ≠ 0 → SameUnit p1 p2 →
    b p1.1 p1.2 ≠ b p2.1 p2.2

/-- If loading succeeds, no listed nonzero cell's bit was in the initial
masks. -/
theorem loadLoop_init_bits (b : Board) :
    ∀ (l : List (Fin 9 × Fin 9)) (rm cm bm : Nat → Nat) out,
      loadLoop b l rm cm bm = some out → ∀ p ∈ l, b p.1 p.2 ≠ 0 →
      (rm p.1.val).testBit (b p.1 p.2 - 1) = false ∧
      (cm p.2.val).testBit (b p.1 p.2 - 1) = false ∧
      (bm (blockIndex p.1.val p.2.val)).testBit (b p.1 p.2 - 1) = false := by
  intro l
  induction l with
  | nil => intro rm cm bm out h p hp; cases hp
  | cons p0 rest ih =>
    intro rm cm bm out h p hp hpz
    rw [loadLoop] at h
    by_cases h0 : b p0.1 p0.2 = 0
    · rw [if_pos h0] at h
      rcases List.mem_cons.mp hp with rfl | hp2
      · exact absurd h0 hpz
      · exact ih rm cm bm out h p hp2 hpz
    · rw [if_neg h0] at h
      by_cases hr : rm p0.1.val &&& 1 <<< (b p0.1 p0.2 - 1) ≠ 0
      · rw [if_pos hr] at h; cases h
      · rw [if_neg hr] at h
        by_cases hc : cm p0.2.val &&& 1 <<< (b p0.1 p0.2 - 1) ≠ 0
        · rw [if_pos hc] at h; cases h
        · rw [if_neg hc] at h
          by_cases hb2 : bm (blockIndex p0.1.val p0.2.val) &&&
              1 <<< (b p0.1 p0.2 - 1) ≠ 0
          · rw [if_pos hb2] at h; cases h
          · rw [if_neg hb2] at h
            have hre := land_two_pow_eq_zero_iff _ _ |>.mp (not_ne_iff.mp hr)
            have hce := land_two_pow_eq_zero_iff _ _ |>.mp (not_ne_iff.mp hc)
            have hbe := land_two_pow_eq_zero_iff _ _ |>.mp (not_ne_iff.mp hb2)
            rcases List.mem_cons.mp hp with rfl | hp2
            · exact ⟨hre, hce, hbe⟩
            · have := ih _ _ _ out h p hp2 hpz
              obtain ⟨h1, h2, h3⟩ := this
              refine ⟨?_, ?_, ?_⟩
              · by_cases hi : p.1.val = p0.1.val
                · rw [hi] at h1 ⊢
                  rw [if_pos rfl, Nat.testBit_or] at h1
                  revert h1
                  cases hx : (rm p0.1.val).testBit (b p.1 p.2 - 1) <;> simp
                · rw [if_neg hi] at h1
                  exact h1
              · by_cases hi : p.2.val = p0.2.val
                · rw [hi] at h2 ⊢
                  rw [if_pos rfl, Nat.testBit_or] at h2
                  revert h2
                  cases hx : (cm p0.2.val).testBit (b p.1 p.2 - 1) <;> simp
                · rw [if_neg hi] at h2
                  exact h2
              · by_cases hi : blockIndex p.1.val p.2.val
                    = blockIndex p0.1.val p0.2.val
                · rw [hi] at h3 ⊢
                  rw [if_pos rfl, Nat.testBit_or] at h3
                  revert h3
                  cases hx : (bm (blockIndex p0.1.val p0.2.val)).testBit
                      (b p.1 p.2 - 1) <;> simp
                · rw [if_neg hi] at h3
                  exact h3

/-- If loading succeeds, the listed cells are pairwise conflict-free. -/
theorem loadLoop_pairwise (b : Board) :
    ∀ (l : List (Fin 9 × Fin 9)) (rm cm bm : Nat → Nat) out,
      loadLoop b l rm cm bm = some out → l.Pairwise (LoadR b) := by
  intro l
  induction l with
  | nil => intro rm cm bm out h; exact List.Pairwise.nil
  | cons p0 rest ih =>
    intro rm cm bm out h
    rw [loadLoop] at h
    by_cases h0 : b p0.1 p0.2 = 0
    · rw [if_pos h0] at h
      refine List.Pairwise.cons ?_ (ih rm cm bm out h)
      intro p2 hp2 hnz
      exact absurd h0 hnz
    · rw [if_neg h0] at h
      by_cases hr : rm p0.1.val &&& 1 <<< (b p0.1 p0.2 - 1) ≠ 0
      · rw [if_pos hr] at h; cases h
      · rw [if_neg hr] at h
        by_cases hc : cm p0.2.val &&& 1 <<< (b p0.1 p0.2 - 1) ≠ 0
        · rw [if_pos hc] at h; cases h
        · rw [if_neg hc] at h
          by_cases hb2 : bm (blockIndex p0.1.val p0.2.val) &&&
              1 <<< (b p0.1 p0.2 - 1) ≠ 0
          · rw [if_pos hb2] at h; cases h
          · rw [if_neg hb2] at h
            refine List.Pairwise.cons ?_ (ih _ _ _ out h)
            intro p2 hp2 hnz hnz2 hunit heq
            have hbits := loadLoop_init_bits b rest _ _ _ out h p2 hp2 hnz2
            rcases hunit with hu | hu | hu
            · have hieq : p2.1.val = p0.1.val := by rw [hu]
              have := hbits.1
              rw [hieq, if_pos rfl] at this
              rw [← heq] at this
              rw [Nat.testBit_or, Nat.shiftLeft_eq, one_mul,
                Nat.testBit_two_pow] at this
              simp at this
            · have hieq : p2.2.val = p0.2.val := by rw [hu]
              have := hbits.2.1
              rw [hieq, if_pos rfl] at this
              rw [← heq] at this
              rw [Nat.testBit_or, Nat.shiftLeft_eq, one_mul,
                Nat.testBit_two_pow] at this
              simp at this
            · have hieq : blockIndex p2.1.val p2.2.val
                  = blockIndex p0.1.val p0.2.val := by rw [hu]
              have := hbits.2.2
              rw [hieq, if_pos rfl] at this
              rw [← heq] at this
              rw [Nat.testBit_or, Nat.shiftLeft_eq, one_mul,
                Nat.testBit_two_pow] at this
              simp at this

theorem unitMaskOf_cons_zero (b : Board) (p : Fin 9 × Fin 9)
    (xs : List (Fin 9 × Fin 9)) (h : b p.1 p.2 = 0) :
    unitMaskOf b (p :: xs) = unitMaskOf b xs := by
  rw [unitMaskOf, List.foldr_cons, if_pos h]
  rfl

theorem unitMaskOf_cons_ne (b : Board) (p : Fin 9 × Fin 9)
    (xs : List (Fin 9 × Fin 9)) (h : b p.1 p.2 ≠ 0) :
    unitMaskOf b (p :: xs) = unitMaskOf b xs ||| 1 <<< (b p.1 p.2 - 1) := by
  rw [unitMaskOf, List.foldr_cons, if_neg h]
  rfl

theorem or_bit_shuffle (x u bit : Nat) :
    (x ||| bit) ||| u = x ||| (u ||| bit) := by
  rw [Nat.or_assoc, Nat.or_comm bit u]

/-- Loading a pairwise conflict-free list whose bits are absent from the
initial masks succeeds, and each final mask is the initial one or-ed with the
occupancy of the matching listed cells. -/
theorem loadLoop_success (b : Board) :
    ∀ (l : List (Fin 9 × Fin 9)) (rm cm bm : Nat → Nat),
      (∀ p ∈ l, b p.1 p.2 ≠ 0 →
        (rm p.1.val).testBit (b p.1 p.2 - 1) = false ∧
        (cm p.2.val).testBit (b p.1 p.2 - 1) = false ∧
        (bm (blockIndex p.1.val p.2.val)).testBit (b p.1 p.2 - 1) = false) →
      l.Pairwise (LoadR b) →
      ∃ out, loadLoop b l rm cm bm = some out ∧
        (∀ i : Nat, out.1 i
          = rm i ||| unitMaskOf b (l.filter fun p => p.1.val = i)) ∧
        (∀ i : Nat, out.2.1 i
          = cm i ||| unitMaskOf b (l.filter fun p => p.2.val = i)) ∧
        (∀ i : Nat, out.2.2 i
          = bm i ||| unitMaskOf b
              (l.filter fun p => blockIndex p.1.val p.2.val = i)) := by
  intro l
  induction l with
  | nil =>
    intro rm cm bm hbits hpw
    refine ⟨(rm, cm, bm), rfl, ?_, ?_, ?_⟩ <;>
      · intro i
        rw [List.filter_nil]
        rw [show unitMaskOf b [] = 0 from rfl, Nat.or_zero]
  | cons p0 rest ih =>
    intro rm cm bm hbits hpw
    by_cases h0 : b p0.1 p0.2 = 0
    · obtain ⟨out, hout, hr, hmore⟩ := ih rm cm bm
        (fun p hp hpz => hbits p (List.mem_cons_of_mem _ hp) hpz)
        (List.Pairwise.of_cons hpw)
      refine ⟨out, ?_, ?_, ?_, ?_⟩
      · rw [loadLoop, if_pos h0]
        exact hout
      · intro i
        rw [hr i]
        by_cases hpi : p0.1.val = i
        · rw [List.filter_cons_of_pos (by simpa using hpi),
            unitMaskOf_cons_zero b p0 _ h0]
        · rw [List.filter_cons_of_neg (by simpa using hpi)]
      · intro i
        rw [hmore.1 i]
        by_cases hpi : p0.2.val = i
        · rw [List.filter_cons_of_pos (by simpa using hpi),
            unitMaskOf_cons_zero b p0 _ h0]
        · rw [List.filter_cons_of_neg (by simpa using hpi)]
      · intro i
        rw [hmore.2 i]
        by_cases hpi : blockIndex p0.1.val p0.2.val = i
        · rw [List.filter_cons_of_pos (by simpa using hpi),
            unitMaskOf_cons_zero b p0 _ h0]
        · rw [List.filter_cons_of_neg (by simpa using hpi)]
    · obtain ⟨hb0, hpwrest⟩ := List.pairwise_cons.mp hpw
      have hme := hbits p0 (List.mem_cons_self _ _) h0
      have hv1 : 1 ≤ b p0.1 p0.2 := Nat.one_le_iff_ne_zero.mpr h0
      -- the updated masks
      have hbits2 : ∀ p ∈ rest, b p.1 p.2 ≠ 0 →
          ((fun i => if i = p0.1.val then rm i ||| 1 <<< (b p0.1 p0.2 - 1)
              else rm i) p.1.val).testBit (b p.1 p.2 - 1) = false ∧
          ((fun i => if i = p0.2.val then cm i ||| 1 <<< (b p0.1 p0.2 - 1)
              else cm i) p.2.val).testBit (b p.1 p.2 - 1) = false ∧
          ((fun i => if i = blockIndex p0.1.val p0.2.val then
                bm i ||| 1 <<< (b p0.1 p0.2 - 1)
              else bm i) (blockIndex p.1.val p.2.val)).testBit
            (b p.1 p.2 - 1) = false := by
        intro p hp hpz
        obtain ⟨h1, h2, h3⟩ := hbits p (List.mem_cons_of_mem _ hp) hpz
        have hvne : b p0.1 p0.2 - 1 ≠ b p.1 p.2 - 1 → True := fun _ => trivial
        refine ⟨?_, ?_, ?_⟩
        · simp only []
          by_cases hi : p.1.val = p0.1.val
          · rw [hi, if_pos rfl, Nat.testBit_or, Nat.shiftLeft_eq, one_mul,
              Nat.testBit_two_pow]
            rw [hi] at h1
            rw [h1]
            have hnev : b p0.1 p0.2 ≠ b p.1 p.2 :=
              hb0 p hp h0 hpz (Or.inl (Fin.ext hi.symm))
            have hone : 1 ≤ b p.1 p.2 := Nat.one_le_iff_ne_zero.mpr hpz
            simp only [Bool.false_or]
            apply decide_eq_false
            omega
          · rw [if_neg hi]
            exact h1
        · simp only []
          by_cases hi : p.2.val = p0.2.val
          · rw [hi, if_pos rfl, Nat.testBit_or, Nat.shiftLeft_eq, one_mul,
              Nat.testBit_two_pow]
            rw [hi] at h2
            rw [h2]
            have hnev : b p0.1 p0.2 ≠ b p.1 p.2 :=
              hb0 p hp h0 hpz (Or.inr (Or.inl (Fin.ext hi.symm)))
            have hone : 1 ≤ b p.1 p.2 := Nat.one_le_iff_ne_zero.mpr hpz
            simp only [Bool.false_or]
            apply decide_eq_false
            omega
          · rw [if_neg hi]
            exact h2
        · simp only []
          by_cases hi : blockIndex p.1.val p.2.val = blockIndex p0.1.val p0.2.val
          · rw [hi, if_pos rfl, Nat.testBit_or, Nat.shiftLeft_eq, one_mul,
              Nat.testBit_two_pow]
            rw [hi] at h3
            rw [h3]
            have hnev : b p0.1 p0.2 ≠ b p.1 p.2 :=
              hb0 p hp h0 hpz (Or.inr (Or.inr hi.symm))
            have hone : 1 ≤ b p.1 p.2 := Nat.one_le_iff_ne_zero.mpr hpz
            simp only [Bool.false_or]
            apply decide_eq_false
            omega
          · rw [if_neg hi]
            exact h3
      obtain ⟨out, hout, hr, hc, hb3⟩ := ih
        (fun i => if i = p0.1.val then rm i ||| 1 <<< (b p0.1 p0.2 - 1) else rm i)
        (fun i => if i = p0.2.val then cm i ||| 1 <<< (b p0.1 p0.2 - 1) else cm i)
        (fun i => if i = blockIndex p0.1.val p0.2.val then
            bm i ||| 1 <<< (b p0.1 p0.2 - 1) else bm i)
        hbits2 hpwrest
      refine ⟨out, ?_, ?_, ?_, ?_⟩
      · rw [loadLoop, if_neg h0,
          if_neg (not_ne_iff.mpr (land_two_pow_eq_zero_iff _ _ |>.mpr hme.1)),
          if_neg (not_ne_iff.mpr (land_two_pow_eq_zero_iff _ _ |>.mpr hme.2.1)),
          if_neg (not_ne_iff.mpr (land_two_pow_eq_zero_iff _ _ |>.mpr hme.2.2))]
        exact hout
      · intro i
        rw [hr i]
        by_cases hpi : p0.1.val = i
        · rw [List.filter_cons_of_pos (by simpa using hpi),
            unitMaskOf_cons_ne b p0 _ h0, if_pos hpi.symm]
          exact or_bit_shuffle _ _ _
        · rw [List.filter_cons_of_neg (by simpa using hpi),
            if_neg (fun hcon => hpi hcon.symm)]
      · intro i
        rw [hc i]
        by_cases hpi : p0.2.val = i
        · rw [List.filter_cons_of_pos (by simpa using hpi),
            unitMaskOf_cons_ne b p0 _ h0, if_pos hpi.symm]
          exact or_bit_shuffle _ _ _
        · rw [List.filter_cons_of_neg (by simpa using hpi),
            if_neg (fun hcon => hpi hcon.symm)]
      · intro i
        rw [hb3 i]
        by_cases hpi : blockIndex p0.1.val p0.2.val = i
        · rw [List.filter_cons_of_pos (by simpa using hpi),
            unitMaskOf_cons_ne b p0 _ h0, if_pos hpi.symm]
          exact or_bit_shuffle _ _ _
        · rw [List.filter_cons_of_neg (by simpa using hpi),
            if_neg (fun hcon => hpi hcon.symm)]

theorem loadR_symmetric (b : Board) : Symmetric (LoadR b) := by
  intro p q hpq h1 h2 hu
  exact fun he => hpq h2 h1 (sameUnit_symm _ _ hu) he.symm

theorem conflictFree_of_pairwise (b : Board)
    (h : allCells.Pairwise (LoadR b)) : ConflictFree b := by
  intro p1 p2 hne hunit hnz heq
  exact h.forall (loadR_symmetric b) (mem_allCells p1) (mem_allCells p2) hne
    hnz (by omega) hunit heq

theorem pairwise_of_conflictFree (b : Board) (h : ConflictFree b) :
    allCells.Pairwise (LoadR b) := by
  have hnd : allCells.Pairwise (· ≠ ·) := allCells_nodup
  exact hnd.imp fun hab h1 h2 hu => h _ _ hab hu h1

theorem unitMaskOf_congr_mem (b : Board) (l1 l2 : List (Fin 9 × Fin 9))
    (h : ∀ p, p ∈ l1 ↔ p ∈ l2) : unitMaskOf b l1 = unitMaskOf b l2 := by
  apply Nat.eq_of_testBit_eq
  intro k
  rw [Bool.eq_iff_iff, testBit_unitMaskOf, testBit_unitMaskOf]
  constructor
  · rintro ⟨p, hp, hrest⟩
    exact ⟨p, (h p).mp hp, hrest⟩
  · rintro ⟨p, hp, hrest⟩
    exact ⟨p, (h p).mpr hp, hrest⟩

/-- `loadBoard` succeeds exactly on conflict-free boards. -/
theorem loadBoard_isSome_iff (b : Board) :
    (loadBoard b).isSome = true ↔ ConflictFree b := by
  rw [loadBoard]
  cases hload : loadLoop b allCells (fun _ => 0) (fun _ => 0) (fun _ => 0) with
  | none =>
    simp only [Option.map_none', Option.isSome_none]
    constructor
    · intro h; cases h
    · intro hcf
      obtain ⟨out, hout, _⟩ := loadLoop_success b allCells
        (fun _ => 0) (fun _ => 0) (fun _ => 0)
        (fun p hp hpz => ⟨Nat.zero_testBit _, Nat.zero_testBit _, Nat.zero_testBit _⟩)
        (pairwise_of_conflictFree b hcf)
      rw [hload] at hout
      cases hout
  | some out =>
    simp only [Option.map_some', Option.isSome_some]
    constructor
    · intro _
      exact conflictFree_of_pairwise b (loadLoop_pairwise b allCells _ _ _ out hload)
    · intro _; trivial

/-- What a successful `loadBoard` yields: the board itself, correctly
initialized masks, the row-major empty-cell list, and conflict-freedom. -/
theorem loadBoard_spec (b : Board) (sv : Solver) (h : loadBoard b = some sv) :
    sv.board = b ∧
    sv.empties = allCells.filter (fun p => b p.1 p.2 = 0) ∧
    MasksInv b sv.rowMask sv.colMask sv.blockMask ∧
    ConflictFree b := by
  rw [loadBoard] at h
  cases hload : loadLoop b allCells (fun _ => 0) (fun _ => 0) (fun _ => 0) with
  | none =>
    rw [hload] at h
    cases h
  | some out =>
    rw [hload] at h
    have hsv : sv = ⟨b, out.1, out.2.1, out.2.2,
        allCells.filter fun p => b p.1 p.2 = 0⟩ := by
      have := Option.some.inj h
      exact this.symm
    have hcf : ConflictFree b :=
      conflictFree_of_pairwise b (loadLoop_pairwise b allCells _ _ _ out hload)
    obtain ⟨out2, hout2, hr, hc, hb2⟩ := loadLoop_success b allCells
      (fun _ => 0) (fun _ => 0) (fun _ => 0)
      (fun p hp hpz => ⟨Nat.zero_testBit _, Nat.zero_testBit _, Nat.zero_testBit _⟩)
      (pairwise_of_conflictFree b hcf)
    rw [hload] at hout2
    have hoe : out2 = out := (Option.some.inj hout2).symm
    subst hoe
    refine ⟨by rw [hsv], by rw [hsv], ?_, hcf⟩
    rw [hsv]
    refine ⟨?_, ?_, ?_⟩
    · intro r
      simp only []
      rw [hr r.val, Nat.zero_or, rowMaskOf]
      apply unitMaskOf_congr_mem
      intro p
      rw [List.mem_filter, mem_rowCells]
      constructor
      · rintro ⟨_, hp⟩
        exact Fin.ext (by simpa using hp)
      · intro hp
        exact ⟨mem_allCells p, by simp [hp]⟩
    · intro c
      simp only []
      rw [hc c.val, Nat.zero_or, colMaskOf]
      apply unitMaskOf_congr_mem
      intro p
      rw [List.mem_filter, mem_colCells]
      constructor
      · rintro ⟨_, hp⟩
        exact Fin.ext (by simpa using hp)
      · intro hp
        exact ⟨mem_allCells p, by simp [hp]⟩
    · intro bi hbi
      simp only []
      rw [hb2 bi, Nat.zero_or, blockMaskOf, blockCells]

/-- The filter of a filtered list by the same predicate is itself. -/
theorem filter_idem {α : Type} (l : List α) (p : α → Bool) :
    (l.filter p).filter p = l.filter p := by
  rw [List.filter_filter]
  apply List.filter_congr
  intro a ha
  cases h : p a <;> simp [h]

/-- Master specification of `Solver::solve` on a freshly loaded board. -/
theorem solve_spec (b : Board) (sv : Solver) (hInR : InRange b)
    (h : loadBoard b = some sv) (limit : Nat) :
    (sv.solve limit).2.2 = min (numSolutions b) limit ∧
    ((sv.solve limit).2.1 = true ↔ 1 ≤ min (numSolutions b) limit) ∧
    (sv.solve limit).1.rowMask = sv.rowMask ∧
    (sv.solve limit).1.colMask = sv.colMask ∧
    (sv.solve limit).1.blockMask = sv.blockMask ∧
    (sv.solve limit).1.empties = sv.empties ∧
    (sv.solve limit).1.board
      = (match (if 0 < limit then specSolve 82 b else none) with
          | some s => s
          | none => b) := by
  obtain ⟨hb, hemp, hmasks, hcf⟩ := loadBoard_spec b sv h
  obtain ⟨res, hres⟩ : ∃ r,
      dfsF 82 limit sv.empties
        ⟨sv.board, sv.rowMask, sv.colMask, sv.blockMask, 0, none⟩ = r := ⟨_, rfl⟩
  have hInv : DfsInv sv.empties
      ⟨sv.board, sv.rowMask, sv.colMask, sv.blockMask, 0, none⟩ := by
    refine ⟨?_, ?_, ?_, ?_⟩
    · simp only []
      rw [hb]
      exact hmasks
    · simp only []
      rw [hb, hemp]
      exact filter_idem _ _
    · simp only []
      rw [hb]
      exact hcf
    · simp only []
      rw [hb]
      exact hInR
  have hzc : zeroCount
      (DfsSt.board ⟨sv.board, sv.rowMask, sv.colMask, sv.blockMask, 0, none⟩)
        < 82 := by
    simp only []
    have := zeroCount_le sv.board
    omega
  have hout : DfsOut 82 limit
      ⟨sv.board, sv.rowMask, sv.colMask, sv.blockMask, 0, none⟩ res := by
    rw [← hres]
    exact dfs_spec 82 limit sv.empties _ hInv hzc (Nat.zero_le _)
  have hunf : sv.solve limit
      = (⟨(match res.2.saved with
            | some sb => sb
            | none => res.2.board),
          res.2.rowMask, res.2.colMask, res.2.blockMask, sv.empties⟩,
         decide (1 ≤ res.2.outCount), res.2.outCount) := by
    rw [Solver.solve, hres]
  have hcount : res.2.outCount = min (numSolutions b) limit := by
    have h2 : res.2.outCount = min (0 + numSolutions sv.board) limit := hout.count
    rw [h2, hb, Nat.zero_add]
  have hsaved : res.2.saved = if 0 < limit then specSolve 82 b else none := by
    have h2 : res.2.saved = if 0 < limit
        then (none : Option Board).orElse (fun _ => specSolve 82 sv.board)
        else none := hout.saved
    rw [h2, hb]
    by_cases hl : 0 < limit
    · rw [if_pos hl, if_pos hl]
      rfl
    · rw [if_neg hl, if_neg hl]
  rw [hunf]
  refine ⟨hcount, ?_, ?_, ?_, ?_, rfl, ?_⟩
  · simp only []
    rw [hcount]
    exact decide_eq_true_iff
  · exact hout.row
  · exact hout.col
  · exact hout.block
  · simp only []
    have h2 : res.2.board = b := by rw [hout.board, hb]
    rw [hsaved, h2]

/-! ### Concrete boards for witnesses and counterexamples -/

/-- A concrete fully solved grid (row `r` is the cyclic shift of `1..9` by
`3*r + r/3`). -/
def S0 : Board := fun r c => (r.val * 3 + r.val / 3 + c.val) % 9 + 1

/-- `S0` with its first cell cleared: a puzzle with exactly one solution. -/
def B1 : Board := fun r c => if r.val = 0 ∧ c.val = 0 then 0 else S0 r c

/-- A board given by a row-major list of rows (missing entries read `0`). -/
def boardOfRows (rows : List (List Nat)) : Board :=
  fun r c => (rows.getD r.val []).getD c.val 0

/-- A puzzle with exactly two solutions (an unavoidable rectangle at rows
0–1, columns 0 and 3, digits 1/2). -/
def B2 : Board := boardOfRows
  [[0, 3, 4, 0, 5, 6, 7, 8, 9],
   [0, 5, 9, 0, 7, 8, 3, 4, 6],
   [6, 7, 8, 3, 4, 9, 1, 2, 5],
   [3, 1, 2, 4, 6, 5, 8, 9, 7],
   [4, 6, 7, 8, 9, 1, 2, 5, 3],
   [8, 9, 5, 7, 2, 3, 4, 6, 1],
   [5, 2, 1, 6, 3, 4, 9, 7, 8],
   [7, 8, 6, 9, 1, 2, 5, 3, 4],
   [9, 4, 3, 5, 8, 7, 6, 1, 2]]

/-- The completion of `B2` with `1,2 / 2,1` in the rectangle. -/
def F1 : Board := boardOfRows
  [[1, 3, 4, 2, 5, 6, 7, 8, 9],
   [2, 5, 9, 1, 7, 8, 3, 4, 6],
   [6, 7, 8, 3, 4, 9, 1, 2, 5],
   [3, 1, 2, 4, 6, 5, 8, 9, 7],
   [4, 6, 7, 8, 9, 1, 2, 5, 3],
   [8, 9, 5, 7, 2, 3, 4, 6, 1],
   [5, 2, 1, 6, 3, 4, 9, 7, 8],
   [7, 8, 6, 9, 1, 2, 5, 3, 4],
   [9, 4, 3, 5, 8, 7, 6, 1, 2]]

/-- The completion of `B2` with `2,1 / 1,2` in the rectangle. -/
def F2 : Board := boardOfRows
  [[2, 3, 4, 1, 5, 6, 7, 8, 9],
   [1, 5, 9, 2, 7, 8, 3, 4, 6],
   [6, 7, 8, 3, 4, 9, 1, 2, 5],
   [3, 1, 2, 4, 6, 5, 8, 9, 7],
   [4, 6, 7, 8, 9, 1, 2, 5, 3],
   [8, 9, 5, 7, 2, 3, 4, 6, 1],
   [5, 2, 1, 6, 3, 4, 9, 7, 8],
   [7, 8, 6, 9, 1, 2, 5, 3, 4],
   [9, 4, 3, 5, 8, 7, 6, 1, 2]]

/-- A conflict-free board with no solution: row 0 holds `1..8` in columns
1–8, and a `9` below the empty corner kills its last candidate. -/
def B3 : Board := fun r c =>
  if r.val = 0 ∧ 1 ≤ c.val then c.val
  else if r.val = 1 ∧ c.val = 0 then 9 else 0

/-- A board with three `5`s in row 0: clearing one of them still leaves a
row conflict, so reloading fails. -/
def B4 : Board := fun r c => if r.val = 0 ∧ c.val ≤ 2 then 5 else 0

/-- A board in which the value 5 appears twice in row 0 (and nothing else). -/
def Bdup5 : Board := fun r c => if r.val = 0 ∧ c.val ≤ 1 then 5 else 0

/-! ### Counting helpers for the concrete boards -/

theorem min_with_two_of_one (n : Nat) (h : n = 1) : min n 2 = 1 := by omega

theorem min_with_two_of_ge (n : Nat) (h : 2 ≤ n) : min n 2 = 2 := by omega

theorem one_le_min_of (n m : Nat) (h1 : 1 ≤ n) (h2 : 1 ≤ m) :
    1 ≤ min n m := by omega

theorem not_one_le_min_zero (l : Nat) : ¬ 1 ≤ min 0 l := by omega

attribute [irreducible] boardSpace

theorem completion_unique (b s t : Board) (h1 : numSolutions b = 1)
    (hs : IsCompletion b s) (ht : IsCompletion b t) : t = s := by
  have hc : (completions b).card ≤ 1 := le_of_eq h1
  have hm1 : t ∈ completions b := (mem_completions b t).mpr ht
  have hm2 : s ∈ completions b := (mem_completions b s).mpr hs
  exact Finset.card_le_one.mp hc t hm1 s hm2

theorem numSolutions_one_le (b s : Board) (hs : IsCompletion b s) :
    1 ≤ numSolutions b := by
  have hmem : s ∈ completions b := (mem_completions b s).mpr hs
  have h2 : 0 < (completions b).card := Finset.card_pos.mpr ⟨s, hmem⟩
  exact h2

theorem numSolutions_two_le (b s1 s2 : Board) (h1 : IsCompletion b s1)
    (h2 : IsCompletion b s2) (hne : s1 ≠ s2) : 2 ≤ numSolutions b := by
  have hm1 : s1 ∈ completions b := (mem_completions b s1).mpr h1
  have hm2 : s2 ∈ completions b := (mem_completions b s2).mpr h2
  have h3 : 1 < (completions b).card :=
    Finset.one_lt_card.mpr ⟨s1, hm1, s2, hm2, hne⟩
  exact h3

/-- On a conflict-free in-range board with at least one solution, the
reference search finds a solution. -/
theorem specSolve_found (b : Board) (hcf : ConflictFree b) (hInR : InRange b)
    (hne : numSolutions b ≠ 0) :
    ∃ u, specSolve 82 b = some u ∧ IsCompletion b u := by
  have hzc : zeroCount b < 82 := lt_of_le_of_lt (zeroCount_le b) (by omega)
  obtain ⟨hsound, hnone⟩ := specSolve_spec 82 b hcf hInR hzc
  cases hs : specSolve 82 b with
  | none => exact absurd (hnone.mp hs) hne
  | some u => exact ⟨u, rfl, hsound u hs⟩

/-- A single conflicting pair refutes `ConflictFree`. -/
theorem not_conflictFree_pair (b : Board) (p1 p2 : Fin 9 × Fin 9)
    (hne : p1 ≠ p2) (hu : SameUnit p1 p2) (h0 : b p1.1 p1.2 ≠ 0)
    (he : b p1.1 p1.2 = b p2.1 p2.2) : ¬ ConflictFree b :=
  fun hcf => hcf p1 p2 hne hu h0 he

/-- The one-hole puzzle `B1` has exactly the completion `S0`: off the hole
every completion copies `B1 = S0`, and at the hole the row forces digit 1. -/
theorem B1_completions : completions B1 = {S0} := by
  have hBS : ∀ r c : Fin 9, ¬(r.val = 0 ∧ c.val = 0) → B1 r c = S0 r c :=
    fun r c h => if_neg h
  have hS0 : ∀ r c : Fin 9, S0 r c ≠ 0 := by decide
  have hBk : ∀ k : Fin 9, k.val ≠ 0 → B1 0 k = k.val + 1 := by decide
  ext s
  rw [mem_completions, Finset.mem_singleton]
  constructor
  · rintro ⟨hval, hext⟩
    funext r c
    by_cases h : r.val = 0 ∧ c.val = 0
    · have hrF : r = 0 := Fin.ext h.1
      have hcF : c = 0 := Fin.ext h.2
      subst hrF
      subst hcF
      have h00 : s 0 0 ≠ 0 := hval.1 0 0
      have h9v : s 0 0 ≤ 9 := hval.2.1 0 0
      have hrow : ∀ k : Fin 9, k.val ≠ 0 → s 0 k = k.val + 1 := by
        intro k hk
        have hBne : B1 0 k ≠ 0 := by
          rw [hBk k hk]
          omega
        rw [hext 0 k hBne, hBk k hk]
      have hne : ∀ k : Fin 9, k.val ≠ 0 → s 0 0 ≠ s 0 k := by
        intro k hk
        apply hval.2.2 ((0 : Fin 9), (0 : Fin 9)) ((0 : Fin 9), k)
        · intro hcon
          have := congrArg (fun p : Fin 9 × Fin 9 => p.2.val) hcon
          simp only [] at this
          exact hk (by omega)
        · left
          rfl
        · exact h00
      have n2 : s 0 0 ≠ 2 := by
        have hv := hne 1 (by decide)
        rw [hrow 1 (by decide)] at hv
        exact hv
      have n3 : s 0 0 ≠ 3 := by
        have hv := hne 2 (by decide)
        rw [hrow 2 (by decide)] at hv
        exact hv
      have n4 : s 0 0 ≠ 4 := by
        have hv := hne 3 (by decide)
        rw [hrow 3 (by decide)] at hv
        exact hv
      have n5 : s 0 0 ≠ 5 := by
        have hv := hne 4 (by decide)
        rw [hrow 4 (by decide)] at hv
        exact hv
      have n6 : s 0 0 ≠ 6 := by
        have hv := hne 5 (by decide)
        rw [hrow 5 (by decide)] at hv
        exact hv
      have n7 : s 0 0 ≠ 7 := by
        have hv := hne 6 (by decide)
        rw [hrow 6 (by decide)] at hv
        exact hv
      have n8 : s 0 0 ≠ 8 := by
        have hv := hne 7 (by decide)
        rw [hrow 7 (by decide)] at hv
        exact hv
      have n9 : s 0 0 ≠ 9 := by
        have hv := hne 8 (by decide)
        rw [hrow 8 (by decide)] at hv
        exact hv
      have hS00 : S0 (0 : Fin 9) (0 : Fin 9) = 1 := rfl
      rw [hS00]
      omega
    · rw [← hBS r c h]
      apply hext
      rw [hBS r c h]
      exact hS0 r c
  · rintro rfl
    exact ⟨by decide, by decide⟩

theorem B1_numSolutions : numSolutions B1 = 1 := by
  have h : numSolutions B1 = ({S0} : Finset Board).card := by
    rw [numSolutions, B1_completions]
  rw [h, Finset.card_singleton]

theorem B1_load_isSome : (loadBoard B1).isSome = true :=
  (loadBoard_isSome_iff B1).mpr (by decide)

/-- The solver state `loadBoard` builds for the one-hole puzzle `B1`. -/
def sv1 : Solver := (loadBoard B1).get B1_load_isSome

theorem sv1_load : loadBoard B1 = some sv1 :=
  (Option.some_get B1_load_isSome).symm

theorem B3_numSolutions : numSolutions B3 = 0 :=
  numSolutions_eq_zero_of_dead B3 ((0 : Fin 9), (0 : Fin 9)) rfl (by decide)

theorem B3_load_isSome : (loadBoard B3).isSome = true :=
  (loadBoard_isSome_iff B3).mpr (by decide)

/-- The solver state `loadBoard` builds for the unsolvable board `B3`. -/
def sv3 : Solver := (loadBoard B3).get B3_load_isSome

theorem sv3_load : loadBoard B3 = some sv3 :=
  (Option.some_get B3_load_isSome).symm

theorem B2_load_isSome : (loadBoard B2).isSome = true :=
  (loadBoard_isSome_iff B2).mpr (by decide)

/-- The solver state `loadBoard` builds for the two-solution puzzle `B2`. -/
def sv2 : Solver := (loadBoard B2).get B2_load_isSome

theorem sv2_load : loadBoard B2 = some sv2 :=
  (Option.some_get B2_load_isSome).symm

/-! ### The solver claims -/

/-- C1: for every Board that loads successfully and has exactly one
solution, `solve` with `countLimit = 2` returns `true`, sets the output
count to `1`, and leaves the solver's board equal to that unique
solution. -/
theorem C1_unique_solution (b s : Board) (sv : Solver) (hInR : InRange b)
    (hload : loadBoard b = some sv) (hs : IsCompletion b s)
    (huniq : numSolutions b = 1) :
    (sv.solve 2).2.1 = true ∧ (sv.solve 2).2.2 = 1 ∧
      (sv.solve 2).1.board = s := by
  obtain ⟨hcount, hflag, _, _, _, _, hboard⟩ := solve_spec b sv hInR hload 2
  have hcf : ConflictFree b := (loadBoard_spec b sv hload).2.2.2
  obtain ⟨u, hu, hcu⟩ := specSolve_found b hcf hInR (by omega)
  refine ⟨?_, ?_, ?_⟩
  · apply hflag.mpr
    rw [huniq]
    exact one_le_min_of _ _ (by omega) (by omega)
  · rw [hcount, huniq, min_with_two_of_one 1 rfl]
  · rw [hboard, if_pos (by omega : 0 < 2), hu]
    exact completion_unique b s u huniq hs hcu

/-- C1 witness: the one-hole puzzle `B1` loads as `sv1`, and solving it
with limit 2 restores its unique solution `S0` with count 1. -/
theorem C1_unique_solution_witness :
    (sv1.solve 2).2.1 = true ∧ (sv1.solve 2).2.2 = 1 ∧
      (sv1.solve 2).1.board = S0 :=
  C1_unique_solution B1 S0 sv1 (by decide) sv1_load (by decide) B1_numSolutions

/-- C3: for every Board that loads successfully and has two or more
solutions, `solve` with `countLimit = 2` returns count `2` and leaves the
solver's board equal to the first solution reached in MRV-then-ascending-
digit order (the reference search `specSolve`); the run is deterministic:
any solver loaded from the same board produces the same result. -/
theorem C3_two_solutions (b : Board) (sv : Solver) (s1 s2 : Board)
    (hInR : InRange b) (hload : loadBoard b = some sv)
    (h1 : IsCompletion b s1) (h2 : IsCompletion b s2) (hne : s1 ≠ s2) :
    (sv.solve 2).2.2 = 2 ∧
    (∃ u, specSolve 82 b = some u ∧ IsCompletion b u ∧
      (sv.solve 2).1.board = u) ∧
    (∀ sv2, loadBoard b = some sv2 → sv2.solve 2 = sv.solve 2) := by
  obtain ⟨hcount, _, _, _, _, _, hboard⟩ := solve_spec b sv hInR hload 2
  have hcf : ConflictFree b := (loadBoard_spec b sv hload).2.2.2
  have hge : 2 ≤ numSolutions b := numSolutions_two_le b s1 s2 h1 h2 hne
  obtain ⟨u, hu, hcu⟩ := specSolve_found b hcf hInR (by omega)
  refine ⟨?_, ⟨u, hu, hcu, ?_⟩, ?_⟩
  · rw [hcount, min_with_two_of_ge _ hge]
  · rw [hboard, if_pos (by omega : 0 < 2), hu]
  · intro sv2 hload2
    have : sv2 = sv := by
      rw [hload] at hload2
      exact Option.some.inj hload2.symm
    rw [this]

/-- C3 witness: the rectangle puzzle `B2` has the two distinct solutions
`F1` and `F2`; solving it reports count 2 and stores the reference search's
first solution. -/
theorem C3_two_solutions_witness :
    (sv2.solve 2).2.2 = 2 ∧
    (∃ u, specSolve 82 B2 = some u ∧ IsCompletion B2 u ∧
      (sv2.solve 2).1.board = u) ∧
    (∀ sv', loadBoard B2 = some sv' → sv'.solve 2 = sv2.solve 2) :=
  C3_two_solutions B2 sv2 F1 F2 (by decide) sv2_load (by decide) (by decide)
    (fun h => absurd (congrFun (congrFun h 0) 0) (by decide))

/-- C5: `loadBoard` fails exactly when two distinct cells in a common unit
hold the same nonzero value; concretely, a board with two `5`s in row 0
fails, and the duplicate-free board `S0` loads successfully. -/
theorem C5_load_conflict_iff :
    (∀ b : Board, loadBoard b = none ↔
      ∃ p1 p2 : Fin 9 × Fin 9, p1 ≠ p2 ∧ SameUnit p1 p2 ∧
        b p1.1 p1.2 ≠ 0 ∧ b p1.1 p1.2 = b p2.1 p2.2) ∧
    loadBoard Bdup5 = none ∧ (loadBoard S0).isSome = true := by
  have hiff : ∀ b : Board, loadBoard b = none ↔ ¬ ConflictFree b := by
    intro b
    have h1 := loadBoard_isSome_iff b
    cases h : loadBoard b with
    | none =>
      rw [h] at h1
      constructor
      · intro _ hcf
        exact absurd (h1.mpr hcf) Bool.false_ne_true
      · intro _
        rfl
    | some sv =>
      rw [h] at h1
      constructor
      · intro hcon
        cases hcon
      · intro hncf
        exact absurd (h1.mp rfl) hncf
  refine ⟨?_, ?_, ?_⟩
  · intro b
    rw [hiff b, ConflictFree]
    push_neg
    rfl
  · exact (hiff Bdup5).mpr (not_conflictFree_pair _
      ((0 : Fin 9), (0 : Fin 9)) ((0 : Fin 9), (1 : Fin 9))
      (by decide) (by decide) (by decide) (by decide))
  · exact (loadBoard_isSome_iff S0).mpr (by decide)

/-- C8: for every Board that loads successfully but has no solution,
`solve` returns `false` for every `countLimit`, counts `0`, and leaves the
solver's board equal to the board as loaded. -/
theorem C8_no_solution (b : Board) (sv : Solver) (hInR : InRange b)
    (hload : loadBoard b = some sv) (hzero : numSolutions b = 0)
    (limit : Nat) :
    (sv.solve limit).2.1 = false ∧ (sv.solve limit).2.2 = 0 ∧
      (sv.solve limit).1.board = b := by
  obtain ⟨hcount, hflag, _, _, _, _, hboard⟩ := solve_spec b sv hInR hload limit
  have hcf : ConflictFree b := (loadBoard_spec b sv hload).2.2.2
  have hzc : zeroCount b < 82 := lt_of_le_of_lt (zeroCount_le b) (by omega)
  have hnone : specSolve 82 b = none :=
    (specSolve_spec 82 b hcf hInR hzc).2.mpr hzero
  rw [hzero] at hcount hflag
  refine ⟨?_, ?_, ?_⟩
  · cases hfv : (sv.solve limit).2.1 with
    | false => rfl
    | true => exact absurd (hflag.mp hfv) (not_one_le_min_zero limit)
  · rw [hcount]
    omega
  · rw [hboard, hnone]
    by_cases hl : 0 < limit
    · rw [if_pos hl]
    · rw [if_neg hl]

/-- C8 witness: the conflict-free but unsolvable board `B3` loads as `sv3`,
and solving with limit 2 returns `false`, count 0, and the board as
loaded. -/
theorem C8_no_solution_witness :
    (sv3.solve 2).2.1 = false ∧ (sv3.solve 2).2.2 = 0 ∧
      (sv3.solve 2).1.board = B3 :=
  C8_no_solution B3 sv3 (by decide) sv3_load B3_numSolutions 2

/-- C9: after `solve` returns, the three mask arrays and the empties list
are exactly what `loadBoard` built (so they still describe the loaded
board), and only the board member may differ — and then only by holding the
reference search's first solution. -/
theorem C9_frame (b : Board) (sv : Solver) (hInR : InRange b)
    (hload : loadBoard b = some sv) (limit : Nat) :
    (sv.solve limit).1.rowMask = sv.rowMask ∧
    (sv.solve limit).1.colMask = sv.colMask ∧
    (sv.solve limit).1.blockMask = sv.blockMask ∧
    (sv.solve limit).1.empties = sv.empties ∧
    MasksInv b (sv.solve limit).1.rowMask (sv.solve limit).1.colMask
      (sv.solve limit).1.blockMask ∧
    ((sv.solve limit).1.board = b ∨
      ∃ u, specSolve 82 b = some u ∧ IsCompletion b u ∧
        (sv.solve limit).1.board = u) := by
  obtain ⟨_, _, hrow, hcol, hblock, hemp, hboard⟩ :=
    solve_spec b sv hInR hload limit
  have hmasks : MasksInv b sv.rowMask sv.colMask sv.blockMask :=
    (loadBoard_spec b sv hload).2.2.1
  have hcf : ConflictFree b := (loadBoard_spec b sv hload).2.2.2
  have hzc : zeroCount b < 82 := lt_of_le_of_lt (zeroCount_le b) (by omega)
  refine ⟨hrow, hcol, hblock, hemp, ?_, ?_⟩
  · rw [hrow, hcol, hblock]
    exact hmasks
  · by_cases hl : 0 < limit
    · rw [if_pos hl] at hboard
      cases hu : specSolve 82 b with
      | none =>
        left
        rw [hboard, hu]
      | some u =>
        right
        exact ⟨u, rfl,
          (specSolve_spec 82 b hcf hInR hzc).1 u hu, by rw [hboard, hu]⟩
    · left
      rw [if_neg hl] at hboard
      exact hboard

/-- C9 witness: solving the loaded one-hole puzzle `B1` with limit 2
preserves masks and empties exactly, and only the board member changes. -/
theorem C9_frame_witness :
    (sv1.solve 2).1.rowMask = sv1.rowMask ∧
    (sv1.solve 2).1.colMask = sv1.colMask ∧
    (sv1.solve 2).1.blockMask = sv1.blockMask ∧
    (sv1.solve 2).1.empties = sv1.empties ∧
    MasksInv B1 (sv1.solve 2).1.rowMask (sv1.solve 2).1.colMask
      (sv1.solve 2).1.blockMask ∧
    ((sv1.solve 2).1.board = B1 ∨
      ∃ u, specSolve 82 B1 = some u ∧ IsCompletion B1 u ∧
        (sv1.solve 2).1.board = u) :=
  C9_frame B1 sv1 (by decide) sv1_load 2

/-- C6 counterexample: the claim's final clause ("including after solve
returns") fails.  After solving the loaded one-hole puzzle `B1`, the board
member holds the solution (digit 1 at cell (0,0)), but bit 0 of
`rowMask[0]` is still clear: the masks describe the loaded board, not the
returned one. -/
theorem C6_after_solve_counterexample :
    (sv1.solve 1).1.board 0 0 = 1 ∧
    ((sv1.solve 1).1.rowMask 0).testBit 0 = false := by
  obtain ⟨_, _, hrow, _, _, _, hboard⟩ := solve_spec B1 sv1 (by decide) sv1_load 1
  have hcf : ConflictFree B1 := (loadBoard_spec B1 sv1 sv1_load).2.2.2
  obtain ⟨u, hu, hcu⟩ :=
    specSolve_found B1 hcf (by decide) (by rw [B1_numSolutions]; omega)
  have hus : u = S0 := completion_unique B1 S0 u B1_numSolutions (by decide) hcu
  have hmasks : MasksInv B1 sv1.rowMask sv1.colMask sv1.blockMask :=
    (loadBoard_spec B1 sv1 sv1_load).2.2.1
  constructor
  · rw [hboard, if_pos (by omega : 0 < 1), hu, hus]
    decide
  · have h0 : sv1.rowMask 0 = rowMaskOf B1 (0 : Fin 9) := hmasks.row 0
    rw [hrow, h0]
    decide

/-- C6 (amended): the mask invariant holds after `loadBoard`, is preserved
by every `place`, every matching `undo` restores the state exactly (hence
the invariant), and after `solve` returns the three masks describe the
originally loaded board — not the board member, which may now hold a
solution. -/
theorem C6_masks_amended (b : Board) (sv : Solver) (hInR : InRange b)
    (hload : loadBoard b = some sv) :
    MasksInv b sv.rowMask sv.colMask sv.blockMask ∧
    (∀ (st : DfsSt) (q : Fin 9 × Fin 9) (d : Nat),
      MasksInv st.board st.rowMask st.colMask st.blockMask →
      st.board q.1 q.2 = 0 → 1 ≤ d →
      MasksInv (place st q.1 q.2 d).board (place st q.1 q.2 d).rowMask
        (place st q.1 q.2 d).colMask (place st q.1 q.2 d).blockMask) ∧
    (∀ (st : DfsSt) (q : Fin 9 × Fin 9) (d : Nat),
      MasksInv st.board st.rowMask st.colMask st.blockMask →
      InRange st.board → st.board q.1 q.2 = 0 → 1 ≤ d → d ≤ 9 →
      (usedMask st.board q.1 q.2).testBit (d - 1) = false →
      undo (place st q.1 q.2 d) q.1 q.2 d = st) ∧
    (∀ limit, MasksInv b (sv.solve limit).1.rowMask
      (sv.solve limit).1.colMask (sv.solve limit).1.blockMask) := by
  have hmasks : MasksInv b sv.rowMask sv.colMask sv.blockMask :=
    (loadBoard_spec b sv hload).2.2.1
  refine ⟨hmasks, ?_, ?_, ?_⟩
  · intro st q d hInv hq hd
    exact masksInv_place st.board st.rowMask st.colMask st.blockMask hInv
      q.1 q.2 d hq hd
  · intro st q d hInv hrng hq hd1 hd9 hused
    obtain ⟨husedr, husedc, husedb⟩ := usedMask_parts_false _ _ _ _ hused
    obtain ⟨bb, rm, cm, bm, oc, sa⟩ := st
    simp only [] at hInv hrng hq husedr husedc husedb
    simp only [place, undo, DfsSt.mk.injEq]
    refine ⟨?_, ?_, ?_, ?_, trivial, trivial⟩
    · exact setCell_cancel bb q.1 q.2 d hq
    · funext i
      by_cases hi : i = q.1.val
      · simp only [hi, if_pos]
        apply lor_land_not
        · omega
        · rw [hInv.row q.1]
          have := rowMaskOf_lt bb hrng q.1
          have h32 : (2 : Nat) ^ 9 < 2 ^ 32 := by norm_num
          omega
        · rw [hInv.row q.1]
          exact husedr
      · rw [if_neg hi, if_neg hi]
    · funext i
      by_cases hi : i = q.2.val
      · simp only [hi, if_pos]
        apply lor_land_not
        · omega
        · rw [hInv.col q.2]
          have := colMaskOf_lt bb hrng q.2
          have h32 : (2 : Nat) ^ 9 < 2 ^ 32 := by norm_num
          omega
        · rw [hInv.col q.2]
          exact husedc
      · rw [if_neg hi, if_neg hi]
    · funext i
      by_cases hi : i = blockIndex q.1.val q.2.val
      · simp only [hi, if_pos]
        apply lor_land_not
        · omega
        · rw [hInv.block _ (blockIndex_lt _ _ q.1.isLt q.2.isLt)]
          have := blockMaskOf_lt bb hrng (blockIndex q.1.val q.2.val)
          have h32 : (2 : Nat) ^ 9 < 2 ^ 32 := by norm_num
          omega
        · rw [hInv.block _ (blockIndex_lt _ _ q.1.isLt q.2.isLt)]
          exact husedb
      · rw [if_neg hi, if_neg hi]
  · intro limit
    obtain ⟨_, _, hrow, hcol, hblock, _, _⟩ := solve_spec b sv hInR hload limit
    rw [hrow, hcol, hblock]
    exact hmasks

/-- C6 witness: the amended mask invariant instantiated on the loaded
one-hole puzzle `B1`. -/
theorem C6_masks_amended_witness :
    MasksInv B1 sv1.rowMask sv1.colMask sv1.blockMask ∧
    (∀ (st : DfsSt) (q : Fin 9 × Fin 9) (d : Nat),
      MasksInv st.board st.rowMask st.colMask st.blockMask →
      st.board q.1 q.2 = 0 → 1 ≤ d →
      MasksInv (place st q.1 q.2 d).board (place st q.1 q.2 d).rowMask
        (place st q.1 q.2 d).colMask (place st q.1 q.2 d).blockMask) ∧
    (∀ (st : DfsSt) (q : Fin 9 × Fin 9) (d : Nat),
      MasksInv st.board st.rowMask st.colMask st.blockMask →
      InRange st.board → st.board q.1 q.2 = 0 → 1 ≤ d → d ≤ 9 →
      (usedMask st.board q.1 q.2).testBit (d - 1) = false →
      undo (place st q.1 q.2 d) q.1 q.2 d = st) ∧
    (∀ limit, MasksInv B1 (sv1.solve limit).1.rowMask
      (sv1.solve limit).1.colMask (sv1.solve limit).1.blockMask) :=
  C6_masks_amended B1 sv1 (by decide) sv1_load

/-! ### The randomized generator: rng model, shuffle, and the gen search -/

/-- Model of `std::mt19937`: an abstract stream of naturals and a position.
The claims quantify over every rng state, so only the stream's values
matter, not the mersenne-twister update rule. -/
structure Rng where
  seq : Nat → Nat
  pos : Nat

/-- Modelled from the spec: selection shuffle driven by the rng stream.
`std::shuffle`'s exact permutation is implementation-defined, so the model
fixes only what every implementation guarantees: the output is a
permutation of the input chosen from the rng values (`shuffleGo_perm`). -/
def shuffleGo {α : Type} [DecidableEq α] (seq : Nat → Nat) :
    Nat → List α → List α
  | _, [] => []
  | pos, x :: xs =>
    (x :: xs).get ⟨seq pos % (x :: xs).length, Nat.mod_lt _ (Nat.succ_pos _)⟩
      :: shuffleGo seq (pos + 1)
        ((x :: xs).erase
          ((x :: xs).get
            ⟨seq pos % (x :: xs).length, Nat.mod_lt _ (Nat.succ_pos _)⟩))
termination_by pos l => l.length
decreasing_by
  rw [List.length_erase_of_mem (List.get_mem _ _ _)]
  simp only [List.length_cons]
  omega

/-- `std::shuffle(v.begin(), v.end(), rng)`: permute the list and advance
the rng. -/
def shuffle {α : Type} [DecidableEq α] (rng : Rng) (l : List α) :
    List α × Rng :=
  (shuffleGo rng.seq rng.pos l, ⟨rng.seq, rng.pos + l.length⟩)

theorem shuffleGo_perm {α : Type} [DecidableEq α] (seq : Nat → Nat) :
    ∀ (n : Nat) (l : List α), l.length ≤ n → ∀ pos,
      (shuffleGo seq pos l).Perm l := by
  intro n
  induction n with
  | zero =>
    intro l hl pos
    have : l = [] := List.eq_nil_of_length_eq_zero (Nat.le_zero.mp hl)
    subst this
    rw [shuffleGo]
  | succ n ih =>
    intro l hl pos
    cases l with
    | nil => rw [shuffleGo]
    | cons x xs =>
      rw [shuffleGo]
      obtain ⟨y, hy⟩ : ∃ y, (x :: xs).get
          ⟨seq pos % (x :: xs).length, Nat.mod_lt _ (Nat.succ_pos _)⟩ = y :=
        ⟨_, rfl⟩
      rw [hy]
      have hmem : y ∈ x :: xs := hy ▸ List.get_mem _ _ _
      have hlen : ((x :: xs).erase y).length ≤ n := by
        rw [List.length_erase_of_mem hmem]
        simp only [List.length_cons] at hl ⊢
        omega
      have hperm1 := ih ((x :: xs).erase y) hlen (pos + 1)
      have hperm2 : (x :: xs).Perm (y :: (x :: xs).erase y) :=
        List.perm_cons_erase hmem
      exact (hperm1.cons y).trans hperm2.symm

theorem shuffle_perm {α : Type} [DecidableEq α] (rng : Rng) (l : List α) :
    ((shuffle rng l).1).Perm l :=
  shuffleGo_perm rng.seq l.length l le_rfl rng.pos

/-- The MRV scan of `generateFullSolution`'s dfs: identical to the solver's
scan except that the dead-end test reads `cnt == 0` (candidate popcount)
instead of `mask == 0`. -/
def genScan (cand : Fin 9 × Fin 9 → Nat) (bd : Board) :
    List (Fin 9 × Fin 9) → Option (Fin 9 × Fin 9 × Nat) → Nat →
      Option (Option (Fin 9 × Fin 9 × Nat))
  | [], best, _ => some best
  | p :: rest, best, bestCnt =>
    if bd p.1 p.2 ≠ 0 then genScan cand bd rest best bestCnt
    else if popcount (cand p) = 0 then none
    else if popcount (cand p) < bestCnt then
      if popcount (cand p) = 1 then some (some (p.1, p.2, cand p))
      else genScan cand bd rest (some (p.1, p.2, cand p)) (popcount (cand p))
    else genScan cand bd rest best bestCnt

theorem genScan_eq_scanCells (cand : Fin 9 × Fin 9 → Nat) (bd : Board) :
    ∀ (l : List (Fin 9 × Fin 9)) (best : Option (Fin 9 × Fin 9 × Nat))
      (bc : Nat), genScan cand bd l best bc = scanCells cand bd l best bc := by
  intro l
  induction l with
  | nil => intro best bc; rw [genScan, scanCells]
  | cons p rest ih =>
    intro best bc
    rw [genScan, scanCells]
    by_cases hp : bd p.1 p.2 ≠ 0
    · rw [if_pos hp, if_pos hp, ih]
    · rw [if_neg hp, if_neg hp]
      have hpz : popcount (cand p) = 0 ↔ cand p = 0 := popcount_eq_zero _
      by_cases hm : cand p = 0
      · rw [if_pos (hpz.mpr hm), if_pos hm]
      · rw [if_neg (fun h => hm (hpz.mp h)), if_neg hm]
        by_cases hc : popcount (cand p) < bc
        · rw [if_pos hc, if_pos hc]
          by_cases h1 : popcount (cand p) = 1
          · rw [if_pos h1, if_pos h1]
          · rw [if_neg h1, if_neg h1, ih]
        · rw [if_neg hc, if_neg hc, ih]

/-- The all-zero starting board of the generator (`Board b{}`). -/
def emptyBoard : Board := fun _ _ => 0

/-- The mutable state of `generateFullSolution`'s dfs lambda: board, the
three mask arrays, and the rng it consumes through `shuffle`. -/
structure GenSt where
  board : Board
  rowMask : Nat → Nat
  colMask : Nat → Nat
  blockMask : Nat → Nat
  rng : Rng

/-- The generator's placement: set the cell and the three mask bits. -/
def genPlace (st : GenSt) (r c : Fin 9) (d : Nat) : GenSt :=
  { st with
    board := setCell st.board r c d
    rowMask := fun i =>
      if i = r.val then st.rowMask i ||| 1 <<< (d - 1) else st.rowMask i
    colMask := fun i =>
      if i = c.val then st.colMask i ||| 1 <<< (d - 1) else st.colMask i
    blockMask := fun i =>
      if i = blockIndex r.val c.val then st.blockMask i ||| 1 <<< (d - 1)
      else st.blockMask i }

/-- The generator's undo: clear the cell and the three mask bits
(`mask &= ~bit`, with the 32-bit complement). -/
def genUndo (st : GenSt) (r c : Fin 9) (d : Nat) : GenSt :=
  { st with
    board := setCell st.board r c 0
    rowMask := fun i =>
      if i = r.val then st.rowMask i &&& (1 <<< (d - 1) ^^^ (2 ^ 32 - 1))
      else st.rowMask i
    colMask := fun i =>
      if i = c.val then st.colMask i &&& (1 <<< (d - 1) ^^^ (2 ^ 32 - 1))
      else st.colMask i
    blockMask := fun i =>
      if i = blockIndex r.val c.val then
        st.blockMask i &&& (1 <<< (d - 1) ^^^ (2 ^ 32 - 1))
      else st.blockMask i }

mutual

/-- The recursive dfs lambda of `generateFullSolution`: MRV scan over all
81 cells, then try the chosen cell's candidate digits in shuffled order;
on success the placements are kept (no undo).  `fuel` bounds the recursion
depth and is proved sufficient in `genDfs_spec`. -/
def genDfsF : Nat → GenSt → Bool × GenSt
  | 0, st => (false, st)
  | fuel + 1, st =>
    match genScan
        (fun p => candidatesMask st.rowMask st.colMask st.blockMask p.1 p.2)
        st.board allCells none 10 with
    | none => (false, st)
    | some none => (true, st)
    | some (some (r, c, mask)) =>
      genLoopF fuel r c (shuffle st.rng (digitsOfMask mask)).1
        { st with rng := (shuffle st.rng (digitsOfMask mask)).2 }
termination_by fuel _ => (fuel, 0)
decreasing_by
  simp_wf
  exact Prod.Lex.left _ _ (Nat.lt_succ_self fuel)

/-- The `for (d : digits)` loop of the generator's dfs: place, recurse,
return on success keeping the placement, undo on failure. -/
def genLoopF : Nat → Fin 9 → Fin 9 → List Nat → GenSt → Bool × GenSt
  | _, _, _, [], st => (false, st)
  | fuel, r, c, d :: rest, st =>
    let res := genDfsF fuel (genPlace st r c d)
    if res.1 then (true, res.2)
    else genLoopF fuel r c rest (genUndo res.2 r c d)
termination_by fuel _ _ digs _ => (fuel, digs.length + 1)
decreasing_by
  · exact Prod.Lex.right _ (Nat.succ_pos _)
  · exact Prod.Lex.right _ (by simp only [List.length_cons]; omega)

end

/-- The generator's initial state: empty board, zero masks. -/
def genInit (rng : Rng) : GenSt :=
  ⟨emptyBoard, fun _ => 0, fun _ => 0, fun _ => 0, rng⟩

/-- `generateFullSolution`: run the randomized dfs from the empty board
(`fuel = 82` exceeds the 81 empty cells); on failure retry with the
advanced rng.  The outer fuel models the recursive retry; `fuel ≥ 1` is
proved sufficient. -/
def generateFullSolutionF : Nat → Rng → Option (Board × Rng)
  | 0, _ => none
  | fuel + 1, rng =>
    if (genDfsF 82 (genInit rng)).1 = true then
      some ((genDfsF 82 (genInit rng)).2.board, (genDfsF 82 (genInit rng)).2.rng)
    else generateFullSolutionF fuel (genDfsF 82 (genInit rng)).2.rng

/-! ### The puzzle digger -/

/-- The digger's clue count: the number of nonzero cells. -/
def countFilled (b : Board) : Nat :=
  (allCells.filter fun p => b p.1 p.2 ≠ 0).length

/-- The digging loop of `generatePuzzle`: for each position, stop once at
most `target` clues remain; skip empty cells; otherwise tentatively clear
the clue, reload, and keep the hole only when the load succeeds and the
solution count (limit 2) is exactly 1 — else write the old value back. -/
def digLoop (target : Nat) : List (Fin 9 × Fin 9) → Board → Board
  | [], puzzle => puzzle
  | pos :: rest, puzzle =>
    if countFilled puzzle ≤ target then puzzle
    else if puzzle pos.1 pos.2 = 0 then digLoop target rest puzzle
    else
      match loadBoard (setCell puzzle pos.1 pos.2 0) with
      | none => digLoop target rest
          (setCell (setCell puzzle pos.1 pos.2 0) pos.1 pos.2
            (puzzle pos.1 pos.2))
      | some solver =>
        if solver.countSolutions 2 ≠ 1 then
          digLoop target rest
            (setCell (setCell puzzle pos.1 pos.2 0) pos.1 pos.2
              (puzzle pos.1 pos.2))
        else digLoop target rest (setCell puzzle pos.1 pos.2 0)

/-- `generatePuzzle`: generate a full solution, shuffle the 81 positions
with the advanced rng, and dig. -/
def generatePuzzleF (fuel : Nat) (rng : Rng) (targetClues : Nat) :
    Option Board :=
  (generateFullSolutionF fuel rng).map fun sr =>
    digLoop targetClues (shuffle sr.2 allCells).1 sr.1

/-! ### Support lemmas for the generator proofs -/

theorem setCell_restore (b : Board) (r c : Fin 9) :
    setCell (setCell b r c 0) r c (b r c) = b := by
  funext r2 c2
  by_cases h : r2 = r ∧ c2 = c
  · obtain ⟨rfl, rfl⟩ := h
    rw [setCell_same]
  · rw [setCell_other _ _ _ _ _ _ h, setCell_other _ _ _ _ _ _ h]

theorem extends_refl (b : Board) : Extends b b := fun _ _ _ => rfl

theorem extends_trans (a b c : Board) (h1 : Extends a b) (h2 : Extends b c) :
    Extends a c := by
  intro r cc h
  have hb := h1 r cc h
  have hc := h2 r cc (by rw [hb]; exact h)
  rw [hc, hb]

theorem extends_setCell (b : Board) (q : Fin 9 × Fin 9) (d : Nat)
    (hq : b q.1 q.2 = 0) : Extends b (setCell b q.1 q.2 d) := by
  intro r c h
  rw [setCell, if_neg]
  rintro ⟨rfl, rfl⟩
  exact h hq

theorem testBit_lt_of_lt_two_pow (m k n : Nat) (h : m.testBit k = true)
    (hm : m < 2 ^ n) : k < n := by
  have h2 := Nat.testBit_implies_ge h
  by_contra hcon
  have : (2 : Nat) ^ n ≤ 2 ^ k := Nat.pow_le_pow_right (by norm_num) (by omega)
  omega

theorem unitMaskOf_zero : ∀ cells, unitMaskOf emptyBoard cells = 0 := by
  intro cells
  induction cells with
  | nil => rw [unitMaskOf]; rfl
  | cons p rest ih =>
    rw [unitMaskOf, List.foldr_cons]
    rw [show (List.foldr _ 0 rest) = unitMaskOf emptyBoard rest from rfl, ih]
    rfl

theorem conflictFree_empty : ConflictFree emptyBoard :=
  fun _ _ _ _ h0 => absurd rfl h0

theorem inRange_empty : InRange emptyBoard := fun _ _ => by
  rw [emptyBoard]
  omega

theorem min_two_eq_one (n : Nat) (h : min n 2 = 1) : n = 1 := by omega

theorem conflictFree_of_numSolutions_ne_zero (b : Board)
    (h : numSolutions b ≠ 0) : ConflictFree b := by
  by_contra hcon
  exact h (numSolutions_eq_zero_of_conflict b hcon)

theorem inRange_of_sub (sol puzzle : Board) (hsol : InRange sol)
    (hsub : ∀ r c : Fin 9, puzzle r c ≠ 0 → puzzle r c = sol r c) :
    InRange puzzle := by
  intro r c
  by_cases h : puzzle r c = 0
  · rw [h]
    omega
  · rw [hsub r c h]
    exact hsol r c

/-! ### Correctness of the generator's search -/

/-- Invariant of the generator's dfs state. -/
structure GenInv (st : GenSt) : Prop where
  masks : MasksInv st.board st.rowMask st.colMask st.blockMask
  cf : ConflictFree st.board
  rng : InRange st.board

/-- Specification of one generator-dfs call: success yields a solved grid
extending the current board (placements kept); failure restores board and
masks and certifies that the current board has no solution. -/
structure GenOut (st : GenSt) (out : Bool × GenSt) : Prop where
  success : out.1 = true →
    IsValidFull out.2.board ∧ Extends st.board out.2.board
  failure : out.1 = false → out.2.board = st.board ∧
    out.2.rowMask = st.rowMask ∧ out.2.colMask = st.colMask ∧
    out.2.blockMask = st.blockMask ∧ numSolutions st.board = 0

/-- Specification of the generator's digit loop at cell `q` over `digs`. -/
structure GenLoopOut (q : Fin 9 × Fin 9) (digs : List Nat) (st : GenSt)
    (out : Bool × GenSt) : Prop where
  success : out.1 = true →
    IsValidFull out.2.board ∧ Extends st.board out.2.board
  failure : out.1 = false → out.2.board = st.board ∧
    out.2.rowMask = st.rowMask ∧ out.2.colMask = st.colMask ∧
    out.2.blockMask = st.blockMask ∧
    ∀ d ∈ digs, numSolutions (setCell st.board q.1 q.2 d) = 0

/-- Undoing on top of a state whose board and masks equal those of
`genPlace st q d` restores `st`'s board and masks (and keeps the rng). -/
theorem genUndo_restore (st res2 : GenSt) (q : Fin 9 × Fin 9) (d : Nat)
    (hmasks : MasksInv st.board st.rowMask st.colMask st.blockMask)
    (hrng : InRange st.board) (hq : st.board q.1 q.2 = 0)
    (hd1 : 1 ≤ d) (hd9 : d ≤ 9)
    (hused : (usedMask st.board q.1 q.2).testBit (d - 1) = false)
    (hb : res2.board = (genPlace st q.1 q.2 d).board)
    (hr : res2.rowMask = (genPlace st q.1 q.2 d).rowMask)
    (hc : res2.colMask = (genPlace st q.1 q.2 d).colMask)
    (hbm : res2.blockMask = (genPlace st q.1 q.2 d).blockMask) :
    (genUndo res2 q.1 q.2 d).board = st.board ∧
    (genUndo res2 q.1 q.2 d).rowMask = st.rowMask ∧
    (genUndo res2 q.1 q.2 d).colMask = st.colMask ∧
    (genUndo res2 q.1 q.2 d).blockMask = st.blockMask := by
  obtain ⟨husedr, husedc, husedb⟩ := usedMask_parts_false _ _ _ _ hused
  have h32 : (2 : Nat) ^ 9 < 2 ^ 32 := by norm_num
  refine ⟨?_, ?_, ?_, ?_⟩
  · show setCell res2.board q.1 q.2 0 = st.board
    rw [hb]
    show setCell (setCell st.board q.1 q.2 d) q.1 q.2 0 = st.board
    exact setCell_cancel st.board q.1 q.2 d hq
  · funext i
    show (if i = q.1.val then
        res2.rowMask i &&& (1 <<< (d - 1) ^^^ (2 ^ 32 - 1))
      else res2.rowMask i) = st.rowMask i
    rw [hr]
    show (if i = q.1.val then
        (if i = q.1.val then st.rowMask i ||| 1 <<< (d - 1) else st.rowMask i)
          &&& (1 <<< (d - 1) ^^^ (2 ^ 32 - 1))
      else (if i = q.1.val then st.rowMask i ||| 1 <<< (d - 1)
        else st.rowMask i)) = st.rowMask i
    by_cases hi : i = q.1.val
    · rw [if_pos hi, if_pos hi, hi]
      apply lor_land_not
      · omega
      · rw [hmasks.row q.1]
        have := rowMaskOf_lt st.board hrng q.1
        omega
      · rw [hmasks.row q.1]
        exact husedr
    · rw [if_neg hi, if_neg hi]
  · funext i
    show (if i = q.2.val then
        res2.colMask i &&& (1 <<< (d - 1) ^^^ (2 ^ 32 - 1))
      else res2.colMask i) = st.colMask i
    rw [hc]
    show (if i = q.2.val then
        (if i = q.2.val then st.colMask i ||| 1 <<< (d - 1) else st.colMask i)
          &&& (1 <<< (d - 1) ^^^ (2 ^ 32 - 1))
      else (if i = q.2.val then st.colMask i ||| 1 <<< (d - 1)
        else st.colMask i)) = st.colMask i
    by_cases hi : i = q.2.val
    · rw [if_pos hi, if_pos hi, hi]
      apply lor_land_not
      · omega
      · rw [hmasks.col q.2]
        have := colMaskOf_lt st.board hrng q.2
        omega
      · rw [hmasks.col q.2]
        exact husedc
    · rw [if_neg hi, if_neg hi]
  · funext i
    show (if i = blockIndex q.1.val q.2.val then
        res2.blockMask i &&& (1 <<< (d - 1) ^^^ (2 ^ 32 - 1))
      else res2.blockMask i) = st.blockMask i
    rw [hbm]
    show (if i = blockIndex q.1.val q.2.val then
        (if i = blockIndex q.1.val q.2.val then
          st.blockMask i ||| 1 <<< (d - 1) else st.blockMask i)
          &&& (1 <<< (d - 1) ^^^ (2 ^ 32 - 1))
      else (if i = blockIndex q.1.val q.2.val then
        st.blockMask i ||| 1 <<< (d - 1) else st.blockMask i))
      = st.blockMask i
    by_cases hi : i = blockIndex q.1.val q.2.val
    · rw [if_pos hi, if_pos hi, hi]
      apply lor_land_not
      · omega
      · rw [hmasks.block _ (blockIndex_lt _ _ q.1.isLt q.2.isLt)]
        have := blockMaskOf_lt st.board hrng (blockIndex q.1.val q.2.val)
        omega
      · rw [hmasks.block _ (blockIndex_lt _ _ q.1.isLt q.2.isLt)]
        exact husedb
    · rw [if_neg hi, if_neg hi]

theorem genLoop_spec (fuel : Nat)
    (IH : ∀ st : GenSt, GenInv st → zeroCount st.board < fuel →
      GenOut st (genDfsF fuel st)) :
    ∀ (digs : List Nat) (st : GenSt) (q : Fin 9 × Fin 9), GenInv st →
      st.board q.1 q.2 = 0 →
      (∀ d ∈ digs, 1 ≤ d ∧
        (specCandidates st.board q.1 q.2).testBit (d - 1) = true) →
      zeroCount st.board ≤ fuel →
      GenLoopOut q digs st (genLoopF fuel q.1 q.2 digs st) := by
  intro digs
  induction digs with
  | nil =>
    intro st q hInv hq hdigs hfuel
    rw [genLoopF.eq_1]
    refine ⟨?_, ?_⟩
    · intro h
      cases h
    · intro _
      exact ⟨rfl, rfl, rfl, rfl, fun d hd => by cases hd⟩
  | cons d rest ih =>
    intro st q hInv hq hdigs hfuel
    obtain ⟨hd1, hdbit⟩ := hdigs d (List.mem_cons_self _ _)
    have hd9 : d - 1 < 9 := testBit_lt_of_lt_two_pow _ _ _ hdbit
      (specCandidates_lt st.board q.1 q.2)
    have hused : (usedMask st.board q.1 q.2).testBit (d - 1) = false := by
      rw [testBit_specCandidates st.board q.1 q.2 (d - 1) hd9] at hdbit
      revert hdbit
      cases h : (usedMask st.board q.1 q.2).testBit (d - 1) <;> simp
    have hb1 : (genPlace st q.1 q.2 d).board
        = setCell st.board q.1 q.2 d := rfl
    have hInv1 : GenInv (genPlace st q.1 q.2 d) := by
      refine ⟨?_, ?_, ?_⟩
      · exact masksInv_place st.board st.rowMask st.colMask st.blockMask
          hInv.masks q.1 q.2 d hq hd1
      · rw [hb1]
        exact conflictFree_setCell st.board hInv.cf q.1 q.2 d hq
          (by omega) hused
      · rw [hb1]
        exact inRange_setCell st.board hInv.rng q.1 q.2 d (by omega)
    have hzc1 : 1 ≤ zeroCount st.board := zeroCount_pos st.board q hq
    have hzc2 : zeroCount (genPlace st q.1 q.2 d).board < fuel := by
      rw [hb1]
      have := zeroCount_setCell st.board q d hq (by omega)
      omega
    obtain ⟨res, hres⟩ : ∃ r, genDfsF fuel (genPlace st q.1 q.2 d) = r :=
      ⟨_, rfl⟩
    have hout : GenOut (genPlace st q.1 q.2 d) res := by
      rw [← hres]
      exact IH _ hInv1 hzc2
    have hunf : genLoopF fuel q.1 q.2 (d :: rest) st
        = if res.1 then (true, res.2)
          else genLoopF fuel q.1 q.2 rest (genUndo res.2 q.1 q.2 d) := by
      rw [genLoopF.eq_2, hres]
    cases hr1 : res.1 with
    | true =>
      rw [hunf, hr1, if_pos rfl]
      obtain ⟨hvalid, hext⟩ := hout.success hr1
      refine ⟨?_, ?_⟩
      · intro _
        refine ⟨hvalid, ?_⟩
        apply extends_trans st.board (genPlace st q.1 q.2 d).board
        · rw [hb1]
          exact extends_setCell st.board q d hq
        · exact hext
      · intro h
        cases h
    | false =>
      rw [hunf, hr1, if_neg Bool.false_ne_true]
      obtain ⟨hb2, hr2, hc2, hbm2, hn0⟩ := hout.failure hr1
      rw [hb1] at hn0
      obtain ⟨hub, hur, huc, hubm⟩ := genUndo_restore st res.2 q d
        hInv.masks hInv.rng hq hd1 (by omega) hused (by rw [hb2]) (by rw [hr2])
        (by rw [hc2]) (by rw [hbm2])
      have hInv2 : GenInv (genUndo res.2 q.1 q.2 d) := by
        refine ⟨?_, ?_, ?_⟩
        · rw [hub, hur, huc, hubm]
          exact hInv.masks
        · rw [hub]
          exact hInv.cf
        · rw [hub]
          exact hInv.rng
      have hrec := ih (genUndo res.2 q.1 q.2 d) q hInv2
        (by rw [hub]; exact hq)
        (by rw [hub]; exact fun d2 hd2 => hdigs d2 (List.mem_cons_of_mem _ hd2))
        (by rw [hub]; exact hfuel)
      refine ⟨?_, ?_⟩
      · intro h
        obtain ⟨hvalid, hext⟩ := hrec.success h
        refine ⟨hvalid, ?_⟩
        rw [hub] at hext
        exact hext
      · intro h
        obtain ⟨ha, hbb, hcc, hdd, hz⟩ := hrec.failure h
        refine ⟨by rw [ha, hub], by rw [hbb, hur], by rw [hcc, huc],
          by rw [hdd, hubm], ?_⟩
        intro d2 hd2
        rcases List.mem_cons.mp hd2 with rfl | hd2
        · exact hn0
        · have := hz d2 hd2
          rw [hub] at this
          exact this

/-- Full correctness of the generator's dfs, by induction on the fuel. -/
theorem genDfs_spec : ∀ (fuel : Nat) (st : GenSt), GenInv st →
    zeroCount st.board < fuel → GenOut st (genDfsF fuel st) := by
  intro fuel
  induction fuel with
  | zero =>
    intro st hInv hfuel
    exact absurd hfuel (Nat.not_lt_zero _)
  | succ fuel ih =>
    intro st hInv hfuel
    have hcandeq : (fun p : Fin 9 × Fin 9 =>
          candidatesMask st.rowMask st.colMask st.blockMask p.1 p.2)
        = fun p => specCandidates st.board p.1 p.2 := by
      funext p
      exact candidatesMask_eq_spec st.board _ _ _ hInv.masks p.1 p.2
    have hscaneq : genScan
          (fun p : Fin 9 × Fin 9 =>
            candidatesMask st.rowMask st.colMask st.blockMask p.1 p.2)
          st.board allCells none 10
        = scanCells (fun p => specCandidates st.board p.1 p.2) st.board
            allCells none 10 := by
      rw [hcandeq, genScan_eq_scanCells]
    have hcand : ∀ p : Fin 9 × Fin 9, specCandidates st.board p.1 p.2 < 2 ^ 9 :=
      fun p => specCandidates_lt _ _ _
    cases hscan : scanCells (fun p => specCandidates st.board p.1 p.2) st.board
        allCells none 10 with
    | none =>
      have hunf : genDfsF (fuel + 1) st = (false, st) := by
        rw [genDfsF.eq_2, hscaneq, hscan]
      obtain ⟨p, hp, hpz, hpc⟩ := scanCells_dead _ _ _ _ _ hscan
      have hn0 : numSolutions st.board = 0 :=
        numSolutions_eq_zero_of_dead st.board p hpz hpc
      rw [hunf]
      refine ⟨?_, ?_⟩
      · intro h
        cases h
      · intro _
        exact ⟨rfl, rfl, rfl, rfl, hn0⟩
    | some obest =>
      cases obest with
      | none =>
        have hunf : genDfsF (fuel + 1) st = (true, st) := by
          rw [genDfsF.eq_2, hscaneq, hscan]
        have hfill : IsFilled st.board := by
          intro r c hz
          exact scanCells_full _ _ hcand allCells hscan (r, c) (mem_allCells _) hz
        rw [hunf]
        refine ⟨?_, ?_⟩
        · intro _
          exact ⟨⟨hfill, hInv.rng, hInv.cf⟩, extends_refl st.board⟩
        · intro h
          cases h
      | some t =>
        obtain ⟨r, c, mask⟩ := t
        have hfound := scanCells_found _ _ allCells none 10 r c mask
          (fun r2 c2 mk2 h => by cases h) hscan
        have hunf : genDfsF (fuel + 1) st
            = genLoopF fuel r c (shuffle st.rng (digitsOfMask mask)).1
                { st with rng := (shuffle st.rng (digitsOfMask mask)).2 } := by
          rw [genDfsF.eq_2, hscaneq, hscan]
        obtain ⟨hq0, hmaskeq, hmne⟩ := hfound
        have hm9 : mask < 2 ^ 9 := by
          rw [hmaskeq]
          exact hcand (r, c)
        have hperm : ((shuffle st.rng (digitsOfMask mask)).1).Perm
            (digitsOfMask mask) := shuffle_perm _ _
        have hst2 : ({ st with
            rng := (shuffle st.rng (digitsOfMask mask)).2 } : GenSt).board
            = st.board := rfl
        have hInv2 : GenInv ({ st with
            rng := (shuffle st.rng (digitsOfMask mask)).2 } : GenSt) :=
          ⟨hInv.masks, hInv.cf, hInv.rng⟩
        have hdigs : ∀ d ∈ (shuffle st.rng (digitsOfMask mask)).1, 1 ≤ d ∧
            (specCandidates st.board r c).testBit (d - 1) = true := by
          intro d hd
          have hd2 : d ∈ digitsOfMask mask := hperm.mem_iff.mp hd
          obtain ⟨h1, h2⟩ := (mem_digitsOfMask mask d).mp hd2
          rw [hmaskeq] at h2
          exact ⟨h1, h2⟩
        have hloop := genLoop_spec fuel ih
          (shuffle st.rng (digitsOfMask mask)).1
          ({ st with rng := (shuffle st.rng (digitsOfMask mask)).2 } : GenSt)
          (r, c) hInv2 hq0 hdigs (Nat.lt_succ_iff.mp hfuel)
        rw [hunf]
        refine ⟨?_, ?_⟩
        · intro h
          exact hloop.success h
        · intro h
          obtain ⟨ha, hbb, hcc, hdd, hz⟩ := hloop.failure h
          refine ⟨ha, hbb, hcc, hdd, ?_⟩
          have hsum := numSolutions_eq_sum_filter st.board (r, c) hq0
          rw [hsum]
          apply Finset.sum_eq_zero
          intro k hk
          rw [Finset.mem_filter, Finset.mem_range] at hk
          obtain ⟨hk9, hkbit⟩ := hk
          have hkd : (k + 1) ∈ digitsOfMask mask := by
            rw [mem_digitsOfMask]
            refine ⟨by omega, ?_⟩
            rw [hmaskeq]
            simpa using hkbit
          have hkd2 : (k + 1) ∈ (shuffle st.rng (digitsOfMask mask)).1 :=
            hperm.mem_iff.mpr hkd
          exact hz (k + 1) hkd2

/-! ### Generator claims infrastructure -/

theorem emptyBoard_has_solution : IsCompletion emptyBoard S0 := by decide

theorem genInit_inv (rng : Rng) : GenInv (genInit rng) := by
  refine ⟨⟨?_, ?_, ?_⟩, conflictFree_empty, inRange_empty⟩
  · intro r
    exact (unitMaskOf_zero _).symm
  · intro c
    exact (unitMaskOf_zero _).symm
  · intro bi _
    exact (unitMaskOf_zero _).symm

/-- The generator's inner dfs always succeeds from the empty board: the
empty grid has at least one completion (`S0`), and the search is complete. -/
theorem genDfs_empty (rng : Rng) :
    (genDfsF 82 (genInit rng)).1 = true ∧
    IsValidFull (genDfsF 82 (genInit rng)).2.board := by
  obtain ⟨res, hres⟩ : ∃ r, genDfsF 82 (genInit rng) = r := ⟨_, rfl⟩
  have hzc : zeroCount (genInit rng).board < 82 := by
    show zeroCount emptyBoard < 82
    decide
  have hout : GenOut (genInit rng) res := by
    rw [← hres]
    exact genDfs_spec 82 (genInit rng) (genInit_inv rng) hzc
  have hsucc : res.1 = true := by
    cases hr1 : res.1 with
    | true => rfl
    | false =>
      obtain ⟨_, _, _, _, hn0⟩ := hout.failure hr1
      have hn1 : numSolutions emptyBoard = 0 := hn0
      have := numSolutions_one_le emptyBoard S0 emptyBoard_has_solution
      omega
  rw [hres]
  exact ⟨hsucc, (hout.success hsucc).1⟩

/-- On fuel `n + 1` the generator succeeds immediately with the inner dfs
result. -/
theorem generateFullSolution_step (n : Nat) (rng : Rng) :
    generateFullSolutionF (n + 1) rng
      = some ((genDfsF 82 (genInit rng)).2.board,
          (genDfsF 82 (genInit rng)).2.rng) := by
  rw [generateFullSolutionF, if_pos (genDfs_empty rng).1]

/-- What `generateFullSolution` returns: a valid full board (for any
positive fuel and any rng). -/
theorem generateFullSolution_spec (fuel : Nat) (rng : Rng) (hf : 1 ≤ fuel) :
    ∃ out : Board × Rng, generateFullSolutionF fuel rng = some out ∧
      IsValidFull out.1 := by
  cases fuel with
  | zero => omega
  | succ n =>
    obtain ⟨res, hres⟩ : ∃ r, genDfsF 82 (genInit rng) = r := ⟨_, rfl⟩
    have hstep : generateFullSolutionF (n + 1) rng
        = some (res.2.board, res.2.rng) := by
      rw [generateFullSolution_step n rng, hres]
    have hvalid : IsValidFull res.2.board := by
      have h2 := (genDfs_empty rng).2
      rw [hres] at h2
      exact h2
    exact ⟨(res.2.board, res.2.rng), hstep, hvalid⟩

/-! ### Each digit exactly once in every unit -/

/-- The `i`-th cell of block `bi`, row-major within the block. -/
def blockCell (bi i : Fin 9) : Fin 9 × Fin 9 :=
  (⟨bi.val / 3 * 3 + i.val / 3, by
      have h1 := bi.isLt
      have h2 := i.isLt
      omega⟩,
   ⟨bi.val % 3 * 3 + i.val % 3, by
      have h1 := bi.isLt
      have h2 := i.isLt
      omega⟩)

theorem blockCell_blockIndex : ∀ bi i : Fin 9,
    blockIndex (blockCell bi i).1.val (blockCell bi i).2.val = bi.val := by
  decide

theorem blockCell_inj : ∀ bi i j : Fin 9,
    blockCell bi i = blockCell bi j → i = j := by decide

theorem blockCell_cover : ∀ (p : Fin 9 × Fin 9) (bi : Fin 9),
    blockIndex p.1.val p.2.val = bi.val → ∃ i : Fin 9, blockCell bi i = p := by
  decide

/-- Every row, column, and 3×3 block contains each digit 1–9 exactly once. -/
def ExactlyOnce (b : Board) : Prop := ∀ d : Nat, 1 ≤ d → d ≤ 9 →
  (∀ r : Fin 9, ∃! c : Fin 9, b r c = d) ∧
  (∀ c : Fin 9, ∃! r : Fin 9, b r c = d) ∧
  (∀ bi : Fin 9, ∃! p : Fin 9 × Fin 9,
    blockIndex p.1.val p.2.val = bi.val ∧ b p.1 p.2 = d)

/-- A valid full board realizes each digit exactly once per unit: the nine
cells of a unit carry nine pairwise distinct values from 1..9. -/
theorem validFull_exactlyOnce (b : Board) (hb : IsValidFull b) :
    ExactlyOnce b := by
  obtain ⟨hfill, hrng, hcf⟩ := hb
  intro d hd1 hd9
  refine ⟨?_, ?_, ?_⟩
  · intro r
    have hinj : Function.Injective (fun c : Fin 9 =>
        (⟨b r c - 1, by
          have h1 := hrng r c
          have h2 := hfill r c
          omega⟩ : Fin 9)) := by
      intro c1 c2 heq
      by_contra hne
      have hpne : ((r, c1) : Fin 9 × Fin 9) ≠ (r, c2) := by
        intro hcon
        exact hne (congrArg Prod.snd hcon)
      have hv := hcf (r, c1) (r, c2) hpne (Or.inl rfl) (hfill r c1)
      have h1 := hfill r c1
      have h2 := hfill r c2
      have h3 := congrArg Fin.val heq
      simp only [] at h3
      have h4 : b r c1 ≠ b r c2 := hv
      omega
    obtain ⟨c, hc⟩ := (Finite.injective_iff_surjective.mp hinj)
      ⟨d - 1, by omega⟩
    have hcval := congrArg Fin.val hc
    simp only [] at hcval
    have hcd : b r c = d := by
      have := hfill r c
      omega
    refine ⟨c, hcd, ?_⟩
    intro c2 hc2
    apply hinj
    rw [hc]
    apply Fin.ext
    simp only []
    omega
  · intro c
    have hinj : Function.Injective (fun r : Fin 9 =>
        (⟨b r c - 1, by
          have h1 := hrng r c
          have h2 := hfill r c
          omega⟩ : Fin 9)) := by
      intro r1 r2 heq
      by_contra hne
      have hpne : ((r1, c) : Fin 9 × Fin 9) ≠ (r2, c) := by
        intro hcon
        exact hne (congrArg Prod.fst hcon)
      have hv := hcf (r1, c) (r2, c) hpne (Or.inr (Or.inl rfl)) (hfill r1 c)
      have h1 := hfill r1 c
      have h2 := hfill r2 c
      have h3 := congrArg Fin.val heq
      simp only [] at h3
      have h4 : b r1 c ≠ b r2 c := hv
      omega
    obtain ⟨r, hr⟩ := (Finite.injective_iff_surjective.mp hinj)
      ⟨d - 1, by omega⟩
    have hrval := congrArg Fin.val hr
    simp only [] at hrval
    have hrd : b r c = d := by
      have := hfill r c
      omega
    refine ⟨r, hrd, ?_⟩
    intro r2 hr2
    apply hinj
    rw [hr]
    apply Fin.ext
    simp only []
    omega
  · intro bi
    have hinj : Function.Injective (fun i : Fin 9 =>
        (⟨b (blockCell bi i).1 (blockCell bi i).2 - 1, by
          have h1 := hrng (blockCell bi i).1 (blockCell bi i).2
          have h2 := hfill (blockCell bi i).1 (blockCell bi i).2
          omega⟩ : Fin 9)) := by
      intro i j heq
      by_contra hne
      have hpne : blockCell bi i ≠ blockCell bi j := by
        intro hcon
        exact hne (blockCell_inj bi i j hcon)
      have hsame : SameUnit (blockCell bi i) (blockCell bi j) := by
        right
        right
        rw [blockCell_blockIndex, blockCell_blockIndex]
      have hv := hcf _ _ hpne hsame (hfill _ _)
      have h1 := hfill (blockCell bi i).1 (blockCell bi i).2
      have h2 := hfill (blockCell bi j).1 (blockCell bi j).2
      have h3 := congrArg Fin.val heq
      simp only [] at h3
      have h4 : b (blockCell bi i).1 (blockCell bi i).2
          ≠ b (blockCell bi j).1 (blockCell bi j).2 := hv
      omega
    obtain ⟨i, hi⟩ := (Finite.injective_iff_surjective.mp hinj)
      ⟨d - 1, by omega⟩
    have hival := congrArg Fin.val hi
    simp only [] at hival
    have hid : b (blockCell bi i).1 (blockCell bi i).2 = d := by
      have := hfill (blockCell bi i).1 (blockCell bi i).2
      omega
    refine ⟨blockCell bi i, ⟨blockCell_blockIndex bi i, hid⟩, ?_⟩
    rintro p ⟨hpbi, hpd⟩
    obtain ⟨j, hj⟩ := blockCell_cover p bi hpbi
    have hfj : b (blockCell bi j).1 (blockCell bi j).2 = d := by
      rw [hj]
      exact hpd
    have hji : j = i := by
      apply hinj
      rw [hi]
      apply Fin.ext
      simp only []
      omega
    rw [← hj, hji]

/-! ### Correctness of the digging loop -/

/-- The digging loop preserves the invariant "every clue copies `sol`, and
the puzzle has exactly one solution". -/
theorem digLoop_spec (sol : Board) (hsol : IsValidFull sol) (target : Nat) :
    ∀ (positions : List (Fin 9 × Fin 9)) (puzzle : Board),
      (∀ r c : Fin 9, puzzle r c ≠ 0 → puzzle r c = sol r c) →
      numSolutions puzzle = 1 →
      (∀ r c : Fin 9, digLoop target positions puzzle r c ≠ 0 →
        digLoop target positions puzzle r c = sol r c) ∧
      numSolutions (digLoop target positions puzzle) = 1 := by
  intro positions
  induction positions with
  | nil =>
    intro puzzle hsub huniq
    rw [digLoop]
    exact ⟨hsub, huniq⟩
  | cons pos rest ih =>
    intro puzzle hsub huniq
    by_cases h1 : countFilled puzzle ≤ target
    · have hstep : digLoop target (pos :: rest) puzzle = puzzle := by
        rw [digLoop.eq_2, if_pos h1]
      rw [hstep]
      exact ⟨hsub, huniq⟩
    · by_cases h2 : puzzle pos.1 pos.2 = 0
      · have hstep : digLoop target (pos :: rest) puzzle
            = digLoop target rest puzzle := by
          rw [digLoop.eq_2, if_neg h1, if_pos h2]
        rw [hstep]
        exact ih puzzle hsub huniq
      · cases hload : loadBoard (setCell puzzle pos.1 pos.2 0) with
        | none =>
          have hstep : digLoop target (pos :: rest) puzzle
              = digLoop target rest puzzle := by
            rw [digLoop.eq_2, if_neg h1, if_neg h2, hload, setCell_restore]
          rw [hstep]
          exact ih puzzle hsub huniq
        | some solver =>
          by_cases h3 : solver.countSolutions 2 ≠ 1
          · have hstep : digLoop target (pos :: rest) puzzle
                = digLoop target rest puzzle := by
              rw [digLoop.eq_2, if_neg h1, if_neg h2, hload]
              show (if solver.countSolutions 2 ≠ 1 then
                  digLoop target rest
                    (setCell (setCell puzzle pos.1 pos.2 0) pos.1 pos.2
                      (puzzle pos.1 pos.2))
                else digLoop target rest (setCell puzzle pos.1 pos.2 0))
                = digLoop target rest puzzle
              rw [if_pos h3, setCell_restore]
            rw [hstep]
            exact ih puzzle hsub huniq
          · have hstep : digLoop target (pos :: rest) puzzle
                = digLoop target rest (setCell puzzle pos.1 pos.2 0) := by
              rw [digLoop.eq_2, if_neg h1, if_neg h2, hload]
              show (if solver.countSolutions 2 ≠ 1 then
                  digLoop target rest
                    (setCell (setCell puzzle pos.1 pos.2 0) pos.1 pos.2
                      (puzzle pos.1 pos.2))
                else digLoop target rest (setCell puzzle pos.1 pos.2 0))
                = digLoop target rest (setCell puzzle pos.1 pos.2 0)
              rw [if_neg h3]
            rw [hstep]
            have hcnt : solver.countSolutions 2 = 1 := not_not.mp h3
            have hsub2 : ∀ r c : Fin 9,
                setCell puzzle pos.1 pos.2 0 r c ≠ 0 →
                setCell puzzle pos.1 pos.2 0 r c = sol r c := by
              intro r c h
              by_cases hrc : r = pos.1 ∧ c = pos.2
              · obtain ⟨rfl, rfl⟩ := hrc
                rw [setCell_same] at h
                exact absurd rfl h
              · rw [setCell_other _ _ _ _ _ _ hrc] at h ⊢
                exact hsub r c h
            have hInR2 : InRange (setCell puzzle pos.1 pos.2 0) :=
              inRange_of_sub sol _ hsol.2.1 hsub2
            have huniq2 : numSolutions (setCell puzzle pos.1 pos.2 0) = 1 := by
              have hcs : solver.countSolutions 2
                  = min (numSolutions (setCell puzzle pos.1 pos.2 0)) 2 :=
                (solve_spec _ solver hInR2 hload 2).1
              apply min_two_eq_one
              rw [← hcs]
              exact hcnt
            exact ih (setCell puzzle pos.1 pos.2 0) hsub2 huniq2

/-! ### The generator and digger claims -/

/-- C7: for every rng state (and positive retry fuel),
`generateFullSolution` returns a complete valid board in which every row,
column, and block holds each digit 1–9 exactly once; and whenever the inner
search reports failure, it retries with the advanced rng rather than
failing. -/
theorem C7_generateFullSolution (fuel : Nat) (rng : Rng) (hf : 1 ≤ fuel) :
    (∃ out : Board × Rng, generateFullSolutionF fuel rng = some out ∧
      IsValidFull out.1 ∧ ExactlyOnce out.1) ∧
    (∀ (f2 : Nat) (r2 : Rng), (genDfsF 82 (genInit r2)).1 = false →
      generateFullSolutionF (f2 + 1) r2
        = generateFullSolutionF f2 (genDfsF 82 (genInit r2)).2.rng) := by
  constructor
  · obtain ⟨out, hout, hvalid⟩ := generateFullSolution_spec fuel rng hf
    exact ⟨out, hout, hvalid, validFull_exactlyOnce out.1 hvalid⟩
  · intro f2 r2 hfail
    rw [generateFullSolutionF, if_neg]
    rw [hfail]
    exact Bool.false_ne_true

/-- C7 witness: the generator at fuel 1 with the zero rng stream. -/
theorem C7_generateFullSolution_witness :
    (∃ out : Board × Rng, generateFullSolutionF 1 ⟨fun _ => 0, 0⟩ = some out ∧
      IsValidFull out.1 ∧ ExactlyOnce out.1) ∧
    (∀ (f2 : Nat) (r2 : Rng), (genDfsF 82 (genInit r2)).1 = false →
      generateFullSolutionF (f2 + 1) r2
        = generateFullSolutionF f2 (genDfsF 82 (genInit r2)).2.rng) :=
  C7_generateFullSolution 1 ⟨fun _ => 0, 0⟩ (by omega)

/-- C2: every puzzle `generatePuzzle` returns loads successfully and, run
through the solver with `countLimit = 2`, reports exactly one solution. -/
theorem C2_generatePuzzle_unique (fuel : Nat) (rng : Rng) (target : Nat)
    (hf : 1 ≤ fuel) :
    ∃ (p : Board) (sv : Solver), generatePuzzleF fuel rng target = some p ∧
      loadBoard p = some sv ∧ sv.countSolutions 2 = 1 := by
  obtain ⟨out, hout, hvalid⟩ := generateFullSolution_spec fuel rng hf
  obtain ⟨hsub, huniq⟩ := digLoop_spec out.1 hvalid target
    (shuffle out.2 allCells).1 out.1 (fun _ _ _ => rfl)
    (numSolutions_of_full out.1 hvalid)
  have hp : generatePuzzleF fuel rng target
      = some (digLoop target (shuffle out.2 allCells).1 out.1) := by
    rw [generatePuzzleF, hout]
    rfl
  have hcf : ConflictFree (digLoop target (shuffle out.2 allCells).1 out.1) :=
    conflictFree_of_numSolutions_ne_zero _ (by omega)
  have hsome : (loadBoard
      (digLoop target (shuffle out.2 allCells).1 out.1)).isSome = true :=
    (loadBoard_isSome_iff _).mpr hcf
  obtain ⟨sv, hsv⟩ := Option.isSome_iff_exists.mp hsome
  have hInR : InRange (digLoop target (shuffle out.2 allCells).1 out.1) :=
    inRange_of_sub out.1 _ hvalid.2.1 hsub
  have hcnt : sv.countSolutions 2
      = min (numSolutions (digLoop target (shuffle out.2 allCells).1 out.1))
        2 := (solve_spec _ sv hInR hsv 2).1
  refine ⟨digLoop target (shuffle out.2 allCells).1 out.1, sv, hp, hsv, ?_⟩
  rw [hcnt, huniq]
  exact min_with_two_of_one 1 rfl

/-- C2 witness: the digger at fuel 1, the zero rng stream, and the default
target of 30 clues. -/
theorem C2_generatePuzzle_unique_witness :
    ∃ (p : Board) (sv : Solver),
      generatePuzzleF 1 ⟨fun _ => 0, 0⟩ 30 = some p ∧
      loadBoard p = some sv ∧ sv.countSolutions 2 = 1 :=
  C2_generatePuzzle_unique 1 ⟨fun _ => 0, 0⟩ 30 (by omega)

/-- C10: every nonzero cell of the returned puzzle equals the internally
generated solution's cell, and that solution completes the puzzle, so the
puzzle has at least one solution. -/
theorem C10_puzzle_subset_solution (fuel : Nat) (rng : Rng) (target : Nat)
    (hf : 1 ≤ fuel) :
    ∃ (p : Board) (out : Board × Rng),
      generateFullSolutionF fuel rng = some out ∧
      generatePuzzleF fuel rng target = some p ∧
      (∀ r c : Fin 9, p r c ≠ 0 → p r c = out.1 r c) ∧
      IsCompletion p out.1 := by
  obtain ⟨out, hout, hvalid⟩ := generateFullSolution_spec fuel rng hf
  obtain ⟨hsub, huniq⟩ := digLoop_spec out.1 hvalid target
    (shuffle out.2 allCells).1 out.1 (fun _ _ _ => rfl)
    (numSolutions_of_full out.1 hvalid)
  have hp : generatePuzzleF fuel rng target
      = some (digLoop target (shuffle out.2 allCells).1 out.1) := by
    rw [generatePuzzleF, hout]
    rfl
  refine ⟨digLoop target (shuffle out.2 allCells).1 out.1, out, hout, hp,
    hsub, hvalid, ?_⟩
  intro r c h
  exact (hsub r c h).symm

/-- C10 witness: instantiated at fuel 1, the zero rng stream, target 30. -/
theorem C10_puzzle_subset_solution_witness :
    ∃ (p : Board) (out : Board × Rng),
      generateFullSolutionF 1 ⟨fun _ => 0, 0⟩ = some out ∧
      generatePuzzleF 1 ⟨fun _ => 0, 0⟩ 30 = some p ∧
      (∀ r c : Fin 9, p r c ≠ 0 → p r c = out.1 r c) ∧
      IsCompletion p out.1 :=
  C10_puzzle_subset_solution 1 ⟨fun _ => 0, 0⟩ 30 (by omega)

/-- C4 counterexample: on board `B4` (three 5s in row 0), clearing cell
(0,0) makes the reload fail, and the digger RESTORES the clue: the
resulting cell holds 5 again, not 0 as the claim's "keep it cleared"
asserts. -/
theorem C4_cell_restored_counterexample :
    loadBoard (setCell B4 0 0 0) = none ∧
    digLoop 0 [((0 : Fin 9), (0 : Fin 9))] B4 0 0 = 5 ∧
    ¬ digLoop 0 [((0 : Fin 9), (0 : Fin 9))] B4 0 0 = 0 := by
  refine ⟨rfl, ?_, ?_⟩ <;> decide

/-- C4 (amended): when reloading after tentatively clearing a clue fails,
the digger writes the old value back and skips the position without
running the uniqueness search: the loop continues on the UNCHANGED
puzzle. -/
theorem C4_load_failure_restores (target : Nat) (pos : Fin 9 × Fin 9)
    (rest : List (Fin 9 × Fin 9)) (puzzle : Board)
    (h1 : ¬ countFilled puzzle ≤ target) (h2 : puzzle pos.1 pos.2 ≠ 0)
    (h3 : loadBoard (setCell puzzle pos.1 pos.2 0) = none) :
    digLoop target (pos :: rest) puzzle = digLoop target rest puzzle := by
  rw [digLoop.eq_2, if_neg h1, if_neg h2, h3, setCell_restore]

/-- C4 witness: the amended behaviour on the concrete board `B4`. -/
theorem C4_load_failure_restores_witness :
    digLoop 0 [((0 : Fin 9), (0 : Fin 9))] B4
      = digLoop 0 ([] : List (Fin 9 × Fin 9)) B4 :=
  C4_load_failure_restores 0 ((0 : Fin 9), (0 : Fin 9)) [] B4
    (by decide) (by decide) rfl

end Fastsolver
